import Mathlib

/-!
# Verification of the frozen/elsa JSON toolkit

A shallow embedding, in Lean 4, of the C sources of the `frozen` fork
(`src/frozen/walk.c`, `src/frozen/setf.c`, `src/elsa/walk.c`,
`src/elsa/printer.c`, `src/elsa/printf.c`, `src/elsa/scanf.c`,
`src/elsa/util.h`), together with theorems checking the natural-language
specification against the code.

Modelling conventions:

* A C byte string is a `List Char`, each `Char` standing for one byte;
  an index (`Nat`) into that list stands for a C pointer into the buffer.
  Reading one byte past a tracked length (which the C can do, e.g.
  `get_escape_len` on a backslash at the very end of the window) reads the
  actual underlying list, with `'\x00'` once past the whole allocation.
* C `int` return codes are `Int`; error unwinding via the `TRY` macro is an
  explicit result type.  The walker's recursion is made structural with a
  fuel argument; `runP_no_fuelOut` proves the fuel supplied by `jsonWalkFull`
  is always sufficient, so the extra `fuelOut` outcome is unreachable there.
* The user callback of `json_walk` (a C function pointer mutating user data)
  is a pure fold function `σ → …ev… → σ`; the C `struct json_token` carries a
  pointer into the source, modelled as `Option Nat` (`none` is `NULL`).
* `JSON_MAX_PATH_LEN` is defined in a header that is not part of the sources
  here; the spec fixes it as a compile-time constant, recommended ≥ 256.
  We use 256.  None of the inputs in the claims comes near the cap.
-/

namespace Frozen

/-! ## util.h -/

/-- `is_space` from util.h. -/
def is_space (ch : Char) : Bool :=
  ch = ' ' || ch = '\t' || ch = '\r' || ch = '\n'

/-- `is_alpha` from util.h. -/
def is_alpha (ch : Char) : Bool :=
  ('a' ≤ ch && ch ≤ 'z') || ('A' ≤ ch && ch ≤ 'Z')

/-- `is_digit` from util.h. -/
def is_digit (ch : Char) : Bool :=
  '0' ≤ ch && ch ≤ '9'

/-- `is_hex_digit` from util.h. -/
def is_hex_digit (ch : Char) : Bool :=
  is_digit ch || ('a' ≤ ch && ch ≤ 'f') || ('A' ≤ ch && ch ≤ 'F')

/-- `get_utf8_char_len` from util.h.  Note the C function never returns 0. -/
def get_utf8_char_len (ch : Char) : Nat :=
  if ch.toNat &&& 0x80 = 0 then 1
  else if ch.toNat &&& 0xf0 = 0xf0 then 4
  else if ch.toNat &&& 0xf0 = 0xe0 then 3
  else 2

/-- `JSON_MAX_PATH_LEN`.  Modelled from the spec: the constant lives in the
`frozen.h` / `elsa.h` headers, which are not among the sources; the spec says
it is an implementation-chosen compile-time constant, ≥ 256 recommended. -/
def JSON_MAX_PATH_LEN : Nat := 256

/-! ## Walker data model (walk.c)

`src/frozen/walk.c` and `src/elsa/walk.c` are byte-for-byte the same parser
(only the context struct is named differently); one embedding covers both. -/

/-- `enum json_token_type`. -/
inductive JType where
  | objectStart | objectEnd | arrayStart | arrayEnd
  | str | num | tru | fls | nul
  deriving DecidableEq, Repr

/-- `struct json_token`: pointer into the source (`none` = `NULL`),
length, type. -/
structure JTok where
  ptr : Option Nat
  len : Nat
  ty  : JType
  deriving DecidableEq, Repr

/-- The walker callback: user data, name slice (`none` = `NULL`), current
path, token.  The C name is a pointer+length pair; the model passes the bytes
it designates. -/
abbrev WalkCb (σ : Type) := σ → Option (List Char) → List Char → JTok → σ

/-- The mutable parts of `struct frozen` that a parse step threads:
cursor offset, path buffer, current name, user data. -/
structure PSt (σ : Type) where
  c    : Nat
  path : List Char
  name : Option (List Char)
  acc  : σ
  deriving DecidableEq, Repr

/-- Error codes: `JSON_STRING_INVALID` (-1), `JSON_STRING_INCOMPLETE` (-2),
plus the model-only fuel exhaustion marker. -/
inductive PErr where
  | invalid | incomplete | fuelOut
  deriving DecidableEq, Repr

/-- Result of a recursive parse step.  An error carries the user data as
accumulated so far: in C the error unwinds the parsers but the callback's
writes to the user data persist. -/
inductive PRes (σ : Type) where
  | ok (st : PSt σ)
  | err (code : PErr) (a : σ)
  deriving DecidableEq, Repr

section Walker

variable {σ : Type} (cb : WalkCb σ) (s : List Char) (e : Nat)

/-- Read the byte at offset `i` (0 past the end of the allocation). -/
def getB (i : Nat) : Char := s.getD i (Char.ofNat 0)

/-- Length of the longest run of characters satisfying `p` at the head. -/
def spn (p : Char → Bool) : List Char → Nat
  | [] => 0
  | ch :: t => if p ch then spn p t + 1 else 0

/-- The bytes of the window `[c, e)`, as seen by the walker. -/
def winFrom (c : Nat) : List Char := (s.take e).drop c

/-- `skip_whitespaces`: advance the cursor over whitespace inside the
window. -/
def skipWs (c : Nat) : Nat := c + spn is_space (winFrom s e c)

/-- `cur`: skip whitespace, then peek; `none` models `END_OF_STRING`. -/
def curC (c : Nat) : Nat × Option Char :=
  let c' := skipWs s e c
  (c', if c' < e then some (getB s c') else none)

/-- `test_and_skip`. -/
def testAndSkip (c : Nat) (expected : Char) : Except PErr Nat :=
  match curC s e c with
  | (c', some ch) => if ch = expected then .ok (c' + 1) else .error .invalid
  | (_, none) => .error .incomplete

/-- `append_to_path`: append at most `JSON_MAX_PATH_LEN - 1 - |path|` bytes,
returning the pre-append length (used by callers to restore). -/
def appendToPath (p str : List Char) : Nat × List Char :=
  let n := p.length
  let room := JSON_MAX_PATH_LEN - n - 1
  (n, p ++ str.take room)

/-- The `CALL_BACK` macro: fire the callback unless the path ends in the
`'.'` sentinel; reset the name afterwards. -/
def callBack (st : PSt σ) (ty : JType) (ptr : Option Nat) (len : Nat) : PSt σ :=
  if st.path = [] ∨ st.path.getLast? ≠ some '.' then
    { st with acc := cb st.acc st.name st.path ⟨ptr, len, ty⟩, name := none }
  else st

/-- `get_escape_len(s + bs + 1, e - bs)`: `bs` is the offset of the
backslash.  Returns the length of the escape tail (> 0), or -1 or -2. -/
def escLen (bs : Nat) : Int :=
  let avail := e - bs
  let c1 := bs + 1
  if getB s c1 = 'u' then
    if avail < 6 then -2
    else if is_hex_digit (getB s (c1+1)) && is_hex_digit (getB s (c1+2)) &&
            is_hex_digit (getB s (c1+3)) && is_hex_digit (getB s (c1+4)) then 5
    else -1
  else if getB s c1 = '"' ∨ getB s c1 = '\\' ∨ getB s c1 = '/' ∨
          getB s c1 = 'b' ∨ getB s c1 = 'f' ∨ getB s c1 = 'n' ∨
          getB s c1 = 'r' ∨ getB s c1 = 't' then
    if avail < 2 then -2 else 1
  else -1

/-- The scanning loop of `parse_string`, after the opening quote.  Returns
the offset of the closing quote.  Falling off the end of the window is
`INCOMPLETE` (the C re-checks `ch == '"'` after the loop). -/
def strLoop : Nat → Nat → Except PErr Nat
  | 0, _ => .error .fuelOut
  | fuel + 1, c =>
    if c < e then
      let ch := getB s c
      let len := get_utf8_char_len ch
      if 32 ≤ ch.toNat ∧ 0 < len then
        if len ≤ e - c then
          if ch = '\\' then
            let n := escLen s e c
            if 0 < n then strLoop fuel (c + (len + n.toNat))
            else if n = -2 then .error .incomplete else .error .invalid
          else if ch = '"' then .ok c
          else strLoop fuel (c + len)
        else .error .incomplete
      else .error .invalid
    else .error .incomplete

/-- `parse_string`.  On success the cursor is just past the closing quote and
a STRING callback fired with the slice between the quotes. -/
def parseString (st : PSt σ) : PRes σ :=
  match testAndSkip s e st.c '"' with
  | .error code => .err code st.acc
  | .ok c1 =>
    match strLoop s e (s.length + 1) c1 with
    | .error code => .err code st.acc
    | .ok q => .ok (callBack cb { st with c := q + 1 } .str (some c1) (q - c1))

/-- `parse_identifier`.  The `EXPECT(is_alpha(cur(f)), INVALID)` guard (with
`cur` skipping whitespace) comes first. -/
def parseIdentifier (st : PSt σ) : PRes σ :=
  match curC s e st.c with
  | (c0, some ch) =>
    if is_alpha ch then
      let n := spn (fun c => c = '_' || is_alpha c || is_digit c) (winFrom s e c0)
      .ok (callBack cb { st with c := c0 + n } .str (some c0) n)
    else .err .invalid st.acc
  | (_, none) => .err .invalid st.acc

/-- The repeated digit-run motif of `parse_number`:
`EXPECT(f->cur < f->end, INCOMPLETE); EXPECT(is_digit, INVALID);
while (digit) cur++`. -/
def digTail (c : Nat) : Except PErr Nat :=
  if c < e then
    if is_digit (getB s c) then .ok (c + spn is_digit (winFrom s e c))
    else .error .invalid
  else .error .incomplete

/-- The `[ '.' digit+ ]` phase of `parse_number` (cursor `c2` is just past
the integer digits). -/
def numFrac (c2 : Nat) : Except PErr Nat :=
  if c2 < e ∧ getB s c2 = '.' then digTail s e (c2 + 1)
  else .ok c2

/-- The `[ ('e'|'E') ['+'|'-'] digit+ ]` phase of `parse_number`. -/
def numExpo (c4 : Nat) : Except PErr Nat :=
  if c4 < e ∧ (getB s c4 = 'e' ∨ getB s c4 = 'E') then
    let c5 := c4 + 1
    if c5 < e then
      digTail s e (if getB s c5 = '+' ∨ getB s c5 = '-' then c5 + 1 else c5)
    else .error .incomplete
  else .ok c4

/-- `parse_number`, phase by phase as in the C. -/
def parseNumber (st : PSt σ) : PRes σ :=
  let (c0, och) := curC s e st.c
  let c1 := if och = some '-' then c0 + 1 else c0
  if c1 < e then
    if is_digit (getB s c1) then
      let c2 := c1 + spn is_digit (winFrom s e c1)
      match numFrac s e c2 with
      | .error code => .err code st.acc
      | .ok c4 =>
        match numExpo s e c4 with
        | .error code => .err code st.acc
        | .ok c7 => .ok (callBack cb { st with c := c7 } .num (some c0) (c7 - c0))
    else .err .invalid st.acc
  else .err .incomplete st.acc

/-- The byte-comparison loop of `expect`: bounds check before compare. -/
def matchLit : Nat → List Char → Except PErr Nat
  | c, [] => .ok c
  | c, ch :: rest =>
    if c < e then
      if getB s c = ch then matchLit (c + 1) rest else .error .invalid
    else .error .incomplete

/-- `expect`: match a literal (`null` / `true` / `false`) at the cursor. -/
def expectLit (st : PSt σ) (lit : List Char) (ty : JType) : PRes σ :=
  match matchLit s e st.c lit with
  | .error code => .err code st.acc
  | .ok c' => .ok (callBack cb { st with c := c' } ty (some st.c) (c' - st.c))

/-- `parse_key`: identifier or string (the dispatch `cur` already skips
whitespace, so the sub-parser's own `cur` re-skips nothing). -/
def parseKey (st : PSt σ) : PRes σ :=
  match curC s e st.c with
  | (c0, some ch) =>
    if is_alpha ch then parseIdentifier cb s e { st with c := c0 }
    else if ch = '"' then parseString cb s e { st with c := c0 }
    else .err .invalid st.acc
  | (_, none) => .err .incomplete st.acc

/-- The mutually recursive procedures of walk.c, as modes of one
fuel-indexed step function: `value` = `parse_value`, `obj` = `parse_object`,
`objLoop` = its `while (cur(f) != '}')` loop, `pair` = `parse_pair`,
`arr` = `parse_array`, `arrLoop i` = its element loop with counter `i`. -/
inductive PMode where
  | value | obj | objLoop | pair | arr
  | arrLoop (i : Nat)
  deriving DecidableEq, Repr

/-- One fuel-indexed interpreter for the mutually recursive parsers of
walk.c.  Fuel decreases at every recursive call; `runP_no_fuelOut` shows
`3*(e-c)+4` fuel suffices. -/
def runP : Nat → PMode → PSt σ → PRes σ
  | 0, _, st => .err .fuelOut st.acc
  | fuel + 1, .value, st =>
    match curC s e st.c with
    | (c0, some ch) =>
      if ch = '"' then parseString cb s e { st with c := c0 }
      else if ch = '{' then runP fuel .obj { st with c := c0 }
      else if ch = '[' then runP fuel .arr { st with c := c0 }
      else if ch = 'n' then expectLit cb s e { st with c := c0 } ['n','u','l','l'] .nul
      else if ch = 't' then expectLit cb s e { st with c := c0 } ['t','r','u','e'] .tru
      else if ch = 'f' then expectLit cb s e { st with c := c0 } ['f','a','l','s','e'] .fls
      else if ch = '-' ∨ is_digit ch then parseNumber cb s e { st with c := c0 }
      else .err .invalid st.acc
    | (_, none) => .err .incomplete st.acc
  | fuel + 1, .obj, st =>
    let st1 := callBack cb st .objectStart none 0
    match testAndSkip s e st1.c '{' with
    | .error code => .err code st1.acc
    | .ok c1 =>
      let fsPtr := c1 - 1
      let fsLen := st1.path.length
      let st2 := { st1 with c := c1, path := (appendToPath st1.path ['.']).2 }
      match runP fuel .objLoop st2 with
      | .err code a => .err code a
      | .ok st3 =>
        match testAndSkip s e st3.c '}' with
        | .error code => .err code st3.acc
        | .ok c2 =>
          let st4 := { st3 with c := c2, path := st3.path.take fsLen }
          .ok (callBack cb st4 .objectEnd (some fsPtr) (c2 - fsPtr))
  | fuel + 1, .objLoop, st =>
    let (c', och) := curC s e st.c
    if och = some '}' then .ok { st with c := c' }
    else
      match runP fuel .pair { st with c := c' } with
      | .err code a => .err code a
      | .ok st2 =>
        let (c2, och2) := curC s e st2.c
        let c3 := if och2 = some ',' then c2 + 1 else c2
        runP fuel .objLoop { st2 with c := c3 }
  | fuel + 1, .pair, st =>
    let tok := skipWs s e st.c
    match parseKey cb s e { st with c := tok } with
    | .err code a => .err code a
    | .ok st1 =>
      let nameStr :=
        if getB s tok = '"' then (s.drop (tok + 1)).take (st1.c - tok - 2)
        else (s.drop tok).take (st1.c - tok)
      let (cpl, p1) := appendToPath st1.path nameStr
      let st2 := { st1 with path := p1, name := some nameStr }
      match testAndSkip s e st2.c ':' with
      | .error code => .err code st2.acc
      | .ok c2 =>
        match runP fuel .value { st2 with c := c2 } with
        | .err code a => .err code a
        | .ok st3 => .ok { st3 with path := st3.path.take cpl }
  | fuel + 1, .arr, st =>
    let st1 := callBack cb st .arrayStart none 0
    match testAndSkip s e st1.c '[' with
    | .error code => .err code st1.acc
    | .ok c1 =>
      let fsPtr := c1 - 1
      let fsLen := st1.path.length
      match runP fuel (.arrLoop 0) { st1 with c := c1 } with
      | .err code a => .err code a
      | .ok st2 =>
        match testAndSkip s e st2.c ']' with
        | .error code => .err code st2.acc
        | .ok c2 =>
          let st3 := { st2 with c := c2, path := st2.path.take fsLen }
          .ok (callBack cb st3 .arrayEnd (some fsPtr) (c2 - fsPtr))
  | fuel + 1, .arrLoop i, st =>
    let (c', och) := curC s e st.c
    if och = some ']' then .ok { st with c := c' }
    else
      let buf := (('[' :: Nat.toDigits 10 i) ++ [']']).take 19
      let (cpl, p1) := appendToPath st.path buf
      let nameStr := (p1.drop (p1.length - buf.length + 1)).take (buf.length - 2)
      let st1 := { st with c := c', path := p1, name := some nameStr }
      match runP fuel .value st1 with
      | .err code a => .err code a
      | .ok st2 =>
        let st3 := { st2 with path := st2.path.take cpl }
        let (c2, och2) := curC s e st3.c
        let c3 := if och2 = some ',' then c2 + 1 else c2
        runP fuel (.arrLoop (i + 1)) { st3 with c := c3 }

end Walker

/-- `json_walk(s, len, cb, data)`, full outcome: on success the user data and
the number of bytes consumed (`f.cur - json_string`).  `doit`'s NULL-pointer
check has no counterpart (there is no NULL list), and a negative
`json_string_length` cannot be expressed (`len : Nat`); `doit`'s
`end == cur` check is `len = 0`. -/
def jsonWalkFull {σ : Type} (cb : WalkCb σ) (a : σ) (s : List Char) (len : Nat) :
    Except (PErr × σ) (σ × Nat) :=
  if len = 0 then .error (.incomplete, a)
  else
    match runP cb s len (3 * s.length + 4) .value ⟨0, [], none, a⟩ with
    | .ok st => .ok (st.acc, st.c)
    | .err code a' => .error (code, a')

/-- `json_walk`'s C return value.  `-3` marks the model-only fuel-out case,
proven unreachable (`jsonWalkFull_no_fuelOut`). -/
def jsonWalkInt {σ : Type} (cb : WalkCb σ) (a : σ) (s : List Char) (len : Nat) : Int :=
  match jsonWalkFull cb a s len with
  | .ok (_, n) => (n : Int)
  | .error (.invalid, _) => -1
  | .error (.incomplete, _) => -2
  | .error (.fuelOut, _) => -3

/-- A walker event as observed by a callback. -/
structure WEv where
  name : Option (List Char)
  path : List Char
  tok  : JTok
  deriving DecidableEq, Repr

/-- The event-collecting callback. -/
def collectCb : WalkCb (List WEv) := fun evs n p t => evs ++ [⟨n, p, t⟩]

/-- All events emitted by walking `s` (whole list). -/
def jsonWalkEvents (s : List Char) : List WEv :=
  match jsonWalkFull collectCb [] s s.length with
  | .ok (evs, _) => evs
  | .error (_, evs) => evs

/-! ## Sinks (printer.c) and the format printer (printf.c) -/

/-- A byte sink: `out->printer(out, buf, len)` threading its own state and
returning the number of bytes it reports written. -/
abbrev SinkP (σ : Type) := σ → List Char → σ × Nat

/-- The buffer variant of `struct json_out`: backing array contents (`buf`),
capacity (`size`), bytes accepted so far (`len`). -/
structure JOutBuf where
  buf  : List Char
  size : Nat
  len  : Nat
  deriving DecidableEq, Repr

/-- `json_printer_buf` from printer.c: copy at most the remaining capacity,
keep a trailing NUL while capacity is positive, report the full requested
length. -/
def jsonPrinterBuf (out : JOutBuf) (data : List Char) : JOutBuf × Nat :=
  let avail := out.size - out.len
  let n := min data.length avail
  let buf1 := out.buf.take out.len ++ data.take n ++ out.buf.drop (out.len + n)
  let len1 := out.len + n
  let buf2 :=
    if 0 < out.size then
      let idx := if out.size ≤ len1 then out.size - 1 else len1
      buf1.set idx (Char.ofNat 0)
    else buf1
  (⟨buf2, out.size, len1⟩, data.length)

/-- A sink that simply records the bytes (a "sufficiently large" buffer). -/
def collectSink : SinkP (List Char) := fun st d => (st ++ d, d.length)

/-- An argument consumed by a `%` conversion; the spec (§9) recommends
modelling the C va_list as exactly such a tagged sequence. -/
inductive FmtArg where
  | aInt (n : Int)
  | aChar (c : Char)
  | aStr (v : Option (List Char))
  | aBytes (bs : List Nat)
  deriving DecidableEq, Repr

/-- `b64idx` from printf.c (as a `Char`). -/
def b64idx (c : Nat) : Char :=
  if c < 26 then Char.ofNat ('A'.toNat + c)
  else if c < 52 then Char.ofNat ('a'.toNat + (c - 26))
  else if c < 62 then Char.ofNat ('0'.toNat + (c - 52))
  else if c = 62 then '+' else '/'

/-- One buffer of `b64enc`: indices computed from three byte values
(`a >> 2`, `(a & 3) << 4 | b >> 4`, `(b & 15) << 2 | c >> 6`, `c & 63`,
written in div/mod form), then `'='` overrides for a short final group. -/
def b64group (a b c : Nat) (just1 just2 : Bool) : List Char :=
  let e0 := b64idx (a / 4)
  let e1 := b64idx ((a % 4) * 16 + b / 16)
  let e2 := b64idx ((b % 16) * 4 + c / 64)
  let e3 := b64idx (c % 64)
  [e0, e1, if just1 then '=' else e2, if just1 || just2 then '=' else e3]

/-- `b64enc` from printf.c: emit 4 characters per 3 input bytes, one
printer call per group, accumulating the printer-reported lengths. -/
def b64encRun {σ : Type} (p : SinkP σ) : List Nat → σ → σ × Nat
  | [], st => (st, 0)
  | [a], st => p st (b64group a 0 0 true true)
  | [a, b], st => p st (b64group a b 0 false true)
  | a :: b :: c :: t, st =>
    let (st1, l1) := p st (b64group a b c false false)
    let (st2, l2) := b64encRun p t st1
    (st2, l1 + l2)

/-- Lowercase hex digit. -/
def hexDigit (n : Nat) : Char :=
  if n < 10 then Char.ofNat ('0'.toNat + n) else Char.ofNat ('a'.toNat + (n - 10))

/-- The escape sequence for one byte.  Modelled from the spec: `json_escape`
is declared in the missing header and not among the sources; the spec fixes
it: `\"` `\\` `\b` `\f` `\n` `\r` `\t` for those bytes, `\uXXXX` for other
bytes below 32, all other bytes pass through literally. -/
def escByte (ch : Char) : List Char :=
  if ch = '"' then ['\\', '"']
  else if ch = '\\' then ['\\', '\\']
  else if ch.toNat = 8 then ['\\', 'b']
  else if ch.toNat = 12 then ['\\', 'f']
  else if ch = '\n' then ['\\', 'n']
  else if ch = '\r' then ['\\', 'r']
  else if ch = '\t' then ['\\', 't']
  else if ch.toNat < 32 then
    ['\\', 'u', hexDigit (ch.toNat / 4096 % 16), hexDigit (ch.toNat / 256 % 16),
     hexDigit (ch.toNat / 16 % 16), hexDigit (ch.toNat % 16)]
  else [ch]

/-- `json_escape(out, p, len)`: emit the escaped form of the bytes, one
printer call per source byte.  Modelled from the spec (see `escByte`). -/
def jsonEscapeRun {σ : Type} (p : SinkP σ) : List Char → σ → σ × Nat
  | [], st => (st, 0)
  | ch :: t, st =>
    let (st1, l1) := p st (escByte ch)
    let (st2, l2) := jsonEscapeRun p t st1
    (st2, l1 + l2)

/-- Emit a list one character per printer call (the C loops that do
`out->printer(out, fmt, 1)` per character). -/
def emitEach {σ : Type} (p : SinkP σ) : List Char → σ → σ × Nat
  | [], st => (st, 0)
  | ch :: t, st =>
    let (st1, l1) := p st [ch]
    let (st2, l2) := emitEach p t st1
    (st2, l1 + l2)

/-- The host C library `vsnprintf`, to which `json_vprintf` delegates its
default directives.  Modelled from the spec ("delegated to host printf")
for the conversions this repository actually delegates: plain `%d`, `%c`,
`%s` and `%.*s`.  Other host conversions are outside every claim and render
as the empty string here. -/
def hostVsnprintf (fmt2 : List Char) (args : List FmtArg) : List Char :=
  match fmt2, args with
  | ['%', 'd'], .aInt i :: _ => (toString i).data
  | ['%', 'c'], .aChar c :: _ => [c]
  | ['%', 's'], .aStr (some str) :: _ => str
  | ['%', '.', '*', 's'], .aInt prec :: .aStr (some str) :: _ =>
    if prec < 0 then str else str.take prec.toNat
  | _, _ => []

/-- Characters passed through verbatim by `json_vprintf`
(`strchr(":, \r\n\t[]{}\"", *fmt)`). -/
def isStructuralFmt (ch : Char) : Bool :=
  ch = ':' || ch = ',' || ch = ' ' || ch = '\r' || ch = '\n' || ch = '\t' ||
  ch = '[' || ch = ']' || ch = '{' || ch = '}' || ch = '"'

/-- printf flag characters `- + # 0 space`. -/
def isFlagChar (ch : Char) : Bool :=
  ch = '-' || ch = '+' || ch = '#' || ch = '0' || ch = ' '

/-- Identifier characters for the bare-identifier sugar. -/
def isIdentChar (ch : Char) : Bool :=
  ch = '_' || is_alpha ch || is_digit ch

/-- The default-directive scanner of `json_vprintf`: starting at the `'%'`,
walk flags, width, precision, length modifier and specifier exactly as the
C does, returning the directive length `n`, the number of `*` arguments,
the (possibly magic) length modifier and the specifier character.
The `I32`/`I64` Windows extensions resolve with the LP64 sizes
(`int` = 4, `long` = `long long` = 8), matching a host this code targets. -/
def scanDefaultDirective (fmt : List Char) : Nat × Nat × Char × Char :=
  let nul := Char.ofNat 0
  let n1 := 1 + spn isFlagChar (fmt.drop 1)
  let (dyn1, n2) :=
    if fmt.getD n1 nul = '*' then (1, n1 + 1)
    else (0, n1 + spn is_digit (fmt.drop n1))
  let (dyn2, n3) :=
    if fmt.getD n2 nul = '.' then
      let m := n2 + 1
      if fmt.getD m nul = '*' then (1, m + 1)
      else (0, m + spn is_digit (fmt.drop m))
    else (0, n2)
  let c3 := fmt.getD n3 nul
  let (lm0, n4) :=
    if c3 = 'h' ∨ c3 = 'l' ∨ c3 = 'j' ∨ c3 = 'z' ∨ c3 = 't' ∨ c3 = 'L' ∨ c3 = 'I'
    then (c3, n3 + 1) else (nul, n3)
  let (lm, n5) :=
    if lm0 = 'h' ∧ fmt.getD n4 nul = 'h' then ('1', n4 + 1)
    else if lm0 = 'l' ∧ fmt.getD n4 nul = 'l' then ('8', n4 + 1)
    else if lm0 = 'I' then
      if fmt.getD n4 nul = '3' ∧ fmt.getD (n4+1) nul = '2' then (nul, n4 + 2)
      else if fmt.getD n4 nul = '6' ∧ fmt.getD (n4+1) nul = '4' then ('l', n4 + 2)
      else ('j', n4)
    else (lm0, n4)
  let spec := fmt.getD n5 nul
  (n5 + 1, dyn1 + dyn2, lm, spec)

/-- One step of `json_vprintf` from printf.c on a nonempty format: the
handling of the leading byte (structural characters, `%` directives, bare
identifiers, other literals), with the recursive continuation passed as
`rec`.  `%M` (callback delegation through the va_list) has no pure
counterpart: the model consumes one argument and emits nothing; no claim
involves `%M`.  Likewise the store through `%n` is dropped (argument
consumed). -/
def runVPstep {σ : Type} (p : SinkP σ)
    (rec : List Char → List FmtArg → σ → σ × Nat)
    (f0 : Char) (frest : List Char) (args : List FmtArg) (st : σ) : σ × Nat :=
  if isStructuralFmt f0 then
    let (st1, l1) := p st [f0]
    let (st2, l2) := rec frest args st1
    (st2, l1 + l2)
  else if f0 = '%' then
    let f1 := frest.getD 0 (Char.ofNat 0)
    if f1 = 'M' then
      let (st2, l2) := rec (frest.drop 1) (args.drop 1) st
      (st2, l2)
    else if f1 = 'B' then
      let v := match args.getD 0 (.aInt 0) with | .aInt n => n != 0 | _ => false
      let (st1, l1) := p st (if v then ['t','r','u','e'] else ['f','a','l','s','e'])
      let (st2, l2) := rec (frest.drop 1) (args.drop 1) st1
      (st2, l1 + l2)
    else if f1 = 'H' then
      let n := match args.getD 0 (.aInt 0) with | .aInt n => n.toNat | _ => 0
      let bs := match args.getD 1 (.aBytes []) with | .aBytes bs => bs | _ => []
      let (st1, l1) := p st ['"']
      let (st2, l2) := emitEach p ((bs.take n).flatMap
        (fun b => [hexDigit (b / 16 % 16), hexDigit (b % 16)])) st1
      let (st3, l3) := p st2 ['"']
      let (st4, l4) := rec (frest.drop 1) (args.drop 2) st3
      (st4, l1 + l2 + l3 + l4)
    else if f1 = 'V' then
      let bs := match args.getD 0 (.aBytes []) with | .aBytes bs => bs | _ => []
      let n := match args.getD 1 (.aInt 0) with | .aInt n => n.toNat | _ => 0
      let (st1, l1) := p st ['"']
      let (st2, l2) := b64encRun p (bs.take n) st1
      let (st3, l3) := p st2 ['"']
      let (st4, l4) := rec (frest.drop 1) (args.drop 2) st3
      (st4, l1 + l2 + l3 + l4)
    else if f1 = 'Q' ∨ (f1 = '.' ∧ frest.getD 1 (Char.ofNat 0) = '*' ∧
                        frest.getD 2 (Char.ofNat 0) = 'Q') then
      let counted := f1 = '.'
      let lArg := match args.getD 0 (.aInt 0) with | .aInt n => n.toNat | _ => 0
      let pv := match args.getD (if counted then 1 else 0) (.aStr none) with
                | .aStr v => v | _ => none
      let skip := if counted then 4 else 2
      let nargs := if counted then 2 else 1
      match pv with
      | none =>
        let (st1, l1) := p st ['n','u','l','l']
        let (st2, l2) := rec (frest.drop (skip - 1)) (args.drop nargs) st1
        (st2, l1 + l2)
      | some str =>
        let body := if counted then str.take lArg else str
        let (st1, l1) := p st ['"']
        let (st2, l2) := jsonEscapeRun p body st1
        let (st3, l3) := p st2 ['"']
        let (st4, l4) := rec (frest.drop (skip - 1)) (args.drop nargs) st3
        (st4, l1 + l2 + l3 + l4)
    else
      let fmt := f0 :: frest
      let (n, dyn, _lm, spec) := scanDefaultDirective fmt
      let fmt2 := fmt.take (min n 30)
      let pbuf := hostVsnprintf fmt2 args
      let (st1, l1) := p st pbuf
      let drop := dyn + (if spec = '%' then 0 else 1)
      let (st2, l2) := rec (fmt.drop n) (args.drop drop) st1
      (st2, l1 + l2)
  else if f0 = '_' || is_alpha f0 then
    let k := spn isIdentChar (f0 :: frest)
    let (st1, l1) := p st ['"']
    let (st2, l2) := emitEach p ((f0 :: frest).take k) st1
    let (st3, l3) := p st2 ['"']
    let (st4, l4) := rec ((f0 :: frest).drop k) args st3
    (st4, l1 + l2 + l3 + l4)
  else
    let (st1, l1) := p st [f0]
    let (st2, l2) := rec frest args st1
    (st2, l1 + l2)

/-- `json_vprintf` parametrised by the sink.  The fuel is structural (each
step consumes at least one format character; `fmt.length + 1` always
suffices). -/
def runVP {σ : Type} (p : SinkP σ) : Nat → List Char → List FmtArg → σ → σ × Nat
  | 0, _, _, st => (st, 0)
  | _ + 1, [], _, st => (st, 0)
  | fuel + 1, f0 :: frest, args, st => runVPstep p (runVP p fuel) f0 frest args st

/-- `json_vprintf(out, fmt, args)` with an explicit sink. -/
def jsonVprintf {σ : Type} (p : SinkP σ) (st : σ) (fmt : List Char)
    (args : List FmtArg) : σ × Nat :=
  runVP p (fmt.length + 1) fmt args st

/-- The bytes `json_vprintf` sends to a sufficiently large sink. -/
def jsonVprintfBytes (fmt : List Char) (args : List FmtArg) : List Char :=
  (jsonVprintf collectSink [] fmt args).1

/-! ## Base64 decoding and scanning helpers (scanf.c) -/

/-- `b64rev` from scanf.c (64 for any non-alphabet byte). -/
def b64rev (c : Char) : Nat :=
  if 'A' ≤ c ∧ c ≤ 'Z' then c.toNat - 'A'.toNat
  else if 'a' ≤ c ∧ c ≤ 'z' then c.toNat + 26 - 'a'.toNat
  else if '0' ≤ c ∧ c ≤ '9' then c.toNat + 52 - '0'.toNat
  else if c = '+' then 62
  else if c = '/' then 63
  else 64

/-- `b64dec` from scanf.c: the loop runs while at least four bytes remain
(`src + 3 < end`); each output byte is an int expression stored into a
`char`, hence the `% 256`. -/
def b64decRun : List Char → List Nat
  | a :: b :: c :: d :: t =>
    let av := b64rev a
    let bv := b64rev b
    let cv := b64rev c
    let dv := b64rev d
    (((av <<< 2) ||| (bv >>> 4)) % 256) ::
      ((if c ≠ '=' then
          (((bv <<< 4) ||| (cv >>> 2)) % 256) ::
            (if d ≠ '=' then [((cv <<< 6) ||| dv) % 256] else [])
        else []) ++ b64decRun t)
  | _ => []

/-- The bytes `b64enc` emits for a byte string (through a collecting sink). -/
def b64encBytes (bs : List Nat) : List Char :=
  (b64encRun collectSink bs []).1

/-- `HEXTOI` composed with `tolower`, from `hexdec` in scanf.c. -/
def hexToI (x : Char) : Nat :=
  let lo := if 'A' ≤ x ∧ x ≤ 'Z' then Char.ofNat (x.toNat + 32) else x
  if '0' ≤ lo ∧ lo ≤ '9' then lo.toNat - '0'.toNat else lo.toNat - 'W'.toNat

/-- `hexdec` from scanf.c: one byte from two hex characters. -/
def hexdec (a b : Char) : Nat := ((hexToI a) * 16 + hexToI b) % 256

/-! ## Path mutator (setf.c) -/

/-- `struct json_setf_data` (the `base`/`json_path` pointers are passed
separately; `end` is `endp`). -/
structure SetfData where
  matched : Nat
  pos     : Nat
  endp    : Nat
  prev    : Nat
  deriving DecidableEq, Repr

/-- `get_matched_prefix_len`: the C loop stops at a NUL or at the first
mismatch; list ends play the role of the NUL terminators. -/
def gmpl : List Char → List Char → Nat
  | x :: xs, y :: ys => if x = y then gmpl xs ys + 1 else 0
  | _, _ => 0

/-- `json_vsetf_cb` from setf.c, as a fold over walker events.  The C guard
updates fire in source order; `t->ptr - base` is the `Option Nat` offset. -/
def jsonVsetfCb (s jp : List Char) : WalkCb SetfData :=
  fun d _name path t =>
    match t.ptr with
    | none => d
    | some off =>
      let l := gmpl path jp
      let d1 := if l > d.matched then { d with matched := l } else d
      let d2 :=
        if l < d1.matched ∧ d1.pos = 0 ∧ (t.ty = .objectEnd ∨ t.ty = .arrayEnd)
        then { d1 with pos := d1.prev, endp := d1.prev } else d1
      let d3 :=
        if path = jp ∧ t.ty ≠ .objectStart ∧ t.ty ≠ .arrayStart
        then { d2 with pos := off, endp := off + t.len } else d2
      if d3.pos = 0 then { d3 with prev := off + t.len }
      else if (getB s off = '[' ∨ getB s off = '{') ∧ off + 1 < d3.pos ∧
              off + 1 > d3.prev
      then { d3 with prev := off + 1 }
      else d3

/-- `strcspn(·, ".[")`. -/
def cspnDotBracket (l : List Char) : Nat :=
  spn (fun c => !(c = '.' || c = '[')) l

/-- The "add missing keys" `while` loop of `json_vsetf`, returning the
updated sink state, `off` and `depth`.  `fuel` is structural
(`jp.length + 2` suffices: `off` strictly increases while the loop
continues).  Note the C prints with `"%.*Q:"` and a hard-coded count of 1:
only the first character of each synthesised key is emitted. -/
def setfKeysLoop {σ : Type} (p : SinkP σ) (s jp : List Char) (prev : Nat) :
    Nat → Nat → Nat → σ → σ × Nat × Nat
  | 0, off, depth, st => (st, off, depth)
  | fuel + 1, off, depth, st =>
    let n := cspnDotBracket (jp.drop off)
    if n = 0 then (st, off, depth)
    else
      let pb := getB s (prev - 1)
      let st1 :=
        if pb ≠ '{' ∧ pb ≠ '[' ∧ depth = 0 then
          (jsonVprintf p st [','] []).1
        else st
      if 0 < off ∧ jp.getD (off - 1) (Char.ofNat 0) ≠ '.' then (st1, off, depth)
      else
        let st2 := (jsonVprintf p st1 ['%','.','*','Q',':']
          [.aInt 1, .aStr (some (jp.drop off))]).1
        let off1 := off + n
        if off1 < jp.length then
          let br := if jp.getD off1 (Char.ofNat 0) = '.' then '{' else '['
          let st3 := (jsonVprintf p st2 ['%','c'] [.aChar br]).1
          setfKeysLoop p s jp prev fuel (off1 + 1) (depth + 1) st3
        else
          setfKeysLoop p s jp prev fuel off1 depth st2

/-- The closing-bracket `for (; off > data.matched; off--)` loop of
`json_vsetf`. -/
def setfCloseLoop {σ : Type} (p : SinkP σ) (jp : List Char) (matched : Nat) :
    Nat → σ → σ
  | 0, st => st
  | off + 1, st =>
    if off + 1 > matched then
      let ch := jp.getD (off + 1) (Char.ofNat 0)
      let cl : List Char := if ch = '.' then ['}'] else if ch = '[' then [']'] else []
      let st1 := (jsonVprintf p st ['%','s'] [.aStr (some cl)]).1
      setfCloseLoop p jp matched off st1
    else st

/-- `json_vsetf` from setf.c.  `jfmt = none` is the deletion codepath
(`json_fmt == NULL`); otherwise the replacement value is printed with the
caller's format string and arguments.  Returns the sink state and the C
return value (`data.end > data.pos ? 1 : 0`).

Two C corner reads survive only approximately: `s[data.prev - 1]` with
`data.prev == 0` and `s[i]` at `i == len` read out of bounds in C; the model
clamps the former to `s[0]` and reads the underlying list for the latter.
No claim exercises either corner. -/
def jsonVsetf {σ : Type} (p : SinkP σ) (st0 : σ) (s : List Char) (len : Nat)
    (jp : List Char) (jfmt : Option (List Char × List FmtArg)) : σ × Nat :=
  let data0 : SetfData := ⟨0, 0, len, 0⟩
  let data :=
    match jsonWalkFull (jsonVsetfCb s jp) data0 s len with
    | .ok (d, _) => d
    | .error (_, d) => d
  match jfmt with
  | none =>
    let st1 := (jsonVprintf p st0 ['%','.','*','s']
      [.aInt (data.prev : Int), .aStr (some s)]).1
    let pb := getB s (data.prev - 1)
    let endp :=
      if pb = '{' ∨ pb = '[' then
        let i := data.endp + spn is_space ((s.take len).drop data.endp)
        if getB s i = ',' then i + 1 else data.endp
      else data.endp
    let st2 := (jsonVprintf p st1 ['%','.','*','s']
      [.aInt ((len : Int) - endp), .aStr (some (s.drop endp))]).1
    (st2, if endp > data.pos then 1 else 0)
  | some (fmt, fargs) =>
    let st1 := (jsonVprintf p st0 ['%','.','*','s']
      [.aInt (data.pos : Int), .aStr (some s)]).1
    let (st2, off, _depth) :=
      setfKeysLoop p s jp data.prev (jp.length + 2) data.matched 0 st1
    let st3 := (jsonVprintf p st2 fmt fargs).1
    let st4 := setfCloseLoop p jp data.matched off st3
    let st5 := (jsonVprintf p st4 ['%','.','*','s']
      [.aInt ((len : Int) - data.endp), .aStr (some (s.drop data.endp))]).1
    (st5, if data.endp > data.pos then 1 else 0)

/-! ## Format extractor (scanf.c) -/

/-- What a `json_scanf` conversion stored through its target pointer(s).
`sBool` abstracts the `sizeof(bool)` dispatch (the C stores 1/0 through a
char- or int-sized pointer); `sCb` records the token slice passed to a `%M`
scanner callback. -/
inductive ScanVal where
  | sBool (b : Bool)
  | sNum (v : Int)
  | sTok (t : JTok)
  | sStr (v : Option (List Char))
  | sHex (len : Nat) (bs : List Nat)
  | sB64 (bs : List Nat) (len : Nat)
  | sCb (ptr : Nat) (len : Nat)
  deriving DecidableEq, Repr

/-- The per-directive fold state of `json_scanf_cb`:
`num_conversions` and the last value stored. -/
structure ScanSt where
  conv  : Nat
  store : Option ScanVal
  deriving DecidableEq, Repr

/-- Decimal digit run to a `Nat`. -/
def digitsToNat : List Char → Nat → Nat
  | [], acc => acc
  | ch :: t, acc =>
    if is_digit ch then digitsToNat t (acc * 10 + (ch.toNat - '0'.toNat)) else acc

/-- The host C library `sscanf` with a single `%d` target, to which the
default directives of `json_scanf_cb` delegate.  Modelled from the spec
("delegated to host scanf"): skip whitespace, optional sign, at least one
digit.  Only `%d` — the one conversion the claims delegate — is rendered;
other host formats convert nothing here. -/
def hostSscanf1 (fmt buf : List Char) : Option Int :=
  if fmt = ['%', 'd'] then
    let b1 := buf.drop (spn is_space buf)
    let (neg, b2) :=
      match b1 with
      | '-' :: t => (true, t)
      | '+' :: t => (false, t)
      | _ => (false, b1)
    let nd := spn is_digit b2
    if nd = 0 then none
    else
      let v : Int := (digitsToNat (b2.take nd) 0 : Nat)
      some (if neg then -v else v)
  else none

/-- `json_unescape`.  Modelled from the spec: the function is declared in the
missing header; the spec describes the unescaper as the inverse of the
escaper, including `\uXXXX`.  Named escapes map back to their bytes and a
`\uXXXX` escape becomes the character with that code; a trailing backslash
or unknown escape fails (C returns -1, here `none`). -/
def jsonUnescape : List Char → Option (List Char)
  | [] => some []
  | '\\' :: t =>
    match t with
    | 'u' :: h1 :: h2 :: h3 :: h4 :: t' =>
      if is_hex_digit h1 && is_hex_digit h2 && is_hex_digit h3 && is_hex_digit h4
      then (jsonUnescape t').map
        (Char.ofNat (hexToI h1 * 4096 + hexToI h2 * 256 + hexToI h3 * 16 + hexToI h4) :: ·)
      else none
    | ch :: t' =>
      let raw : Option Char :=
        if ch = '"' then some '"'
        else if ch = '\\' then some '\\'
        else if ch = '/' then some '/'
        else if ch = 'b' then some (Char.ofNat 8)
        else if ch = 'f' then some (Char.ofNat 12)
        else if ch = 'n' then some '\n'
        else if ch = 'r' then some '\r'
        else if ch = 't' then some '\t'
        else none
      match raw with
      | some c => (jsonUnescape t').map (c :: ·)
      | none => none
    | [] => none
  | ch :: t => (jsonUnescape t).map (ch :: ·)

/-- `json_scanf_cb` from scanf.c: fires on every event whose path equals the
directive's path, dispatching on the directive type character.  Heap
allocation is assumed to succeed (the C silently skips the conversion
otherwise). -/
def jsonScanfCb (s : List Char) (targetPath : List Char) (ty : Char)
    (fmtbuf : List Char) : WalkCb ScanSt :=
  fun st _name path t =>
    if path ≠ targetPath then st
    else
      match t.ptr with
      | none => st
      | some off =>
        let slice := (s.drop off).take t.len
        if ty = 'B' then { conv := st.conv + 1, store := some (.sBool (t.ty = .tru)) }
        else if ty = 'M' then { conv := st.conv + 1, store := some (.sCb off t.len) }
        else if ty = 'Q' then
          if t.ty = .nul then { st with store := some (.sStr none) }
          else
            match jsonUnescape slice with
            | some u => { conv := st.conv + 1, store := some (.sStr (some u)) }
            | none => st
        else if ty = 'H' then
          let n := t.len / 2
          let bs := (List.range n).map (fun i => hexdec (getB s (off + 2*i))
            (getB s (off + 2*i + 1)))
          { conv := st.conv + 1, store := some (.sHex n bs) }
        else if ty = 'V' then
          let bs := b64decRun slice
          { conv := st.conv + 1, store := some (.sB64 bs bs.length) }
        else if ty = 'T' then { conv := st.conv + 1, store := some (.sTok t) }
        else
          if t.len < 32 then
            match hostSscanf1 fmtbuf slice with
            | some v => { conv := st.conv + 1, store := some (.sNum v) }
            | none => st
          else st

/-- Index of the last occurrence of `c` in `l`. -/
def lastIndexOf (l : List Char) (c : Char) : Option Nat :=
  (l.reverse.findIdx? (· = c)).map (fun k => l.length - 1 - k)

/-- The format-interpreting loop of `json_vscanf`.  `rest` is the remaining
format string, `path` the path buffer, `conv` the running
`num_conversions`, `acc` the per-directive stores in directive order.
Fuel is structural; `fmt.length + 1` suffices (every iteration consumes at
least one format character). -/
def vscanfLoop (s : List Char) (len : Nat) :
    Nat → List Char → List Char → Nat → List (Option ScanVal) →
    Nat × List (Option ScanVal)
  | 0, _, _, conv, acc => (conv, acc)
  | _ + 1, [], _, conv, acc => (conv, acc)
  | fuel + 1, f0 :: frest, path, conv, acc =>
    if f0 = '{' then
      vscanfLoop s len fuel frest (path ++ ['.']) conv acc
    else if f0 = '}' then
      let path' :=
        match lastIndexOf path '.' with
        | some k => path.take k
        | none => path
      vscanfLoop s len fuel frest path' conv acc
    else if f0 = '%' then
      let ty := frest.getD 0 (Char.ofNat 0)
      let simple := ty = 'M' ∨ ty = 'V' ∨ ty = 'H' ∨ ty = 'B' ∨ ty = 'Q' ∨ ty = 'T'
      let (fmtbuf, rest') :=
        if simple then (([] : List Char), frest.drop 1)
        else
          let delims : List Char := [',', ' ', '\t', '\r', '\n', ']', '}']
          let convLen := spn (fun c => !delims.contains c) frest + 1
          let fb := ((f0 :: frest).take convLen).take 19
          let r1 := frest.drop (convLen - 1)
          (fb, r1.drop (spn (fun c => delims.contains c) r1))
      let dirSt :=
        match jsonWalkFull (jsonScanfCb s path ty fmtbuf) ⟨0, none⟩ s len with
        | .ok (d, _) => d
        | .error (_, d) => d
      vscanfLoop s len fuel rest' path (conv + dirSt.conv) (acc ++ [dirSt.store])
    else if is_alpha f0 || get_utf8_char_len f0 > 1 then
      let delims : List Char := [':', ' ', '\r', '\n', '\t']
      let keyLen := spn (fun c => !delims.contains c) (f0 :: frest)
      let key := (f0 :: frest).take keyLen
      let path' :=
        match lastIndexOf path '.' with
        | some k => path.take (k + 1) ++ key
        | none => path ++ key
      let r1 := (f0 :: frest).drop keyLen
      vscanfLoop s len fuel (r1.drop (spn (fun c => delims.contains c) r1)) path'
        conv acc
    else
      vscanfLoop s len fuel frest path conv acc

/-- `json_vscanf(s, len, fmt, args)`: total number of conversions and the
values stored through the targets, one entry per `%` directive in order
(`none`: nothing was stored). -/
def jsonVscanf (s : List Char) (len : Nat) (fmt : List Char) :
    Nat × List (Option ScanVal) :=
  vscanfLoop s len (fmt.length + 1) fmt [] 0 []

/-! ## Foundations: spans, windows, whitespace skipping -/

theorem spn_le_length (p : Char → Bool) (l : List Char) : spn p l ≤ l.length := by
  induction l with
  | nil => simp [spn]
  | cons ch t ih =>
    simp only [spn, List.length_cons]
    split <;> omega

theorem spn_take (p : Char → Bool) (l : List Char) (k : Nat) :
    spn p (l.take k) = min (spn p l) k := by
  induction l generalizing k with
  | nil => simp [spn]
  | cons ch t ih =>
    cases k with
    | zero => simp [spn]
    | succ k =>
      simp only [List.take_succ_cons, spn]
      split
      · rw [ih]; omega
      · omega

theorem winFrom_eq (s : List Char) (e c : Nat) :
    winFrom s e c = (s.drop c).take (e - c) := by
  simp [winFrom, List.drop_take]

theorem winFrom_trunc (s : List Char) {e e' : Nat} (c : Nat) (h : e' ≤ e) :
    winFrom s e' c = (winFrom s e c).take (e' - c) := by
  rw [winFrom_eq, winFrom_eq, List.take_take]
  congr 1
  omega

theorem skipWs_ge (s : List Char) (e c : Nat) : c ≤ skipWs s e c := by
  simp [skipWs]

theorem skipWs_le (s : List Char) {e c : Nat} (h : c ≤ e) : skipWs s e c ≤ e := by
  have h1 := spn_le_length is_space (winFrom s e c)
  have h2 : (winFrom s e c).length ≤ e - c := by
    rw [winFrom_eq]
    simp only [List.length_take, List.length_drop]
    omega
  simp only [skipWs]
  omega

theorem skipWs_trunc (s : List Char) {e e' c : Nat} (hc : c ≤ e') (he : e' ≤ e) :
    skipWs s e' c = min (skipWs s e c) e' := by
  have h := spn_take is_space (winFrom s e c) (e' - c)
  rw [← winFrom_trunc s c he] at h
  simp only [skipWs]
  omega

theorem skipWs_ext (s : List Char) {e e2 c : Nat} (hc : c ≤ e) (he : e ≤ e2)
    (hlt : skipWs s e c < e) : skipWs s e2 c = skipWs s e c := by
  have h := @skipWs_trunc s e2 e c hc he
  omega

theorem curC_some (s : List Char) {e c c' : Nat} {ch : Char}
    (h : curC s e c = (c', some ch)) :
    c ≤ c' ∧ c' < e ∧ getB s c' = ch ∧ skipWs s e c = c' := by
  simp only [curC] at h
  have h1 : skipWs s e c = c' := congrArg Prod.fst h
  have h2 := congrArg Prod.snd h
  simp only at h2
  by_cases hlt : skipWs s e c < e
  · rw [if_pos hlt] at h2
    have h3 : getB s c' = ch := by
      rw [← h1]
      exact Option.some.inj h2
    have h4 := skipWs_ge s e c
    exact ⟨by omega, by omega, h3, h1⟩
  · rw [if_neg hlt] at h2
    exact absurd h2 (by simp)

theorem curC_none (s : List Char) {e c c' : Nat}
    (h : curC s e c = (c', none)) : c ≤ c' ∧ e ≤ c' ∧ skipWs s e c = c' := by
  simp only [curC] at h
  have h1 : skipWs s e c = c' := congrArg Prod.fst h
  have h2 := congrArg Prod.snd h
  simp only at h2
  by_cases hlt : skipWs s e c < e
  · rw [if_pos hlt] at h2
    exact absurd h2 (by simp)
  · have h4 := skipWs_ge s e c
    exact ⟨by omega, by omega, h1⟩

theorem curC_atEnd (s : List Char) {e c : Nat} (h : e ≤ c) :
    curC s e c = (c, none) := by
  have hw : winFrom s e c = [] := by
    rw [winFrom_eq]
    have : e - c = 0 := by omega
    simp [this]
  have hs : skipWs s e c = c := by simp [skipWs, hw, spn]
  simp only [curC, hs]
  have : ¬c < e := by omega
  simp [this]

theorem curC_trunc_lt (s : List Char) {e e' c c' : Nat} {ch : Char}
    (h : curC s e c = (c', some ch)) (hc : c ≤ e') (he : e' ≤ e)
    (hlt : c' < e') : curC s e' c = (c', some ch) := by
  obtain ⟨h1, h2, h3, h4⟩ := curC_some s h
  have h5 : skipWs s e' c = c' := by
    rw [skipWs_trunc s hc he]
    omega
  simp [curC, h5, hlt, h3]

theorem curC_trunc_ge (s : List Char) {e e' c c' : Nat} {ch : Char}
    (h : curC s e c = (c', some ch)) (hc : c ≤ e') (he : e' ≤ e)
    (hge : e' ≤ c') : curC s e' c = (e', none) := by
  obtain ⟨h1, h2, h3, h4⟩ := curC_some s h
  have h5 : skipWs s e' c = e' := by
    rw [skipWs_trunc s hc he]
    omega
  simp [curC, h5]

theorem curC_ext (s : List Char) {e e2 c c' : Nat} {ch : Char}
    (h : curC s e c = (c', some ch)) (he : e ≤ e2) :
    curC s e2 c = (c', some ch) := by
  obtain ⟨h1, h2, h3, h4⟩ := curC_some s h
  have hc : c ≤ e := by omega
  have h5 : skipWs s e2 c = c' := by
    rw [skipWs_ext s hc he (by omega)]
    exact h4
  have h6 : c' < e2 := by omega
  simp [curC, h5, h6, h3]

theorem testAndSkip_ok (s : List Char) {e c c1 : Nat} {exp : Char}
    (h : testAndSkip s e c exp = .ok c1) :
    ∃ c0, curC s e c = (c0, some exp) ∧ c1 = c0 + 1 ∧ c < c1 ∧ c1 ≤ e := by
  simp only [testAndSkip] at h
  split at h
  next c' ch hcur =>
    obtain ⟨hle, hlt, hgb, _⟩ := curC_some s hcur
    by_cases hch : ch = exp
    · subst hch
      rw [if_pos rfl] at h
      have h1 : c' + 1 = c1 := Except.ok.inj h
      exact ⟨c', hcur, by omega, by omega, by omega⟩
    · rw [if_neg hch] at h
      exact absurd h (by simp)
  next c' hcur =>
    exact absurd h (by simp)

theorem testAndSkip_trunc (s : List Char) {e e' c c1 : Nat} {exp : Char}
    (h : testAndSkip s e c exp = .ok c1) (hc : c ≤ e') (he : e' ≤ e) :
    (c1 ≤ e' ∧ testAndSkip s e' c exp = .ok c1) ∨
    (e' < c1 ∧ testAndSkip s e' c exp = .error .incomplete) := by
  obtain ⟨c0, h3, rfl, h1, h2⟩ := testAndSkip_ok s h
  by_cases hlt : c0 < e'
  · left
    refine ⟨by omega, ?_⟩
    have hcur := curC_trunc_lt s h3 hc he hlt
    simp [testAndSkip, hcur]
  · right
    refine ⟨by omega, ?_⟩
    have hcur := curC_trunc_ge s h3 hc he (by omega)
    simp [testAndSkip, hcur]

theorem testAndSkip_ext (s : List Char) {e e2 c c1 : Nat} {exp : Char}
    (h : testAndSkip s e c exp = .ok c1) (he : e ≤ e2) :
    testAndSkip s e2 c exp = .ok c1 := by
  obtain ⟨c0, h3, rfl, h1, h2⟩ := testAndSkip_ok s h
  have hcur := curC_ext s h3 he
  simp [testAndSkip, hcur]

theorem winFrom_cons (s : List Char) {e c : Nat} (hce : c < e) (hcs : c < s.length) :
    winFrom s e c = getB s c :: winFrom s e (c + 1) := by
  rw [winFrom_eq, winFrom_eq]
  have hd : s.drop c = s.get ⟨c, hcs⟩ :: s.drop (c + 1) := List.drop_eq_getElem_cons hcs
  have hg : getB s c = s.get ⟨c, hcs⟩ := by
    simp [getB, List.getD_eq_getElem, hcs]
  have he : e - c = (e - (c + 1)) + 1 := by omega
  rw [hd, hg, he, List.take_succ_cons]

/-- If the head of the window satisfies `p`, the span is positive.  The
window head exists exactly when `c < e` and the byte is a real one. -/
theorem spn_pos_of_head (s : List Char) {e c : Nat} {p : Char → Bool}
    (hce : c < e) (hcs : c < s.length) (hp : p (getB s c) = true) :
    0 < spn p (winFrom s e c) := by
  rw [winFrom_cons s hce hcs]
  simp [spn, hp]

theorem getB_real {s : List Char} {c : Nat} {ch : Char}
    (h : getB s c = ch) (hch : ch ≠ Char.ofNat 0) : c < s.length := by
  by_contra hc
  have : s.getD c (Char.ofNat 0) = Char.ofNat 0 := by
    apply List.getD_eq_default
    omega
  exact hch (by rw [← h, getB, this])

/-! ### matchLit -/

theorem matchLit_ok (s : List Char) {e : Nat} {lit : List Char} :
    ∀ {c c' : Nat}, matchLit s e c lit = .ok c' →
    c' = c + lit.length ∧ (lit = [] ∨ (c < c' ∧ c' ≤ e)) := by
  induction lit with
  | nil =>
    intro c c' h
    simp only [matchLit] at h
    have := Except.ok.inj h
    simp [← this]
  | cons ch rest ih =>
    intro c c' h
    simp only [matchLit] at h
    by_cases hce : c < e
    · rw [if_pos hce] at h
      by_cases hgb : getB s c = ch
      · rw [if_pos hgb] at h
        obtain ⟨h1, h2⟩ := ih h
        refine ⟨by simp [h1]; omega, .inr ?_⟩
        rcases h2 with h2 | h2
        · subst h2; simp at h1; omega
        · omega
      · rw [if_neg hgb] at h
        exact absurd h (by simp)
    · rw [if_neg hce] at h
      exact absurd h (by simp)

theorem matchLit_trunc (s : List Char) {e e' : Nat} {lit : List Char} :
    ∀ {c c' : Nat}, matchLit s e c lit = .ok c' →
    matchLit s e' c lit = .ok c' ∨ matchLit s e' c lit = .error .incomplete := by
  induction lit with
  | nil =>
    intro c c' h
    left
    simpa [matchLit] using h
  | cons ch rest ih =>
    intro c c' h
    simp only [matchLit] at h ⊢
    by_cases hce : c < e
    · rw [if_pos hce] at h
      by_cases hgb : getB s c = ch
      · rw [if_pos hgb] at h
        by_cases hce' : c < e'
        · rw [if_pos hce', if_pos hgb]
          exact ih h
        · rw [if_neg hce']
          right; rfl
      · rw [if_neg hgb] at h
        exact absurd h (by simp)
    · rw [if_neg hce] at h
      exact absurd h (by simp)

theorem matchLit_ext (s : List Char) {e e2 : Nat} {lit : List Char}
    (he : e ≤ e2) :
    ∀ {c c' : Nat}, matchLit s e c lit = .ok c' →
    matchLit s e2 c lit = .ok c' := by
  induction lit with
  | nil =>
    intro c c' h
    simpa [matchLit] using h
  | cons ch rest ih =>
    intro c c' h
    simp only [matchLit] at h ⊢
    by_cases hce : c < e
    · rw [if_pos hce] at h
      by_cases hgb : getB s c = ch
      · rw [if_pos hgb] at h
        rw [if_pos (by omega : c < e2), if_pos hgb]
        exact ih h
      · rw [if_neg hgb] at h
        exact absurd h (by simp)
    · rw [if_neg hce] at h
      exact absurd h (by simp)

/-! ### escLen -/

theorem escLen_pos_ext (s : List Char) {e e2 bs : Nat}
    (hp : 0 < escLen s e bs) (hbs : bs < e) (he : e ≤ e2) :
    escLen s e2 bs = escLen s e bs := by
  simp only [escLen] at hp ⊢
  split_ifs at hp ⊢ <;> first | rfl | omega

theorem escLen_pos_trunc (s : List Char) {e e' bs : Nat}
    (hp : 0 < escLen s e bs) :
    escLen s e' bs = escLen s e bs ∨ escLen s e' bs = -2 := by
  simp only [escLen] at hp ⊢
  split_ifs at hp ⊢ <;> first | (left; rfl) | (right; rfl) | omega

/-! ### strLoop -/

theorem strLoop_ok (s : List Char) {e : Nat} :
    ∀ {fuel c q : Nat}, strLoop s e fuel c = .ok q →
    c ≤ q ∧ q < e ∧ getB s q = '"' := by
  intro fuel
  induction fuel with
  | zero => intro c q h; simp [strLoop] at h
  | succ fuel ih =>
    intro c q h
    simp only [strLoop] at h
    by_cases hce : c < e
    · rw [if_pos hce] at h
      split at h
      next hq =>
        split at h
        next hlen =>
          split at h
          next hbs =>
            split at h
            next hn =>
              obtain ⟨h1, h2, h3⟩ := ih h
              exact ⟨by omega, h2, h3⟩
            next hn =>
              split at h <;> exact absurd h (by simp)
          next hbs =>
            split at h
            next hquote =>
              have := Except.ok.inj h
              subst this
              exact ⟨le_refl _, hce, hquote⟩
            next hquote =>
              obtain ⟨h1, h2, h3⟩ := ih h
              have hl : 0 < get_utf8_char_len (getB s c) := hq.2
              exact ⟨by omega, h2, h3⟩
        next hlen => exact absurd h (by simp)
      next hq => exact absurd h (by simp)
    · rw [if_neg hce] at h
      exact absurd h (by simp)

theorem strLoop_trunc (s : List Char) {e e' : Nat} :
    ∀ {fuel c q : Nat}, strLoop s e fuel c = .ok q →
    strLoop s e' fuel c = .ok q ∨ strLoop s e' fuel c = .error .incomplete := by
  intro fuel
  induction fuel with
  | zero => intro c q h; simp [strLoop] at h
  | succ fuel ih =>
    intro c q h
    simp only [strLoop] at h ⊢
    by_cases hce : c < e
    · rw [if_pos hce] at h
      by_cases hce' : c < e'
      · rw [if_pos hce']
        split at h
        next hq =>
          rw [if_pos hq]
          split at h
          next hlen =>
            by_cases hlen' : get_utf8_char_len (getB s c) ≤ e' - c
            · rw [if_pos hlen']
              split at h
              next hbs =>
                rw [if_pos hbs]
                split at h
                next hn =>
                  rcases @escLen_pos_trunc s e e' _ hn with hesc | hesc
                  · rw [hesc, if_pos hn]
                    exact ih h
                  · rw [hesc]
                    norm_num
                next hn =>
                  split at h <;> exact absurd h (by simp)
              next hbs =>
                rw [if_neg hbs]
                split at h
                next hquote =>
                  rw [if_pos hquote]
                  left; exact h
                next hquote =>
                  rw [if_neg hquote]
                  exact ih h
            · rw [if_neg hlen']
              right; rfl
          next hlen => exact absurd h (by simp)
        next hq => exact absurd h (by simp)
      · rw [if_neg hce']
        right; rfl
    · rw [if_neg hce] at h
      exact absurd h (by simp)

theorem strLoop_ext (s : List Char) {e e2 : Nat} (he : e ≤ e2) :
    ∀ {fuel c q : Nat}, strLoop s e fuel c = .ok q →
    strLoop s e2 fuel c = .ok q := by
  intro fuel
  induction fuel with
  | zero => intro c q h; simp [strLoop] at h
  | succ fuel ih =>
    intro c q h
    simp only [strLoop] at h ⊢
    by_cases hce : c < e
    · rw [if_pos hce] at h
      rw [if_pos (by omega : c < e2)]
      split at h
      next hq =>
        rw [if_pos hq]
        split at h
        next hlen =>
          rw [if_pos (by omega : get_utf8_char_len (getB s c) ≤ e2 - c)]
          split at h
          next hbs =>
            rw [if_pos hbs]
            split at h
            next hn =>
              rw [escLen_pos_ext s hn hce he, if_pos hn]
              exact ih h
            next hn =>
              split at h <;> exact absurd h (by simp)
          next hbs =>
            rw [if_neg hbs]
            split at h
            next hquote => rw [if_pos hquote]; exact h
            next hquote => rw [if_neg hquote]; exact ih h
        next hlen => exact absurd h (by simp)
      next hq => exact absurd h (by simp)
    · rw [if_neg hce] at h
      exact absurd h (by simp)

theorem strLoop_ne_fuelOut (s : List Char) {e : Nat} :
    ∀ {fuel c : Nat}, e - c < fuel → strLoop s e fuel c ≠ .error .fuelOut := by
  intro fuel
  induction fuel with
  | zero => intro c h; omega
  | succ fuel ih =>
    intro c hf
    simp only [strLoop]
    by_cases hce : c < e
    · rw [if_pos hce]
      split
      next hq =>
        split
        next hlen =>
          split
          next hbs =>
            split
            next hn =>
              have hn1 : 0 < (escLen s e c).toNat := by
                omega
              exact ih (by omega)
            next hn => split <;> simp
          next hbs =>
            split
            next hquote => simp
            next hquote =>
              have hl : 0 < get_utf8_char_len (getB s c) := hq.2
              exact ih (by omega)
        next hlen => simp
      next hq => simp
    · rw [if_neg hce]
      simp

/-! ### Generic span-window lemmas and callBack projections -/

theorem spn_win_le (s : List Char) (p : Char → Bool) (e c : Nat) :
    spn p (winFrom s e c) ≤ e - c := by
  have h1 := spn_le_length p (winFrom s e c)
  have h2 : (winFrom s e c).length ≤ e - c := by
    rw [winFrom_eq]
    simp only [List.length_take, List.length_drop]
    omega
  omega

theorem spn_win_trunc (s : List Char) (p : Char → Bool) {e e' : Nat} (c : Nat)
    (he : e' ≤ e) :
    spn p (winFrom s e' c) = min (spn p (winFrom s e c)) (e' - c) := by
  rw [winFrom_trunc s c he, spn_take]

theorem spn_win_ext (s : List Char) (p : Char → Bool) {e e2 : Nat} (c : Nat)
    (he : e ≤ e2) (hlt : spn p (winFrom s e c) < e - c) :
    spn p (winFrom s e2 c) = spn p (winFrom s e c) := by
  have h := @spn_win_trunc s p e2 e c he
  omega

theorem callBack_c {σ : Type} (cb : WalkCb σ) (st : PSt σ) (ty : JType)
    (ptr : Option Nat) (len : Nat) : (callBack cb st ty ptr len).c = st.c := by
  unfold callBack
  split <;> rfl

theorem callBack_path {σ : Type} (cb : WalkCb σ) (st : PSt σ) (ty : JType)
    (ptr : Option Nat) (len : Nat) : (callBack cb st ty ptr len).path = st.path := by
  unfold callBack
  split <;> rfl

/-! ### parseString lemmas -/

theorem parseString_ok {σ : Type} (cb : WalkCb σ) (s : List Char) {e : Nat}
    {st st' : PSt σ} (h : parseString cb s e st = .ok st') :
    st.c + 2 ≤ st'.c ∧ st'.c ≤ e := by
  simp only [parseString] at h
  split at h
  next code hts => exact absurd h (by simp)
  next c1 hts =>
    split at h
    next code hsl => exact absurd h (by simp)
    next q hsl =>
      obtain ⟨c0, _, rfl, hlt, hle⟩ := testAndSkip_ok s hts
      obtain ⟨hq1, hq2, _⟩ := strLoop_ok s hsl
      have := PRes.ok.inj h
      subst this
      rw [callBack_c]
      simp only
      omega

theorem parseString_ext {σ : Type} (cb : WalkCb σ) (s : List Char) {e e2 : Nat}
    {st st' : PSt σ} (he : e ≤ e2) (h : parseString cb s e st = .ok st') :
    parseString cb s e2 st = .ok st' := by
  simp only [parseString] at h
  split at h
  next code hts => exact absurd h (by simp)
  next c1 hts =>
    split at h
    next code hsl => exact absurd h (by simp)
    next q hsl =>
      have hts2 := testAndSkip_ext s hts he
      have hsl2 := strLoop_ext s he hsl
      simp only [parseString, hts2, hsl2]
      exact h

theorem parseString_trunc {σ : Type} (cb : WalkCb σ) (s : List Char) {e e' : Nat}
    {st st' : PSt σ} (hc : st.c ≤ e') (he : e' ≤ e)
    (h : parseString cb s e st = .ok st') :
    parseString cb s e' st = .ok st' ∨
    parseString cb s e' st = .err .incomplete st.acc := by
  simp only [parseString] at h
  split at h
  next code hts => exact absurd h (by simp)
  next c1 hts =>
    split at h
    next code hsl => exact absurd h (by simp)
    next q hsl =>
      rcases testAndSkip_trunc s hts hc he with ⟨_, hts'⟩ | ⟨_, hts'⟩
      · rcases @strLoop_trunc s e e' _ _ _ hsl with hsl' | hsl'
        · left
          simp only [parseString, hts', hsl']
          exact h
        · right
          simp only [parseString, hts', hsl']
      · right
        simp only [parseString, hts']

/-! ### parseIdentifier lemmas -/

theorem parseIdentifier_ok {σ : Type} (cb : WalkCb σ) (s : List Char) {e : Nat}
    {st st' : PSt σ} (h : parseIdentifier cb s e st = .ok st') :
    st.c < st'.c ∧ st'.c ≤ e := by
  simp only [parseIdentifier] at h
  split at h
  next c0 ch hcur =>
    split at h
    next halpha =>
      obtain ⟨h1, h2, h3, _⟩ := curC_some s hcur
      have := PRes.ok.inj h
      subst this
      rw [callBack_c]
      simp only
      have hn1 : 0 < spn (fun c => c = '_' || is_alpha c || is_digit c) (winFrom s e c0) := by
        apply spn_pos_of_head s h2
        · apply getB_real h3
          intro hch
          rw [hch] at halpha
          exact absurd halpha (by decide)
        · rw [h3]
          simp [halpha]
      have hn2 := spn_win_le s (fun c => c = '_' || is_alpha c || is_digit c) e c0
      omega
    next halpha => exact absurd h (by simp)
  next c0 hcur => exact absurd h (by simp)

theorem parseIdentifier_ext {σ : Type} (cb : WalkCb σ) (s : List Char) {e e2 : Nat}
    {st st' : PSt σ} (he : e ≤ e2) (hlt : st'.c < e)
    (h : parseIdentifier cb s e st = .ok st') :
    parseIdentifier cb s e2 st = .ok st' := by
  simp only [parseIdentifier] at h
  split at h
  next c0 ch hcur =>
    split at h
    next halpha =>
      have hcur2 := curC_ext s hcur he
      have hc' : (callBack cb { st with
          c := c0 + spn (fun c => c = '_' || is_alpha c || is_digit c) (winFrom s e c0) }
          .str (some c0) (spn (fun c => c = '_' || is_alpha c || is_digit c) (winFrom s e c0))).c =
          c0 + spn (fun c => c = '_' || is_alpha c || is_digit c) (winFrom s e c0) := by
        rw [callBack_c]
      have hcc : st'.c = c0 + spn (fun c => c = '_' || is_alpha c || is_digit c) (winFrom s e c0) := by
        rw [← PRes.ok.inj h, hc']
      have hspn : spn (fun c => c = '_' || is_alpha c || is_digit c) (winFrom s e2 c0) =
          spn (fun c => c = '_' || is_alpha c || is_digit c) (winFrom s e c0) := by
        apply spn_win_ext s _ c0 he
        omega
      simp only [parseIdentifier, hcur2, halpha, if_pos, hspn]
      exact h
    next halpha => exact absurd h (by simp)
  next c0 hcur => exact absurd h (by simp)

theorem parseIdentifier_trunc {σ : Type} (cb : WalkCb σ) (s : List Char) {e e' : Nat}
    {st st' : PSt σ} (hc : st.c ≤ e') (he : e' ≤ e)
    (hlt : skipWs s e st.c < e')
    (h : parseIdentifier cb s e st = .ok st') :
    parseIdentifier cb s e' st = .ok st' ∨
    (∃ st'', parseIdentifier cb s e' st = .ok st'' ∧ st''.c = e') := by
  simp only [parseIdentifier] at h
  split at h
  next c0 ch hcur =>
    split at h
    next halpha =>
      obtain ⟨h1, h2, h3, h4⟩ := curC_some s hcur
      have hc0 : c0 < e' := by omega
      have hcur2 := curC_trunc_lt s hcur hc he hc0
      have hspn := @spn_win_trunc s
        (fun c => c = '_' || is_alpha c || is_digit c) e e' c0 he
      by_cases hfit : spn (fun c => c = '_' || is_alpha c || is_digit c) (winFrom s e c0) ≤ e' - c0
      · left
        have hspn2 : spn (fun c => c = '_' || is_alpha c || is_digit c) (winFrom s e' c0) =
            spn (fun c => c = '_' || is_alpha c || is_digit c) (winFrom s e c0) := by omega
        simp only [parseIdentifier, hcur2, halpha, if_pos, hspn2]
        exact h
      · right
        refine ⟨callBack cb { st with
            c := c0 + spn (fun c => c = '_' || is_alpha c || is_digit c) (winFrom s e' c0) }
            .str (some c0)
            (spn (fun c => c = '_' || is_alpha c || is_digit c) (winFrom s e' c0)), ?_, ?_⟩
        · simp only [parseIdentifier, hcur2, halpha, if_pos]
        · rw [callBack_c]
          simp only
          omega
    next halpha => exact absurd h (by simp)
  next c0 hcur => exact absurd h (by simp)

/-! ### expectLit lemmas -/

theorem expectLit_ok {σ : Type} (cb : WalkCb σ) (s : List Char) {e : Nat}
    {st st' : PSt σ} {lit : List Char} {ty : JType} (hlit : lit ≠ [])
    (h : expectLit cb s e st lit ty = .ok st') :
    st.c < st'.c ∧ st'.c ≤ e := by
  simp only [expectLit] at h
  split at h
  next code hml => exact absurd h (by simp)
  next c' hml =>
    obtain ⟨h1, h2⟩ := matchLit_ok s hml
    have := PRes.ok.inj h
    subst this
    rw [callBack_c]
    simp only
    rcases h2 with h2 | h2
    · exact absurd h2 hlit
    · omega

theorem expectLit_ext {σ : Type} (cb : WalkCb σ) (s : List Char) {e e2 : Nat}
    {st st' : PSt σ} {lit : List Char} {ty : JType} (he : e ≤ e2)
    (h : expectLit cb s e st lit ty = .ok st') :
    expectLit cb s e2 st lit ty = .ok st' := by
  simp only [expectLit] at h
  split at h
  next code hml => exact absurd h (by simp)
  next c' hml =>
    have hml2 := matchLit_ext s he hml
    simp only [expectLit, hml2]
    exact h

theorem expectLit_trunc {σ : Type} (cb : WalkCb σ) (s : List Char) {e e' : Nat}
    {st st' : PSt σ} {lit : List Char} {ty : JType}
    (h : expectLit cb s e st lit ty = .ok st') :
    expectLit cb s e' st lit ty = .ok st' ∨
    expectLit cb s e' st lit ty = .err .incomplete st.acc := by
  simp only [expectLit] at h
  split at h
  next code hml => exact absurd h (by simp)
  next c' hml =>
    rcases @matchLit_trunc s e e' _ _ _ hml with hml' | hml'
    · left
      simp only [expectLit, hml']
      exact h
    · right
      simp only [expectLit, hml']

/-! ### parseKey lemmas -/

theorem parseKey_ok {σ : Type} (cb : WalkCb σ) (s : List Char) {e : Nat}
    {st st' : PSt σ} (h : parseKey cb s e st = .ok st') :
    st.c < st'.c ∧ st'.c ≤ e := by
  simp only [parseKey] at h
  split at h
  next c0 ch hcur =>
    obtain ⟨h1, h2, _, _⟩ := curC_some s hcur
    split at h
    next halpha =>
      have := parseIdentifier_ok cb s h
      simp only at this
      omega
    next halpha =>
      split at h
      next hq =>
        have := parseString_ok cb s h
        simp only at this
        omega
      next hq => exact absurd h (by simp)
  next c0 hcur => exact absurd h (by simp)

theorem parseKey_ext {σ : Type} (cb : WalkCb σ) (s : List Char) {e e2 : Nat}
    {st st' : PSt σ} (he : e ≤ e2) (hlt : st'.c < e)
    (h : parseKey cb s e st = .ok st') :
    parseKey cb s e2 st = .ok st' := by
  simp only [parseKey] at h
  split at h
  next c0 ch hcur =>
    have hcur2 := curC_ext s hcur he
    split at h
    next halpha =>
      have hi := parseIdentifier_ext cb s he hlt h
      simp only [parseKey, hcur2, halpha, if_pos]
      exact hi
    next halpha =>
      split at h
      next hq =>
        have hs := parseString_ext cb s he h
        simp only [parseKey, hcur2, halpha, hq]
        exact hs
      next hq => exact absurd h (by simp)
  next c0 hcur => exact absurd h (by simp)

theorem not_space_of_alpha {ch : Char} (h : is_alpha ch = true) :
    is_space ch = false := by
  cases ht : is_space ch
  · rfl
  · exfalso
    simp only [is_space, Bool.or_eq_true, decide_eq_true_eq] at ht
    simp only [is_alpha, Bool.or_eq_true, Bool.and_eq_true, decide_eq_true_eq] at h
    rcases ht with ((hc | hc) | hc) | hc <;> subst hc <;>
      rcases h with ⟨h1, h2⟩ | ⟨h1, h2⟩ <;>
        exact absurd h1 (by decide)

/-- If the byte at the cursor is real and not whitespace, `skip_whitespaces`
does not move. -/
theorem skipWs_stop (s : List Char) {e c : Nat} (hce : c < e) (hcs : c < s.length)
    (hsp : is_space (getB s c) = false) : skipWs s e c = c := by
  have : spn is_space (winFrom s e c) = 0 := by
    rw [winFrom_cons s hce hcs]
    simp [spn, hsp]
  simp [skipWs, this]

theorem parseKey_trunc {σ : Type} (cb : WalkCb σ) (s : List Char) {e e' : Nat}
    {st st' : PSt σ} (hc : st.c ≤ e') (he : e' ≤ e)
    (h : parseKey cb s e st = .ok st') :
    parseKey cb s e' st = .ok st' ∨
    (∃ st'', parseKey cb s e' st = .ok st'' ∧ st''.c = e') ∨
    parseKey cb s e' st = .err .incomplete st.acc := by
  simp only [parseKey] at h
  split at h
  next c0 ch hcur =>
    obtain ⟨h1, h2, h3, h4⟩ := curC_some s hcur
    by_cases hc0 : c0 < e'
    · have hcur2 := curC_trunc_lt s hcur hc he hc0
      split at h
      next halpha =>
        have hreal : c0 < s.length := by
          apply getB_real h3
          intro hch
          rw [hch] at halpha
          exact absurd halpha (by decide)
        have hstop : skipWs s e c0 = c0 :=
          skipWs_stop s h2 hreal (by rw [h3]; exact not_space_of_alpha halpha)
        rcases parseIdentifier_trunc cb s
            (by simpa using le_of_lt hc0) he (by simpa [hstop] using hc0) h with
          hi | ⟨st'', hi, hcc⟩
        · left
          simp only [parseKey, hcur2, halpha, if_pos]
          exact hi
        · right; left
          refine ⟨st'', ?_, hcc⟩
          simp only [parseKey, hcur2, halpha, if_pos]
          exact hi
      next halpha =>
        split at h
        next hq =>
          subst hq
          rcases parseString_trunc cb s
              (by simpa using le_of_lt hc0) he h with hs | hs
          · left
            simp only [parseKey, hcur2]
            rw [if_neg (by simpa using halpha)]
            simpa using hs
          · right; right
            simp only [parseKey, hcur2]
            rw [if_neg (by simpa using halpha)]
            simpa using hs
        next hq => exact absurd h (by simp)
    · right; right
      have hcur2 := curC_trunc_ge s hcur hc he (by omega)
      simp [parseKey, hcur2]
  next c0 hcur => exact absurd h (by simp)

/-! ### parseNumber lemmas -/

theorem digTail_ok (s : List Char) {e c v : Nat}
    (h : digTail s e c = .ok v) : c < v ∧ v ≤ e := by
  simp only [digTail] at h
  split at h
  next hce =>
    split at h
    next hdig =>
      have hv := Except.ok.inj h
      have hle := spn_win_le s is_digit e c
      have hreal : c < s.length := by
        apply getB_real rfl
        intro hch
        rw [hch] at hdig
        exact absurd hdig (by decide)
      have hpos := spn_pos_of_head s hce hreal hdig
      omega
    next hdig => exact absurd h (by simp)
  next hce => exact absurd h (by simp)

theorem digTail_trunc (s : List Char) {e e' c v : Nat}
    (he : e' ≤ e) (h : digTail s e c = .ok v) :
    digTail s e' c = .ok v ∨ digTail s e' c = .ok e' ∨
    digTail s e' c = .error .incomplete := by
  simp only [digTail] at h
  split at h
  next hce =>
    split at h
    next hdig =>
      have hv := Except.ok.inj h
      by_cases hce' : c < e'
      · have hspn := @spn_win_trunc s is_digit e e' c he
        by_cases hfit : spn is_digit (winFrom s e c) ≤ e' - c
        · left
          have heq : spn is_digit (winFrom s e' c) =
              spn is_digit (winFrom s e c) := by omega
          simp only [digTail]
          rw [if_pos hce', if_pos hdig, heq, hv]
        · right; left
          have heq : c + spn is_digit (winFrom s e' c) = e' := by omega
          simp only [digTail]
          rw [if_pos hce', if_pos hdig, heq]
      · right; right
        simp only [digTail]
        rw [if_neg hce']
    next hdig => exact absurd h (by simp)
  next hce => exact absurd h (by simp)

theorem digTail_ext (s : List Char) {e e2 c v : Nat} (hv : v < e)
    (he : e ≤ e2) (h : digTail s e c = .ok v) : digTail s e2 c = .ok v := by
  simp only [digTail] at h
  split at h
  next hce =>
    split at h
    next hdig =>
      have hveq := Except.ok.inj h
      have hspn : spn is_digit (winFrom s e2 c) =
          spn is_digit (winFrom s e c) := by
        apply spn_win_ext s is_digit _ he
        omega
      simp only [digTail]
      rw [if_pos (by omega : c < e2), if_pos hdig, hspn, hveq]
    next hdig => exact absurd h (by simp)
  next hce => exact absurd h (by simp)

theorem numFrac_ok (s : List Char) {e c2 v : Nat} (hc : c2 ≤ e)
    (h : numFrac s e c2 = .ok v) : c2 ≤ v ∧ v ≤ e := by
  simp only [numFrac] at h
  split at h
  next hdot =>
    have := digTail_ok s h
    omega
  next hdot =>
    have hv := Except.ok.inj h
    omega

theorem numFrac_atEnd (s : List Char) {e c2 : Nat} (hc : e ≤ c2) :
    numFrac s e c2 = .ok c2 := by
  simp only [numFrac]
  rw [if_neg (by omega : ¬(c2 < e ∧ getB s c2 = '.'))]

theorem numFrac_trunc (s : List Char) {e e' c2 v : Nat} (hc : c2 ≤ e')
    (he : e' ≤ e) (h : numFrac s e c2 = .ok v) :
    numFrac s e' c2 = .ok v ∨ numFrac s e' c2 = .ok e' ∨
    numFrac s e' c2 = .error .incomplete := by
  by_cases hc2 : c2 < e'
  · simp only [numFrac] at h
    split at h
    next hdot =>
      rcases digTail_trunc s he h with hd | hd | hd
      · left
        simp only [numFrac]
        rw [if_pos ⟨hc2, hdot.2⟩]
        exact hd
      · right; left
        simp only [numFrac]
        rw [if_pos ⟨hc2, hdot.2⟩]
        exact hd
      · right; right
        simp only [numFrac]
        rw [if_pos ⟨hc2, hdot.2⟩]
        exact hd
    next hdot =>
      left
      have hv := Except.ok.inj h
      have hdot' : ¬(c2 < e' ∧ getB s c2 = '.') := by
        intro hx
        exact hdot ⟨by omega, hx.2⟩
      simp only [numFrac]
      rw [if_neg hdot', hv]
  · have hc2e : c2 = e' := by omega
    right; left
    rw [hc2e]
    exact numFrac_atEnd s (le_refl _)

theorem numFrac_ext (s : List Char) {e e2 c2 v : Nat} (hv : v < e)
    (he : e ≤ e2) (h : numFrac s e c2 = .ok v) : numFrac s e2 c2 = .ok v := by
  simp only [numFrac] at h
  split at h
  next hdot =>
    have hd := digTail_ext s (by
      have := digTail_ok s h
      omega) he h
    simp only [numFrac]
    rw [if_pos ⟨by omega, hdot.2⟩]
    exact hd
  next hdot =>
    have hveq := Except.ok.inj h
    have hc2v : c2 = v := hveq
    have hdot' : ¬(c2 < e2 ∧ getB s c2 = '.') := by
      intro hx
      exact hdot ⟨by omega, hx.2⟩
    simp only [numFrac]
    rw [if_neg hdot', hc2v]

theorem numExpo_ok (s : List Char) {e c4 v : Nat} (hc : c4 ≤ e)
    (h : numExpo s e c4 = .ok v) : c4 ≤ v ∧ v ≤ e := by
  simp only [numExpo] at h
  split at h
  next hex =>
    split at h
    next h5e =>
      have hd := digTail_ok s h
      have hc6 : c4 + 1 ≤ (if getB s (c4 + 1) = '+' ∨ getB s (c4 + 1) = '-'
          then c4 + 1 + 1 else c4 + 1) := by
        split <;> omega
      omega
    next h5e => exact absurd h (by simp)
  next hex =>
    have hv := Except.ok.inj h
    omega

theorem numExpo_atEnd (s : List Char) {e c4 : Nat} (hc : e ≤ c4) :
    numExpo s e c4 = .ok c4 := by
  simp only [numExpo]
  rw [if_neg (by omega : ¬(c4 < e ∧ (getB s c4 = 'e' ∨ getB s c4 = 'E')))]

theorem numExpo_trunc (s : List Char) {e e' c4 v : Nat} (hc : c4 ≤ e')
    (he : e' ≤ e) (h : numExpo s e c4 = .ok v) :
    numExpo s e' c4 = .ok v ∨ numExpo s e' c4 = .ok e' ∨
    numExpo s e' c4 = .error .incomplete := by
  by_cases hc4 : c4 < e'
  · simp only [numExpo] at h
    split at h
    next hex =>
      split at h
      next h5e =>
        by_cases h5e' : c4 + 1 < e'
        · rcases digTail_trunc s he h with hd | hd | hd
          · left
            simp only [numExpo]
            rw [if_pos ⟨hc4, hex.2⟩, if_pos h5e']
            exact hd
          · right; left
            simp only [numExpo]
            rw [if_pos ⟨hc4, hex.2⟩, if_pos h5e']
            exact hd
          · right; right
            simp only [numExpo]
            rw [if_pos ⟨hc4, hex.2⟩, if_pos h5e']
            exact hd
        · right; right
          simp only [numExpo]
          rw [if_pos ⟨hc4, hex.2⟩, if_neg h5e']
      next h5e => exact absurd h (by simp)
    next hex =>
      left
      have hv := Except.ok.inj h
      have hex' : ¬(c4 < e' ∧ (getB s c4 = 'e' ∨ getB s c4 = 'E')) := by
        intro hx
        exact hex ⟨by omega, hx.2⟩
      simp only [numExpo]
      rw [if_neg hex', hv]
  · have hc4e : c4 = e' := by omega
    right; left
    rw [hc4e]
    exact numExpo_atEnd s (le_refl _)

theorem numExpo_ext (s : List Char) {e e2 c4 v : Nat} (hv : v < e)
    (he : e ≤ e2) (h : numExpo s e c4 = .ok v) : numExpo s e2 c4 = .ok v := by
  simp only [numExpo] at h
  split at h
  next hex =>
    split at h
    next h5e =>
      have hd := digTail_ext s (by
        have := digTail_ok s h
        omega) he h
      simp only [numExpo]
      rw [if_pos ⟨by omega, hex.2⟩, if_pos (by omega : c4 + 1 < e2)]
      exact hd
    next h5e => exact absurd h (by simp)
  next hex =>
    have hveq := Except.ok.inj h
    have hc4v : c4 = v := hveq
    have hex' : ¬(c4 < e2 ∧ (getB s c4 = 'e' ∨ getB s c4 = 'E')) := by
      intro hx
      exact hex ⟨by omega, hx.2⟩
    simp only [numExpo]
    rw [if_neg hex', hc4v]

theorem not_space_of_digit {ch : Char} (h : is_digit ch = true) :
    is_space ch = false := by
  cases ht : is_space ch
  · rfl
  · exfalso
    simp only [is_space, Bool.or_eq_true, decide_eq_true_eq] at ht
    simp only [is_digit, Bool.and_eq_true, decide_eq_true_eq] at h
    rcases ht with ((hc | hc) | hc) | hc <;> subst hc <;>
      exact absurd h.1 (by decide)

theorem parseNumber_ok {σ : Type} (cb : WalkCb σ) (s : List Char) {e : Nat}
    {st st' : PSt σ} (h : parseNumber cb s e st = .ok st') :
    st.c < st'.c ∧ st'.c ≤ e := by
  simp only [parseNumber] at h
  rcases hcur : curC s e st.c with ⟨c0, och⟩
  rw [hcur] at h
  dsimp only at h
  set c1 := if och = some '-' then c0 + 1 else c0 with hc1
  split at h
  next h1e =>
    split at h
    next hdig =>
      split at h
      next code hfrac => exact absurd h (by simp)
      next c4 hfrac =>
        split at h
        next code hexpo => exact absurd h (by simp)
        next c7 hexpo =>
          have hfst := congrArg Prod.fst hcur
          simp only [curC] at hfst
          have hcle : st.c ≤ c0 := by
            have := skipWs_ge s e st.c
            omega
          have hc0c1 : c0 ≤ c1 := by
            rw [hc1]
            split <;> omega
          have hspnle := spn_win_le s is_digit e c1
          have hfb := numFrac_ok s (by omega) hfrac
          have heb := numExpo_ok s (by omega) hexpo
          have := PRes.ok.inj h
          subst this
          rw [callBack_c]
          simp only
          have hreal : c1 < s.length := by
            apply getB_real rfl
            intro hch
            rw [hch] at hdig
            exact absurd hdig (by decide)
          have hpos : 0 < spn is_digit (winFrom s e c1) :=
            spn_pos_of_head s h1e hreal hdig
          omega
    next hdig => exact absurd h (by simp)
  next h1e => exact absurd h (by simp)

theorem parseNumber_ext {σ : Type} (cb : WalkCb σ) (s : List Char) {e e2 : Nat}
    {st st' : PSt σ} (he : e ≤ e2) (hlt : st'.c < e)
    (h : parseNumber cb s e st = .ok st') :
    parseNumber cb s e2 st = .ok st' := by
  simp only [parseNumber] at h
  rcases hcur : curC s e st.c with ⟨c0, och⟩
  rw [hcur] at h
  dsimp only at h
  set c1 := if och = some '-' then c0 + 1 else c0 with hc1
  split at h
  next h1e =>
    split at h
    next hdig =>
      split at h
      next code hfrac => exact absurd h (by simp)
      next c4 hfrac =>
        split at h
        next code hexpo => exact absurd h (by simp)
        next c7 hexpo =>
          have hc7 : st'.c = c7 := by
            rw [← PRes.ok.inj h, callBack_c]
          have hc0c1 : c0 ≤ c1 := by
            rw [hc1]
            split <;> omega
          have hfb := numFrac_ok s (by
            have := spn_win_le s is_digit e c1
            omega) hfrac
          have heb := numExpo_ok s (by omega) hexpo
          have hexpo2 := numExpo_ext s (by omega) he hexpo
          have hfrac2 := numFrac_ext s (by omega) he hfrac
          obtain ⟨ch, hch⟩ : ∃ ch, och = some ch := by
            cases hoch : och with
            | none =>
              exfalso
              rw [hoch] at hc1
              simp only [reduceCtorEq, if_false] at hc1
              obtain ⟨_, hge, _⟩ := curC_none s (by rw [← hoch]; exact hcur)
              omega
            | some ch => exact ⟨ch, rfl⟩
          rw [hch] at hcur
          have hcur2 := curC_ext s hcur he
          have hspn : spn is_digit (winFrom s e2 c1) =
              spn is_digit (winFrom s e c1) := by
            apply spn_win_ext s is_digit _ he
            omega
          have hc1e : (if (some ch : Option Char) = some '-' then c0 + 1 else c0) = c1 := by
            rw [hc1, hch]
          simp only [parseNumber, hcur2]
          rw [hc1e, if_pos (by omega : c1 < e2), if_pos hdig, hspn, hfrac2]
          simp only [hexpo2]
          exact h
    next hdig => exact absurd h (by simp)
  next h1e => exact absurd h (by simp)

theorem parseNumber_trunc {σ : Type} (cb : WalkCb σ) (s : List Char) {e e' : Nat}
    {st st' : PSt σ} (hc : st.c ≤ e') (he : e' ≤ e)
    (h : parseNumber cb s e st = .ok st') :
    parseNumber cb s e' st = .ok st' ∨
    (∃ st'', parseNumber cb s e' st = .ok st'' ∧ st''.c = e') ∨
    parseNumber cb s e' st = .err .incomplete st.acc := by
  simp only [parseNumber] at h
  rcases hcur : curC s e st.c with ⟨c0, och⟩
  rw [hcur] at h
  dsimp only at h
  set c1 := if och = some '-' then c0 + 1 else c0 with hc1
  split at h
  next h1e =>
    split at h
    next hdig =>
      split at h
      next code hfrac => exact absurd h (by simp)
      next c4 hfrac =>
        split at h
        next code hexpo => exact absurd h (by simp)
        next c7 hexpo =>
          have hc0c1 : c0 ≤ c1 ∧ c1 ≤ c0 + 1 := by
            rw [hc1]
            constructor <;> (split <;> omega)
          obtain ⟨ch, hch⟩ : ∃ ch, och = some ch := by
            cases hoch : och with
            | none =>
              exfalso
              rw [hoch] at hc1
              simp only [reduceCtorEq, if_false] at hc1
              obtain ⟨_, hge, _⟩ := curC_none s (by rw [← hoch]; exact hcur)
              omega
            | some ch => exact ⟨ch, rfl⟩
          rw [hch] at hcur
          have hc1e : (if (some ch : Option Char) = some '-' then c0 + 1 else c0) = c1 := by
            rw [hc1, hch]
          by_cases hc0 : c0 < e'
          · have hcur2 := curC_trunc_lt s hcur hc he hc0
            by_cases h1e' : c1 < e'
            · have hspn := @spn_win_trunc s is_digit e e' c1 he
              by_cases hfit : spn is_digit (winFrom s e c1) ≤ e' - c1
              · have hspneq : spn is_digit (winFrom s e' c1) =
                    spn is_digit (winFrom s e c1) := by omega
                have hc2le : c1 + spn is_digit (winFrom s e c1) ≤ e' := by omega
                rcases numFrac_trunc s hc2le he hfrac with hf | hf | hf
                · have hc4le : c4 ≤ e' := (numFrac_ok s hc2le hf).2
                  rcases numExpo_trunc s hc4le he hexpo with hx | hx | hx
                  · left
                    simp only [parseNumber, hcur2]
                    rw [hc1e, if_pos h1e', if_pos hdig, hspneq, hf]
                    simp only [hx]
                    exact h
                  · right; left
                    refine ⟨callBack cb { st with c := e' } .num (some c0) (e' - c0), ?_, ?_⟩
                    · simp only [parseNumber, hcur2]
                      rw [hc1e, if_pos h1e', if_pos hdig, hspneq, hf]
                      simp only [hx]
                    · rw [callBack_c]
                  · right; right
                    simp only [parseNumber, hcur2]
                    rw [hc1e, if_pos h1e', if_pos hdig, hspneq, hf]
                    simp only [hx]
                · have hx := numExpo_atEnd s (le_refl e')
                  right; left
                  refine ⟨callBack cb { st with c := e' } .num (some c0) (e' - c0), ?_, ?_⟩
                  · simp only [parseNumber, hcur2]
                    rw [hc1e, if_pos h1e', if_pos hdig, hspneq, hf]
                    simp only [hx]
                  · rw [callBack_c]
                · right; right
                  simp only [parseNumber, hcur2]
                  rw [hc1e, if_pos h1e', if_pos hdig, hspneq, hf]
              · have hspneq : c1 + spn is_digit (winFrom s e' c1) = e' := by omega
                have hf := @numFrac_atEnd s e' e' (le_refl _)
                have hx := @numExpo_atEnd s e' e' (le_refl _)
                right; left
                refine ⟨callBack cb { st with c := e' } .num (some c0) (e' - c0), ?_, ?_⟩
                · simp only [parseNumber, hcur2]
                  rw [hc1e, if_pos h1e', if_pos hdig]
                  rw [hspneq, hf]
                  simp only [hx]
                · rw [callBack_c]
            · right; right
              simp only [parseNumber, hcur2]
              rw [hc1e, if_neg h1e']
          · right; right
            have hcur2 := curC_trunc_ge s hcur hc he (by omega)
            simp only [parseNumber, hcur2]
            rw [if_neg (by simp : ¬(if (none : Option Char) = some '-' then e' + 1 else e') < e')]
    next hdig => exact absurd h (by simp)
  next h1e => exact absurd h (by simp)

/-! ### Cursor bounds and progress for the main interpreter -/

/-- Minimum number of bytes each parse mode consumes on success. -/
def minC : PMode → Nat
  | .value => 1
  | .obj => 2
  | .pair => 2
  | .arr => 2
  | .objLoop => 0
  | .arrLoop _ => 0

theorem runP_ok_bounds {σ : Type} (cb : WalkCb σ) (s : List Char) {e : Nat} :
    ∀ (fuel : Nat) (mode : PMode) (st st' : PSt σ),
    runP cb s e fuel mode st = .ok st' →
    st.c + minC mode ≤ st'.c ∧ st'.c ≤ e := by
  intro fuel
  induction fuel with
  | zero =>
    intro mode st st' h
    simp [runP] at h
  | succ fuel ih =>
    intro mode st st' h
    match mode with
    | .value =>
      simp only [runP] at h
      split at h
      next c0 ch hcur =>
        obtain ⟨hle, hlt, hgb, _⟩ := curC_some s hcur
        simp only [minC]
        split_ifs at h with h1 h2 h3 h4 h5 h6 h7
        · have hb : c0 + 2 ≤ st'.c ∧ st'.c ≤ e := parseString_ok cb s h
          omega
        · have hb : c0 + minC .obj ≤ st'.c ∧ st'.c ≤ e := ih .obj _ _ h
          simp only [minC] at hb
          omega
        · have hb : c0 + minC .arr ≤ st'.c ∧ st'.c ≤ e := ih .arr _ _ h
          simp only [minC] at hb
          omega
        · have hb : c0 < st'.c ∧ st'.c ≤ e := expectLit_ok cb s (by simp) h
          omega
        · have hb : c0 < st'.c ∧ st'.c ≤ e := expectLit_ok cb s (by simp) h
          omega
        · have hb : c0 < st'.c ∧ st'.c ≤ e := expectLit_ok cb s (by simp) h
          omega
        · have hb : c0 < st'.c ∧ st'.c ≤ e := parseNumber_ok cb s h
          omega
      next c0 hcur => exact absurd h (by simp)
    | .obj =>
      simp only [runP] at h
      split at h
      next code hts => exact absurd h (by simp)
      next c1 hts =>
        split at h
        next code a hloop => exact absurd h (by simp)
        next st3 hloop =>
          split at h
          next code hts2 => exact absurd h (by simp)
          next c2 hts2 =>
            have hts' : testAndSkip s e st.c '{' = Except.ok c1 := by
              rw [callBack_c] at hts
              exact hts
            obtain ⟨ca, _, hca, h1, h2⟩ := testAndSkip_ok s hts'
            have hb : c1 + minC .objLoop ≤ st3.c ∧ st3.c ≤ e := ih .objLoop _ _ hloop
            simp only [minC] at hb
            obtain ⟨cb2, _, hcb2, h3, h4⟩ := testAndSkip_ok s hts2
            have hstc : st'.c = c2 := by
              rw [← PRes.ok.inj h, callBack_c]
            simp only [minC]
            omega
    | .objLoop =>
      simp only [runP] at h
      have hge := skipWs_ge s e st.c
      have hb2' : (curC s e st.c).1 = skipWs s e st.c := rfl
      split_ifs at h with hbr
      · rcases hcur : curC s e st.c with ⟨c', och⟩
        rw [hcur] at hbr
        dsimp only at hbr
        subst hbr
        obtain ⟨hle2, hlt2, _, _⟩ := curC_some s hcur
        have hstc : st'.c = (curC s e st.c).1 := by
          rw [← PRes.ok.inj h]
        rw [hcur] at hstc
        simp only [minC]
        omega
      · split at h
        next code a hpair => exact absurd h (by simp)
        next st2 hpair =>
          have hbp : (curC s e st.c).1 + minC .pair ≤ st2.c ∧ st2.c ≤ e :=
            ih .pair _ _ hpair
          simp only [minC] at hbp
          have hb2 : (if (curC s e st2.c).2 = some ',' then (curC s e st2.c).1 + 1
              else (curC s e st2.c).1) + minC .objLoop ≤ st'.c ∧ st'.c ≤ e :=
            ih .objLoop _ _ h
          simp only [minC] at hb2
          have hfst2 : (curC s e st2.c).1 = skipWs s e st2.c := rfl
          have hge2 := skipWs_ge s e st2.c
          have hcsplit : (curC s e st2.c).1 ≤ (if (curC s e st2.c).2 = some ','
              then (curC s e st2.c).1 + 1 else (curC s e st2.c).1) := by
            split <;> omega
          simp only [minC]
          omega
    | .pair =>
      simp only [runP] at h
      split at h
      next code a hkey => exact absurd h (by simp)
      next st1 hkey =>
        split at h
        next code hts => exact absurd h (by simp)
        next c2 hts =>
          split at h
          next code a hval => exact absurd h (by simp)
          next st3 hval =>
            have hkb : skipWs s e st.c < st1.c ∧ st1.c ≤ e := parseKey_ok cb s hkey
            have hts' : testAndSkip s e st1.c ':' = Except.ok c2 := hts
            obtain ⟨ca, _, hca, h1, h2⟩ := testAndSkip_ok s hts'
            have hvb : c2 + minC .value ≤ st3.c ∧ st3.c ≤ e := ih .value _ _ hval
            simp only [minC] at hvb
            have hstc : st'.c = st3.c := by
              rw [← PRes.ok.inj h]
            have hge := skipWs_ge s e st.c
            simp only [minC]
            omega
    | .arr =>
      simp only [runP] at h
      split at h
      next code hts => exact absurd h (by simp)
      next c1 hts =>
        split at h
        next code a hloop => exact absurd h (by simp)
        next st2 hloop =>
          split at h
          next code hts2 => exact absurd h (by simp)
          next c2 hts2 =>
            have hts' : testAndSkip s e st.c '[' = Except.ok c1 := by
              rw [callBack_c] at hts
              exact hts
            obtain ⟨ca, _, hca, h1, h2⟩ := testAndSkip_ok s hts'
            have hb : c1 + minC (.arrLoop 0) ≤ st2.c ∧ st2.c ≤ e := ih (.arrLoop 0) _ _ hloop
            simp only [minC] at hb
            obtain ⟨cb2, _, hcb2, h3, h4⟩ := testAndSkip_ok s hts2
            have hstc : st'.c = c2 := by
              rw [← PRes.ok.inj h, callBack_c]
            simp only [minC]
            omega
    | .arrLoop i =>
      simp only [runP] at h
      have hge := skipWs_ge s e st.c
      have hb2' : (curC s e st.c).1 = skipWs s e st.c := rfl
      split_ifs at h with hbr
      · rcases hcur : curC s e st.c with ⟨c', och⟩
        rw [hcur] at hbr
        dsimp only at hbr
        subst hbr
        obtain ⟨hle2, hlt2, _, _⟩ := curC_some s hcur
        have hstc : st'.c = (curC s e st.c).1 := by
          rw [← PRes.ok.inj h]
        rw [hcur] at hstc
        simp only [minC]
        omega
      · split at h
        next code a hval => exact absurd h (by simp)
        next st2 hval =>
          have hbv : (curC s e st.c).1 + minC .value ≤ st2.c ∧ st2.c ≤ e :=
            ih .value _ _ hval
          simp only [minC] at hbv
          have hb2 : (if (curC s e st2.c).2 = some ',' then (curC s e st2.c).1 + 1
              else (curC s e st2.c).1) + minC (.arrLoop (i+1)) ≤ st'.c ∧ st'.c ≤ e :=
            ih (.arrLoop (i+1)) _ _ h
          simp only [minC] at hb2
          have hfst2 : (curC s e st2.c).1 = skipWs s e st2.c := rfl
          have hge2 := skipWs_ge s e st2.c
          have hcsplit : (curC s e st2.c).1 ≤ (if (curC s e st2.c).2 = some ','
              then (curC s e st2.c).1 + 1 else (curC s e st2.c).1) := by
            split <;> omega
          simp only [minC]
          omega

/-! ### Behaviour at an exhausted window: cursor at or past `e` -/

theorem skipWs_atEnd (s : List Char) {e c : Nat} (h : e ≤ c) :
    skipWs s e c = c := by
  have hw : winFrom s e c = [] := by
    rw [winFrom_eq]
    have : e - c = 0 := by omega
    simp [this]
  simp [skipWs, hw, spn]

theorem testAndSkip_atEnd (s : List Char) {e c : Nat} (h : e ≤ c) (exp : Char) :
    testAndSkip s e c exp = .error .incomplete := by
  simp [testAndSkip, curC_atEnd s h]

theorem parseKey_atEnd {σ : Type} (cb : WalkCb σ) (s : List Char) {e : Nat}
    {st : PSt σ} (h : e ≤ st.c) : parseKey cb s e st = .err .incomplete st.acc := by
  simp [parseKey, curC_atEnd s h]

theorem runP_atEnd {σ : Type} (cb : WalkCb σ) (s : List Char) {e' : Nat} :
    ∀ (fuel : Nat) (mode : PMode) (st : PSt σ), e' ≤ st.c →
    (∃ a, runP cb s e' fuel mode st = .err .incomplete a) ∨
    (∃ a, runP cb s e' fuel mode st = .err .fuelOut a) := by
  intro fuel
  induction fuel with
  | zero =>
    intro mode st hc
    right
    exact ⟨st.acc, rfl⟩
  | succ fuel ih =>
    intro mode st hc
    match mode with
    | .value =>
      left
      refine ⟨st.acc, ?_⟩
      simp [runP, curC_atEnd s hc]
    | .obj =>
      left
      refine ⟨(callBack cb st .objectStart none 0).acc, ?_⟩
      have ht : testAndSkip s e' (callBack cb st .objectStart none 0).c '{' =
          .error .incomplete := by
        rw [callBack_c]
        exact testAndSkip_atEnd s hc '{'
      simp [runP, ht]
    | .objLoop =>
      have hcur : curC s e' st.c = (st.c, none) := curC_atEnd s hc
      rcases ih .pair { st with c := st.c } hc with ⟨a, ha⟩ | ⟨a, ha⟩
      · left
        refine ⟨a, ?_⟩
        simp [runP, hcur, ha]
      · right
        refine ⟨a, ?_⟩
        simp [runP, hcur, ha]
    | .pair =>
      have hsw : skipWs s e' st.c = st.c := skipWs_atEnd s hc
      left
      refine ⟨st.acc, ?_⟩
      have hk : parseKey cb s e' ({ st with c := skipWs s e' st.c } : PSt σ) =
          .err .incomplete st.acc := by
        rw [hsw]
        exact parseKey_atEnd cb s hc
      simp [runP, hk]
    | .arr =>
      left
      refine ⟨(callBack cb st .arrayStart none 0).acc, ?_⟩
      have ht : testAndSkip s e' (callBack cb st .arrayStart none 0).c '[' =
          .error .incomplete := by
        rw [callBack_c]
        exact testAndSkip_atEnd s hc '['
      simp [runP, ht]
    | .arrLoop i =>
      have hcur : curC s e' st.c = (st.c, none) := curC_atEnd s hc
      rcases hap : appendToPath st.path ((('[' :: Nat.toDigits 10 i) ++ [']']).take 19)
        with ⟨cpl, p1⟩
      rcases (ih .value { st with c := st.c, path := p1, name := some ((p1.drop (p1.length - ((('[' :: Nat.toDigits 10 i) ++ [']']).take 19).length + 1)).take (((('[' :: Nat.toDigits 10 i) ++ [']']).take 19).length - 2)) } hc)
        with ⟨a, ha⟩ | ⟨a, ha⟩
      · left
        refine ⟨a, ?_⟩
        simp only [runP, hcur]
        rw [if_neg (by simp), hap]
        dsimp only
        rw [ha]
      · right
        refine ⟨a, ?_⟩
        simp only [runP, hcur]
        rw [if_neg (by simp), hap]
        dsimp only
        rw [ha]

/-! ### Truncation: a window prefix of a successful parse never turns invalid -/

theorem runP_trunc {σ : Type} (cb : WalkCb σ) (s : List Char) {e e' : Nat}
    (hee : e' ≤ e) :
    ∀ (fuel : Nat) (mode : PMode) (st st' : PSt σ),
    runP cb s e fuel mode st = .ok st' → st.c ≤ e' →
    runP cb s e' fuel mode st = .ok st' ∨
    (∃ st'', runP cb s e' fuel mode st = .ok st'' ∧ st''.c = e') ∨
    (∃ a, runP cb s e' fuel mode st = .err .incomplete a) ∨
    (∃ a, runP cb s e' fuel mode st = .err .fuelOut a) := by
  intro fuel
  induction fuel with
  | zero =>
    intro mode st st' h hc
    simp [runP] at h
  | succ fuel ih =>
    intro mode st st' h hc
    match mode with
    | .value =>
      simp only [runP] at h
      split at h
      next c0 ch hcur =>
        obtain ⟨hle0, hlt0, hgb0, hsw0⟩ := curC_some s hcur
        by_cases hc0 : c0 < e'
        · have hcur' : curC s e' st.c = (c0, some ch) := curC_trunc_lt s hcur hc hee hc0
          split_ifs at h with h1 h2 h3 h4 h5 h6 h7
          · rcases parseString_trunc cb s (le_of_lt hc0) hee h with hs | hs
            · left
              simp only [runP, hcur']
              rw [if_pos h1]
              exact hs
            · right; right; left
              exact ⟨st.acc, by simp only [runP, hcur']; rw [if_pos h1]; exact hs⟩
          · have hstep : runP cb s e' (fuel + 1) .value st =
                runP cb s e' fuel .obj { st with c := c0 } := by
              simp only [runP, hcur']
              rw [if_neg h1, if_pos h2]
            rcases ih .obj _ st' h (le_of_lt hc0) with hr | ⟨stx, hr, hkx⟩ | ⟨a3, hr⟩ | ⟨a3, hr⟩
            · left; rw [hstep]; exact hr
            · right; left; exact ⟨stx, by rw [hstep]; exact hr, hkx⟩
            · right; right; left; exact ⟨a3, by rw [hstep]; exact hr⟩
            · right; right; right; exact ⟨a3, by rw [hstep]; exact hr⟩
          · have hstep : runP cb s e' (fuel + 1) .value st =
                runP cb s e' fuel .arr { st with c := c0 } := by
              simp only [runP, hcur']
              rw [if_neg h1, if_neg h2, if_pos h3]
            rcases ih .arr _ st' h (le_of_lt hc0) with hr | ⟨stx, hr, hkx⟩ | ⟨a3, hr⟩ | ⟨a3, hr⟩
            · left; rw [hstep]; exact hr
            · right; left; exact ⟨stx, by rw [hstep]; exact hr, hkx⟩
            · right; right; left; exact ⟨a3, by rw [hstep]; exact hr⟩
            · right; right; right; exact ⟨a3, by rw [hstep]; exact hr⟩
          · have hstep : runP cb s e' (fuel + 1) .value st =
                expectLit cb s e' { st with c := c0 } ['n','u','l','l'] .nul := by
              simp only [runP, hcur']
              rw [if_neg h1, if_neg h2, if_neg h3, if_pos h4]
            rcases expectLit_trunc cb s h with hs | hs
            · left; rw [hstep]; exact hs
            · right; right; left; exact ⟨st.acc, by rw [hstep]; exact hs⟩
          · have hstep : runP cb s e' (fuel + 1) .value st =
                expectLit cb s e' { st with c := c0 } ['t','r','u','e'] .tru := by
              simp only [runP, hcur']
              rw [if_neg h1, if_neg h2, if_neg h3, if_neg h4, if_pos h5]
            rcases expectLit_trunc cb s h with hs | hs
            · left; rw [hstep]; exact hs
            · right; right; left; exact ⟨st.acc, by rw [hstep]; exact hs⟩
          · have hstep : runP cb s e' (fuel + 1) .value st =
                expectLit cb s e' { st with c := c0 } ['f','a','l','s','e'] .fls := by
              simp only [runP, hcur']
              rw [if_neg h1, if_neg h2, if_neg h3, if_neg h4, if_neg h5, if_pos h6]
            rcases expectLit_trunc cb s h with hs | hs
            · left; rw [hstep]; exact hs
            · right; right; left; exact ⟨st.acc, by rw [hstep]; exact hs⟩
          · have hstep : runP cb s e' (fuel + 1) .value st =
                parseNumber cb s e' { st with c := c0 } := by
              simp only [runP, hcur']
              rw [if_neg h1, if_neg h2, if_neg h3, if_neg h4, if_neg h5, if_neg h6,
                if_pos h7]
            rcases parseNumber_trunc cb s (le_of_lt hc0) hee h with hs | ⟨stx, hs, hkx⟩ | hs
            · left; rw [hstep]; exact hs
            · right; left; exact ⟨stx, by rw [hstep]; exact hs, hkx⟩
            · right; right; left; exact ⟨st.acc, by rw [hstep]; exact hs⟩
        · have hcur' : curC s e' st.c = (e', none) := curC_trunc_ge s hcur hc hee (by omega)
          right; right; left
          exact ⟨st.acc, by simp only [runP, hcur']⟩
      next c0 hcur => exact absurd h (by simp)
    | .obj =>
      simp only [runP] at h
      split at h
      next code hts => exact absurd h (by simp)
      next c1 hts =>
        have hts0 : testAndSkip s e st.c '{' = .ok c1 := by
          rw [callBack_c] at hts
          exact hts
        rcases testAndSkip_trunc s hts0 hc hee with ⟨hc1e, hts1⟩ | ⟨hgt1, hts1⟩
        · have hts' : testAndSkip s e' (callBack cb st .objectStart none 0).c '{' =
              .ok c1 := by
            rw [callBack_c]
            exact hts1
          split at h
          next code a3 hloop => exact absurd h (by simp)
          next st3 hloop =>
            rcases ih .objLoop _ st3 hloop hc1e with hl | ⟨st3x, hl, hk3⟩ | ⟨a3, hl⟩ | ⟨a3, hl⟩
            · have hb3 := runP_ok_bounds cb s fuel .objLoop _ st3 hl
              split at h
              next code hts3 => exact absurd h (by simp)
              next c2 hts3 =>
                rcases testAndSkip_trunc s hts3 (by omega) hee with ⟨hc2e, hts3'⟩ | ⟨hgt2, hts3'⟩
                · left
                  simp only [runP, hts', hl, hts3']
                  exact h
                · right; right; left
                  exact ⟨st3.acc, by simp only [runP, hts', hl, hts3']⟩
            · right; right; left
              have hts3' : testAndSkip s e' st3x.c '}' = .error .incomplete := by
                rw [hk3]
                exact testAndSkip_atEnd s (le_refl e') '}'
              exact ⟨st3x.acc, by simp only [runP, hts', hl, hts3']⟩
            · right; right; left
              exact ⟨a3, by simp only [runP, hts', hl]⟩
            · right; right; right
              exact ⟨a3, by simp only [runP, hts', hl]⟩
        · right; right; left
          have hts' : testAndSkip s e' (callBack cb st .objectStart none 0).c '{' =
              .error .incomplete := by
            rw [callBack_c]
            exact hts1
          exact ⟨(callBack cb st .objectStart none 0).acc, by simp only [runP, hts']⟩
    | .objLoop =>
      simp only [runP] at h
      split_ifs at h with hbr
      · rcases hcur : curC s e st.c with ⟨c', och⟩
        rw [hcur] at hbr h
        dsimp only at hbr h
        subst hbr
        obtain ⟨hle2, hlt2, hgb2, hsw2⟩ := curC_some s hcur
        by_cases hc0 : c' < e'
        · left
          have hcur' : curC s e' st.c = (c', some '}') := curC_trunc_lt s hcur hc hee hc0
          simp only [runP, hcur']
          rw [if_pos trivial]
          exact h
        · have hcur' : curC s e' st.c = (e', none) := curC_trunc_ge s hcur hc hee (by omega)
          rcases (@runP_atEnd σ cb s e' fuel .pair { st with c := e' } (le_refl e')) with
            ⟨a3, hx⟩ | ⟨a3, hx⟩
          · right; right; left
            exact ⟨a3, by simp only [runP, hcur', hx]; rw [if_neg (by simp)]⟩
          · right; right; right
            exact ⟨a3, by simp only [runP, hcur', hx]; rw [if_neg (by simp)]⟩
      · split at h
        next code a3 hpair => exact absurd h (by simp)
        next st2 hpair =>
          rcases hcur : curC s e st.c with ⟨c', och⟩
          rw [hcur] at hbr hpair
          dsimp only at hbr hpair
          cases och with
          | none =>
            obtain ⟨hle2, hge2, hsw2⟩ := curC_none s hcur
            rcases (@runP_atEnd σ cb s e fuel .pair { st with c := c' } (show e ≤ c' by omega)) with
              ⟨a3, hx⟩ | ⟨a3, hx⟩ <;>
              (rw [hx] at hpair; exact absurd hpair (by simp))
          | some ch =>
            obtain ⟨hle2, hlt2, hgb2, hsw2⟩ := curC_some s hcur
            by_cases hc0 : c' < e'
            · have hcur' : curC s e' st.c = (c', some ch) := curC_trunc_lt s hcur hc hee hc0
              rcases ih .pair _ st2 hpair (le_of_lt hc0) with hp | ⟨st2x, hp, hk2⟩ | ⟨a3, hp⟩ | ⟨a3, hp⟩
              · have hb2 := runP_ok_bounds cb s fuel .pair _ st2 hp
                rcases hcur2 : curC s e st2.c with ⟨c2, och2⟩
                rw [hcur2] at h
                dsimp only at h
                cases och2 with
                | none =>
                  obtain ⟨hle3, hge3, hsw3⟩ := curC_none s hcur2
                  rw [if_neg (by simp)] at h
                  rcases (@runP_atEnd σ cb s e fuel .objLoop { st2 with c := c2 } (show e ≤ c2 by omega)) with
                    ⟨a3, hx⟩ | ⟨a3, hx⟩ <;>
                    (rw [hx] at h; exact absurd h (by simp))
                | some ch2 =>
                  obtain ⟨hle3, hlt3, hgb3, hsw3⟩ := curC_some s hcur2
                  by_cases hc2 : c2 < e'
                  · have hcur2' : curC s e' st2.c = (c2, some ch2) :=
                      curC_trunc_lt s hcur2 (by omega) hee hc2
                    have hstep : runP cb s e' (fuel + 1) .objLoop st =
                        runP cb s e' fuel .objLoop
                          { st2 with c := if some ch2 = some ',' then c2 + 1 else c2 } := by
                      simp only [runP, hcur', hp, hcur2']
                      rw [if_neg hbr]
                    rcases ih .objLoop _ st' h (by dsimp only; split <;> omega) with
                      hr | ⟨stx, hr, hkx⟩ | ⟨a3, hr⟩ | ⟨a3, hr⟩
                    · left; rw [hstep]; exact hr
                    · right; left; exact ⟨stx, by rw [hstep]; exact hr, hkx⟩
                    · right; right; left; exact ⟨a3, by rw [hstep]; exact hr⟩
                    · right; right; right; exact ⟨a3, by rw [hstep]; exact hr⟩
                  · have hcur2' : curC s e' st2.c = (e', none) :=
                      curC_trunc_ge s hcur2 (by omega) hee (by omega)
                    have hstep : runP cb s e' (fuel + 1) .objLoop st =
                        runP cb s e' fuel .objLoop { st2 with c := e' } := by
                      simp only [runP, hcur', hp, hcur2']
                      rw [if_neg hbr, if_neg (by simp)]
                    rcases (@runP_atEnd σ cb s e' fuel .objLoop { st2 with c := e' }
                        (le_refl e')) with ⟨a3, hx⟩ | ⟨a3, hx⟩
                    · right; right; left; exact ⟨a3, by rw [hstep]; exact hx⟩
                    · right; right; right; exact ⟨a3, by rw [hstep]; exact hx⟩
              · have hcur2' : curC s e' st2x.c = (st2x.c, none) :=
                  curC_atEnd s (le_of_eq hk2.symm)
                have hstep : runP cb s e' (fuel + 1) .objLoop st =
                    runP cb s e' fuel .objLoop { st2x with c := st2x.c } := by
                  simp only [runP, hcur', hp, hcur2']
                  rw [if_neg hbr, if_neg (by simp)]
                rcases (@runP_atEnd σ cb s e' fuel .objLoop { st2x with c := st2x.c }
                    (le_of_eq hk2.symm)) with ⟨a3, hx⟩ | ⟨a3, hx⟩
                · right; right; left; exact ⟨a3, by rw [hstep]; exact hx⟩
                · right; right; right; exact ⟨a3, by rw [hstep]; exact hx⟩
              · right; right; left
                exact ⟨a3, by simp only [runP, hcur', hp]; rw [if_neg hbr]⟩
              · right; right; right
                exact ⟨a3, by simp only [runP, hcur', hp]; rw [if_neg hbr]⟩
            · have hcur' : curC s e' st.c = (e', none) := curC_trunc_ge s hcur hc hee (by omega)
              rcases (@runP_atEnd σ cb s e' fuel .pair { st with c := e' } (le_refl e')) with
                ⟨a3, hx⟩ | ⟨a3, hx⟩
              · right; right; left
                exact ⟨a3, by simp only [runP, hcur', hx]; rw [if_neg (by simp)]⟩
              · right; right; right
                exact ⟨a3, by simp only [runP, hcur', hx]; rw [if_neg (by simp)]⟩
    | .pair =>
      simp only [runP] at h
      split at h
      next code a3 hkey => exact absurd h (by simp)
      next st1 hkey =>
        by_cases htok : skipWs s e st.c < e'
        · have hsw' : skipWs s e' st.c = skipWs s e st.c := by
            have := skipWs_trunc s hc hee
            omega
          rcases parseKey_trunc cb s (le_of_lt htok) hee hkey with hK | ⟨st1x, hK, hk1⟩ | hK
          · have hb1 := parseKey_ok cb s hK
            split at h
            next code hts => exact absurd h (by simp)
            next c2 hts =>
              rcases testAndSkip_trunc s hts (by omega) hee with ⟨hc2e, hts'⟩ | ⟨hgt2, hts'⟩
              · split at h
                next code a3 hval => exact absurd h (by simp)
                next st3 hval =>
                  rcases ih .value _ st3 hval hc2e with hv | ⟨st3x, hv, hk3⟩ | ⟨a3, hv⟩ | ⟨a3, hv⟩
                  · left
                    simp only [runP, hsw', hK, hts', hv]
                    exact h
                  · right; left
                    refine ⟨{ st3x with path := st3x.path.take (appendToPath st1.path (if getB s (skipWs s e st.c) = '"' then (s.drop (skipWs s e st.c + 1)).take (st1.c - skipWs s e st.c - 2) else (s.drop (skipWs s e st.c)).take (st1.c - skipWs s e st.c))).1 }, ?_, hk3⟩
                    simp only [runP, hsw', hK, hts', hv]
                  · right; right; left
                    exact ⟨a3, by simp only [runP, hsw', hK, hts', hv]⟩
                  · right; right; right
                    exact ⟨a3, by simp only [runP, hsw', hK, hts', hv]⟩
              · right; right; left
                refine ⟨st1.acc, ?_⟩
                simp only [runP, hsw', hK, hts']
          · right; right; left
            have hts' : testAndSkip s e' st1x.c ':' = .error .incomplete := by
              rw [hk1]
              exact testAndSkip_atEnd s (le_refl e') ':'
            exact ⟨st1x.acc, by simp only [runP, hsw', hK, hts']⟩
          · right; right; left
            exact ⟨st.acc, by simp only [runP, hsw', hK]⟩
        · have hsw' : skipWs s e' st.c = e' := by
            have h1 := skipWs_trunc s hc hee
            have h2 := skipWs_ge s e' st.c
            omega
          right; right; left
          have hK : parseKey cb s e' ({ st with c := e' } : PSt σ) =
              .err .incomplete st.acc := parseKey_atEnd cb s (le_refl e')
          exact ⟨st.acc, by simp only [runP, hsw', hK]⟩
    | .arr =>
      simp only [runP] at h
      split at h
      next code hts => exact absurd h (by simp)
      next c1 hts =>
        have hts0 : testAndSkip s e st.c '[' = .ok c1 := by
          rw [callBack_c] at hts
          exact hts
        rcases testAndSkip_trunc s hts0 hc hee with ⟨hc1e, hts1⟩ | ⟨hgt1, hts1⟩
        · have hts' : testAndSkip s e' (callBack cb st .arrayStart none 0).c '[' =
              .ok c1 := by
            rw [callBack_c]
            exact hts1
          split at h
          next code a3 hloop => exact absurd h (by simp)
          next st2 hloop =>
            rcases ih (.arrLoop 0) _ st2 hloop hc1e with hl | ⟨st2x, hl, hk2⟩ | ⟨a3, hl⟩ | ⟨a3, hl⟩
            · have hb2 := runP_ok_bounds cb s fuel (.arrLoop 0) _ st2 hl
              split at h
              next code hts3 => exact absurd h (by simp)
              next c2 hts3 =>
                rcases testAndSkip_trunc s hts3 (by omega) hee with ⟨hc2e, hts3'⟩ | ⟨hgt2, hts3'⟩
                · left
                  simp only [runP, hts', hl, hts3']
                  exact h
                · right; right; left
                  exact ⟨st2.acc, by simp only [runP, hts', hl, hts3']⟩
            · right; right; left
              have hts3' : testAndSkip s e' st2x.c ']' = .error .incomplete := by
                rw [hk2]
                exact testAndSkip_atEnd s (le_refl e') ']'
              exact ⟨st2x.acc, by simp only [runP, hts', hl, hts3']⟩
            · right; right; left
              exact ⟨a3, by simp only [runP, hts', hl]⟩
            · right; right; right
              exact ⟨a3, by simp only [runP, hts', hl]⟩
        · right; right; left
          have hts' : testAndSkip s e' (callBack cb st .arrayStart none 0).c '[' =
              .error .incomplete := by
            rw [callBack_c]
            exact hts1
          exact ⟨(callBack cb st .arrayStart none 0).acc, by simp only [runP, hts']⟩
    | .arrLoop i =>
      simp only [runP] at h
      split_ifs at h with hbr
      · rcases hcur : curC s e st.c with ⟨c', och⟩
        rw [hcur] at hbr h
        dsimp only at hbr h
        subst hbr
        obtain ⟨hle2, hlt2, hgb2, hsw2⟩ := curC_some s hcur
        by_cases hc0 : c' < e'
        · left
          have hcur' : curC s e' st.c = (c', some ']') := curC_trunc_lt s hcur hc hee hc0
          simp only [runP, hcur']
          rw [if_pos trivial]
          exact h
        · have hcur' : curC s e' st.c = (e', none) := curC_trunc_ge s hcur hc hee (by omega)
          rcases hap : appendToPath st.path ((('[' :: Nat.toDigits 10 i) ++ [']']).take 19)
            with ⟨cpl, p1⟩
          rcases (@runP_atEnd σ cb s e' fuel .value { st with c := e', path := p1, name := some ((p1.drop (p1.length - ((('[' :: Nat.toDigits 10 i) ++ [']']).take 19).length + 1)).take (((('[' :: Nat.toDigits 10 i) ++ [']']).take 19).length - 2)) } (le_refl e')) with
            ⟨a3, hx⟩ | ⟨a3, hx⟩
          · right; right; left
            refine ⟨a3, ?_⟩
            simp only [runP, hcur']
            rw [if_neg (by simp), hap]
            dsimp only
            rw [hx]
          · right; right; right
            refine ⟨a3, ?_⟩
            simp only [runP, hcur']
            rw [if_neg (by simp), hap]
            dsimp only
            rw [hx]
      · rcases hap : appendToPath st.path ((('[' :: Nat.toDigits 10 i) ++ [']']).take 19)
          with ⟨cpl, p1⟩
        rw [hap] at h
        dsimp only at h
        split at h
        next code a3 hval => exact absurd h (by simp)
        next st2 hval =>
          rcases hcur : curC s e st.c with ⟨c', och⟩
          rw [hcur] at hbr hval
          dsimp only at hbr hval
          cases och with
          | none =>
            obtain ⟨hle2, hge2, hsw2⟩ := curC_none s hcur
            rcases (@runP_atEnd σ cb s e fuel .value { st with c := c', path := p1, name := some ((p1.drop (p1.length - ((('[' :: Nat.toDigits 10 i) ++ [']']).take 19).length + 1)).take (((('[' :: Nat.toDigits 10 i) ++ [']']).take 19).length - 2)) } (show e ≤ c' by omega)) with
              ⟨a3, hx⟩ | ⟨a3, hx⟩ <;>
              (rw [hx] at hval; exact absurd hval (by simp))
          | some ch =>
            obtain ⟨hle2, hlt2, hgb2, hsw2⟩ := curC_some s hcur
            by_cases hc0 : c' < e'
            · have hcur' : curC s e' st.c = (c', some ch) := curC_trunc_lt s hcur hc hee hc0
              rcases ih .value _ st2 hval (le_of_lt hc0) with hv | ⟨st2x, hv, hk2⟩ | ⟨a3, hv⟩ | ⟨a3, hv⟩
              · have hb2 := runP_ok_bounds cb s fuel .value _ st2 hv
                rcases hcur2 : curC s e ({ st2 with path := st2.path.take cpl } : PSt σ).c
                  with ⟨c2, och2⟩
                rw [hcur2] at h
                dsimp only at h
                cases och2 with
                | none =>
                  obtain ⟨hle3, hge3, hsw3⟩ := curC_none s hcur2
                  rw [if_neg (by simp)] at h
                  rcases (@runP_atEnd σ cb s e fuel (.arrLoop (i + 1))
                      { st2 with path := st2.path.take cpl, c := c2 } (show e ≤ c2 by omega)) with
                    ⟨a3, hx⟩ | ⟨a3, hx⟩ <;>
                    (rw [hx] at h; exact absurd h (by simp))
                | some ch2 =>
                  obtain ⟨hle3, hlt3, hgb3, hsw3⟩ := curC_some s hcur2
                  by_cases hc2 : c2 < e'
                  · have hcur2' : curC s e' ({ st2 with path := st2.path.take cpl } : PSt σ).c =
                        (c2, some ch2) := curC_trunc_lt s hcur2 (by dsimp only; omega) hee hc2
                    have hstep : runP cb s e' (fuel + 1) (.arrLoop i) st =
                        runP cb s e' fuel (.arrLoop (i + 1)) { st2 with path := st2.path.take cpl, c := if some ch2 = some ',' then c2 + 1 else c2 } := by
                      simp only [runP, hcur']
                      rw [if_neg hbr, hap]
                      dsimp only
                      rw [hv]
                      dsimp only
                      rw [hcur2']
                    rcases ih (.arrLoop (i + 1)) _ st' h (by dsimp only; split <;> omega) with
                      hr | ⟨stx, hr, hkx⟩ | ⟨a3, hr⟩ | ⟨a3, hr⟩
                    · left; rw [hstep]; exact hr
                    · right; left; exact ⟨stx, by rw [hstep]; exact hr, hkx⟩
                    · right; right; left; exact ⟨a3, by rw [hstep]; exact hr⟩
                    · right; right; right; exact ⟨a3, by rw [hstep]; exact hr⟩
                  · have hcur2' : curC s e' ({ st2 with path := st2.path.take cpl } : PSt σ).c =
                        (e', none) := curC_trunc_ge s hcur2 (by dsimp only; omega) hee (by omega)
                    have hstep : runP cb s e' (fuel + 1) (.arrLoop i) st =
                        runP cb s e' fuel (.arrLoop (i + 1))
                          { st2 with path := st2.path.take cpl, c := e' } := by
                      simp only [runP, hcur']
                      rw [if_neg hbr, hap]
                      dsimp only
                      rw [hv]
                      dsimp only
                      rw [hcur2']
                      dsimp only
                      rw [if_neg (by simp)]
                    rcases (@runP_atEnd σ cb s e' fuel (.arrLoop (i + 1))
                        { st2 with path := st2.path.take cpl, c := e' } (le_refl e')) with
                      ⟨a3, hx⟩ | ⟨a3, hx⟩
                    · right; right; left; exact ⟨a3, by rw [hstep]; exact hx⟩
                    · right; right; right; exact ⟨a3, by rw [hstep]; exact hx⟩
              · have hcur2' : curC s e' ({ st2x with path := st2x.path.take cpl } : PSt σ).c =
                    (st2x.c, none) := by
                  dsimp only
                  exact curC_atEnd s (le_of_eq hk2.symm)
                have hstep : runP cb s e' (fuel + 1) (.arrLoop i) st =
                    runP cb s e' fuel (.arrLoop (i + 1))
                      { st2x with path := st2x.path.take cpl, c := st2x.c } := by
                  simp only [runP, hcur']
                  rw [if_neg hbr, hap]
                  dsimp only
                  rw [hv]
                  dsimp only
                  rw [hcur2']
                  dsimp only
                  rw [if_neg (by simp)]
                rcases (@runP_atEnd σ cb s e' fuel (.arrLoop (i + 1))
                    { st2x with path := st2x.path.take cpl, c := st2x.c }
                    (le_of_eq hk2.symm)) with ⟨a3, hx⟩ | ⟨a3, hx⟩
                · right; right; left; exact ⟨a3, by rw [hstep]; exact hx⟩
                · right; right; right; exact ⟨a3, by rw [hstep]; exact hx⟩
              · right; right; left
                refine ⟨a3, ?_⟩
                simp only [runP, hcur']
                rw [if_neg hbr, hap]
                dsimp only
                rw [hv]
              · right; right; right
                refine ⟨a3, ?_⟩
                simp only [runP, hcur']
                rw [if_neg hbr, hap]
                dsimp only
                rw [hv]
            · have hcur' : curC s e' st.c = (e', none) := curC_trunc_ge s hcur hc hee (by omega)
              rcases (@runP_atEnd σ cb s e' fuel .value { st with c := e', path := p1, name := some ((p1.drop (p1.length - ((('[' :: Nat.toDigits 10 i) ++ [']']).take 19).length + 1)).take (((('[' :: Nat.toDigits 10 i) ++ [']']).take 19).length - 2)) } (le_refl e')) with
                ⟨a3, hx⟩ | ⟨a3, hx⟩
              · right; right; left
                refine ⟨a3, ?_⟩
                simp only [runP, hcur']
                rw [if_neg (by simp), hap]
                dsimp only
                rw [hx]
              · right; right; right
                refine ⟨a3, ?_⟩
                simp only [runP, hcur']
                rw [if_neg (by simp), hap]
                dsimp only
                rw [hx]

/-! ### Extension: a parse that ends strictly inside the window is stable
under lengthening the input -/

theorem runP_ext {σ : Type} (cb : WalkCb σ) (s : List Char) {e e2 : Nat}
    (hee : e ≤ e2) :
    ∀ (fuel : Nat) (mode : PMode) (st st' : PSt σ),
    runP cb s e fuel mode st = .ok st' → st'.c < e →
    runP cb s e2 fuel mode st = .ok st' := by
  intro fuel
  induction fuel with
  | zero =>
    intro mode st st' h hlt
    simp [runP] at h
  | succ fuel ih =>
    intro mode st st' h hlt
    match mode with
    | .value =>
      simp only [runP] at h
      split at h
      next c0 ch hcur =>
        have hcur2 : curC s e2 st.c = (c0, some ch) := curC_ext s hcur hee
        split_ifs at h with h1 h2 h3 h4 h5 h6 h7
        · simp only [runP, hcur2]
          rw [if_pos h1]
          exact parseString_ext cb s hee h
        · simp only [runP, hcur2]
          rw [if_neg h1, if_pos h2]
          exact ih .obj _ st' h hlt
        · simp only [runP, hcur2]
          rw [if_neg h1, if_neg h2, if_pos h3]
          exact ih .arr _ st' h hlt
        · simp only [runP, hcur2]
          rw [if_neg h1, if_neg h2, if_neg h3, if_pos h4]
          exact expectLit_ext cb s hee h
        · simp only [runP, hcur2]
          rw [if_neg h1, if_neg h2, if_neg h3, if_neg h4, if_pos h5]
          exact expectLit_ext cb s hee h
        · simp only [runP, hcur2]
          rw [if_neg h1, if_neg h2, if_neg h3, if_neg h4, if_neg h5, if_pos h6]
          exact expectLit_ext cb s hee h
        · simp only [runP, hcur2]
          rw [if_neg h1, if_neg h2, if_neg h3, if_neg h4, if_neg h5, if_neg h6, if_pos h7]
          exact parseNumber_ext cb s hee hlt h
      next c0 hcur => exact absurd h (by simp)
    | .obj =>
      simp only [runP] at h
      split at h
      next code hts => exact absurd h (by simp)
      next c1 hts =>
        have hts0 : testAndSkip s e st.c '{' = .ok c1 := by
          rw [callBack_c] at hts
          exact hts
        have hts2 : testAndSkip s e2 (callBack cb st .objectStart none 0).c '{' =
            .ok c1 := by
          rw [callBack_c]
          exact testAndSkip_ext s hts0 hee
        split at h
        next code a3 hloop => exact absurd h (by simp)
        next st3 hloop =>
          split at h
          next code hts3 => exact absurd h (by simp)
          next c2 hts3 =>
            obtain ⟨c0', hcur3, hc2eq, hlt3, hle3⟩ := testAndSkip_ok s hts3
            have hloop2 : runP cb s e2 fuel .objLoop _ = .ok st3 :=
              ih .objLoop _ st3 hloop (by omega)
            have hts3' : testAndSkip s e2 st3.c '}' = .ok c2 := testAndSkip_ext s hts3 hee
            simp only [runP, hts2, hloop2, hts3']
            exact h
    | .objLoop =>
      simp only [runP] at h
      split_ifs at h with hbr
      · rcases hcur : curC s e st.c with ⟨c', och⟩
        rw [hcur] at hbr h
        dsimp only at hbr h
        subst hbr
        have hcur2 : curC s e2 st.c = (c', some '}') := curC_ext s hcur hee
        simp only [runP, hcur2]
        rw [if_pos trivial]
        exact h
      · split at h
        next code a3 hpair => exact absurd h (by simp)
        next st2 hpair =>
          rcases hcur : curC s e st.c with ⟨c', och⟩
          rw [hcur] at hbr hpair
          dsimp only at hbr hpair
          cases och with
          | none =>
            obtain ⟨hle2, hge2, hsw2⟩ := curC_none s hcur
            rcases (@runP_atEnd σ cb s e fuel .pair { st with c := c' } (show e ≤ c' by omega)) with
              ⟨a3, hx⟩ | ⟨a3, hx⟩ <;>
              (rw [hx] at hpair; exact absurd hpair (by simp))
          | some ch =>
            have hcur2 : curC s e2 st.c = (c', some ch) := curC_ext s hcur hee
            have hbc := runP_ok_bounds cb s fuel .pair _ st2 hpair
            rcases hcurB : curC s e st2.c with ⟨c2, och2⟩
            rw [hcurB] at h
            dsimp only at h
            cases och2 with
            | none =>
              obtain ⟨hle3, hge3, hsw3⟩ := curC_none s hcurB
              rw [if_neg (by simp)] at h
              rcases (@runP_atEnd σ cb s e fuel .objLoop { st2 with c := c2 } (show e ≤ c2 by omega)) with
                ⟨a3, hx⟩ | ⟨a3, hx⟩ <;>
                (rw [hx] at h; exact absurd h (by simp))
            | some ch2 =>
              obtain ⟨hle3, hlt3, hgb3, hsw3⟩ := curC_some s hcurB
              have hbrec := runP_ok_bounds cb s fuel .objLoop _ st' h
              have hpair2 : runP cb s e2 fuel .pair ({ st with c := c' } : PSt σ) = .ok st2 := by
                refine ih .pair _ st2 hpair ?_
                have : st2.c ≤ (if some ch2 = some ',' then c2 + 1 else c2) := by
                  split <;> omega
                dsimp only at hbrec
                omega
              have hcurB2 : curC s e2 st2.c = (c2, some ch2) := curC_ext s hcurB hee
              have hrec2 : runP cb s e2 fuel .objLoop
                  ({ st2 with c := if some ch2 = some ',' then c2 + 1 else c2 } : PSt σ) =
                  .ok st' := ih .objLoop _ st' h hlt
              simp only [runP, hcur2]
              rw [if_neg hbr]
              rw [hpair2]
              dsimp only
              rw [hcurB2]
              dsimp only
              exact hrec2
    | .pair =>
      simp only [runP] at h
      split at h
      next code a3 hkey => exact absurd h (by simp)
      next st1 hkey =>
        have hb1 := parseKey_ok cb s hkey
        split at h
        next code hts => exact absurd h (by simp)
        next c2 hts =>
          obtain ⟨c0', hcurT, hc2eq, hltT, hleT⟩ := testAndSkip_ok s hts
          dsimp only at hb1 hltT
          split at h
          next code a3 hval => exact absurd h (by simp)
          next st3 hval =>
            have hb3 := runP_ok_bounds cb s fuel .value _ st3 hval
            dsimp only at hb3
            have hlt3 : st3.c < e := by
              have : st'.c = st3.c := by rw [← PRes.ok.inj h]
              omega
            have hltK : st1.c < e := by
              omega
            have hsw2 : skipWs s e2 st.c = skipWs s e st.c := by
              refine skipWs_ext s ?_ hee ?_
              · have := skipWs_ge s e st.c
                omega
              · omega
            have hkey2 : parseKey cb s e2 ({ st with c := skipWs s e st.c } : PSt σ) =
                .ok st1 := parseKey_ext cb s hee hltK hkey
            have hts2 : testAndSkip s e2 _ ':' = .ok c2 := testAndSkip_ext s hts hee
            have hval2 : runP cb s e2 fuel .value _ = .ok st3 :=
              ih .value _ st3 hval hlt3
            simp only [runP, hsw2, hkey2, hts2, hval2]
            exact h
    | .arr =>
      simp only [runP] at h
      split at h
      next code hts => exact absurd h (by simp)
      next c1 hts =>
        have hts0 : testAndSkip s e st.c '[' = .ok c1 := by
          rw [callBack_c] at hts
          exact hts
        have hts2 : testAndSkip s e2 (callBack cb st .arrayStart none 0).c '[' =
            .ok c1 := by
          rw [callBack_c]
          exact testAndSkip_ext s hts0 hee
        split at h
        next code a3 hloop => exact absurd h (by simp)
        next st2 hloop =>
          split at h
          next code hts3 => exact absurd h (by simp)
          next c2 hts3 =>
            obtain ⟨c0', hcur3, hc2eq, hlt3, hle3⟩ := testAndSkip_ok s hts3
            have hloop2 : runP cb s e2 fuel (.arrLoop 0) _ = .ok st2 :=
              ih (.arrLoop 0) _ st2 hloop (by omega)
            have hts3' : testAndSkip s e2 st2.c ']' = .ok c2 := testAndSkip_ext s hts3 hee
            simp only [runP, hts2, hloop2, hts3']
            exact h
    | .arrLoop i =>
      simp only [runP] at h
      split_ifs at h with hbr
      · rcases hcur : curC s e st.c with ⟨c', och⟩
        rw [hcur] at hbr h
        dsimp only at hbr h
        subst hbr
        have hcur2 : curC s e2 st.c = (c', some ']') := curC_ext s hcur hee
        simp only [runP, hcur2]
        rw [if_pos trivial]
        exact h
      · rcases hap : appendToPath st.path ((('[' :: Nat.toDigits 10 i) ++ [']']).take 19)
          with ⟨cpl, p1⟩
        rw [hap] at h
        dsimp only at h
        split at h
        next code a3 hval => exact absurd h (by simp)
        next st2 hval =>
          rcases hcur : curC s e st.c with ⟨c', och⟩
          rw [hcur] at hbr hval
          dsimp only at hbr hval
          cases och with
          | none =>
            obtain ⟨hle2, hge2, hsw2⟩ := curC_none s hcur
            rcases (@runP_atEnd σ cb s e fuel .value { st with c := c', path := p1, name := some ((p1.drop (p1.length - ((('[' :: Nat.toDigits 10 i) ++ [']']).take 19).length + 1)).take (((('[' :: Nat.toDigits 10 i) ++ [']']).take 19).length - 2)) } (show e ≤ c' by omega)) with
              ⟨a3, hx⟩ | ⟨a3, hx⟩ <;>
              (rw [hx] at hval; exact absurd hval (by simp))
          | some ch =>
            have hcur2 : curC s e2 st.c = (c', some ch) := curC_ext s hcur hee
            have hbc := runP_ok_bounds cb s fuel .value _ st2 hval
            rcases hcurB : curC s e ({ st2 with path := st2.path.take cpl } : PSt σ).c
              with ⟨c2, och2⟩
            rw [hcurB] at h
            dsimp only at h
            cases och2 with
            | none =>
              obtain ⟨hle3, hge3, hsw3⟩ := curC_none s hcurB
              rw [if_neg (by simp)] at h
              rcases (@runP_atEnd σ cb s e fuel (.arrLoop (i + 1))
                  { st2 with path := st2.path.take cpl, c := c2 } (show e ≤ c2 by omega)) with
                ⟨a3, hx⟩ | ⟨a3, hx⟩ <;>
                (rw [hx] at h; exact absurd h (by simp))
            | some ch2 =>
              obtain ⟨hle3, hlt3, hgb3, hsw3⟩ := curC_some s hcurB
              have hval2 := ih .value _ st2 hval (by dsimp only at hle3; omega)
              have hcurB2 : curC s e2 ({ st2 with path := st2.path.take cpl } : PSt σ).c =
                  (c2, some ch2) := curC_ext s hcurB hee
              have hrec2 := ih (.arrLoop (i + 1)) _ st' h hlt
              simp only [runP, hcur2]
              rw [if_neg hbr, hap]
              dsimp only
              rw [hval2]
              dsimp only
              rw [hcurB2]
              dsimp only
              exact hrec2

/-! ### The fuel supplied by jsonWalkFull is sufficient -/

theorem testAndSkip_error_code {s : List Char} {e c : Nat} {x : Char} {code : PErr}
    (h : testAndSkip s e c x = .error code) :
    code = .invalid ∨ code = .incomplete := by
  simp only [testAndSkip] at h
  split at h
  next c' ch hcur =>
    split at h
    · exact absurd h (by simp)
    · left; exact (Except.error.inj h).symm
  next c' hcur =>
    right; exact (Except.error.inj h).symm

theorem matchLit_error_code {s : List Char} {e : Nat} {lit : List Char} :
    ∀ {c : Nat} {code : PErr}, matchLit s e c lit = .error code →
    code = .invalid ∨ code = .incomplete := by
  induction lit with
  | nil =>
    intro c code h
    simp [matchLit] at h
  | cons ch rest ih =>
    intro c code h
    simp only [matchLit] at h
    split at h
    · split at h
      · exact ih h
      · left; exact (Except.error.inj h).symm
    · right; exact (Except.error.inj h).symm

theorem strLoop_error_code (s : List Char) {e : Nat} :
    ∀ {fuel c : Nat} {code : PErr}, e - c < fuel →
    strLoop s e fuel c = .error code →
    code = .invalid ∨ code = .incomplete := by
  intro fuel
  induction fuel with
  | zero => intro c code hf h; omega
  | succ fuel ih =>
    intro c code hf h
    simp only [strLoop] at h
    split at h
    next hce =>
      split at h
      next hq =>
        split at h
        next hlen =>
          split at h
          next hbs =>
            split at h
            next hn =>
              have hl : 0 < get_utf8_char_len (getB s c) := hq.2
              exact ih (by omega) h
            next hn =>
              split at h
              · right; exact (Except.error.inj h).symm
              · left; exact (Except.error.inj h).symm
          next hbs =>
            split at h
            next hquote => exact absurd h (by simp)
            next hquote =>
              have hl : 0 < get_utf8_char_len (getB s c) := hq.2
              exact ih (by omega) h
        next hlen => right; exact (Except.error.inj h).symm
      next hq => left; exact (Except.error.inj h).symm
    next hce => right; exact (Except.error.inj h).symm

theorem digTail_error_code {s : List Char} {e c : Nat} {code : PErr}
    (h : digTail s e c = .error code) :
    code = .invalid ∨ code = .incomplete := by
  simp only [digTail] at h
  split at h
  · split at h
    · exact absurd h (by simp)
    · left; exact (Except.error.inj h).symm
  · right; exact (Except.error.inj h).symm

theorem numFrac_error_code {s : List Char} {e c2 : Nat} {code : PErr}
    (h : numFrac s e c2 = .error code) :
    code = .invalid ∨ code = .incomplete := by
  simp only [numFrac] at h
  split at h
  · exact digTail_error_code h
  · exact absurd h (by simp)

theorem numExpo_error_code {s : List Char} {e c4 : Nat} {code : PErr}
    (h : numExpo s e c4 = .error code) :
    code = .invalid ∨ code = .incomplete := by
  simp only [numExpo] at h
  split at h
  · split at h
    · exact digTail_error_code h
    · right; exact (Except.error.inj h).symm
  · exact absurd h (by simp)

theorem parseString_ne_fuelOut {σ : Type} (cb : WalkCb σ) (s : List Char) {e : Nat}
    (he : e ≤ s.length) (st : PSt σ) (a : σ) :
    parseString cb s e st ≠ .err .fuelOut a := by
  intro h
  simp only [parseString] at h
  split at h
  next code hts =>
    rcases testAndSkip_error_code hts with hc | hc <;>
      (rw [hc] at h; exact absurd (PRes.err.inj h).1 (by simp))
  next c1 hts =>
    split at h
    next code hsl =>
      rcases strLoop_error_code s (by omega) hsl with hc | hc <;>
        (rw [hc] at h; exact absurd (PRes.err.inj h).1 (by simp))
    next q hsl => exact absurd h (by simp)

theorem parseIdentifier_ne_fuelOut {σ : Type} (cb : WalkCb σ) (s : List Char)
    {e : Nat} (st : PSt σ) (a : σ) :
    parseIdentifier cb s e st ≠ .err .fuelOut a := by
  intro h
  simp only [parseIdentifier] at h
  split at h
  next c0 ch hcur =>
    split at h
    · exact absurd h (by simp)
    · exact absurd (PRes.err.inj h).1 (by simp)
  next c0 hcur => exact absurd (PRes.err.inj h).1 (by simp)

theorem parseKey_ne_fuelOut {σ : Type} (cb : WalkCb σ) (s : List Char) {e : Nat}
    (he : e ≤ s.length) (st : PSt σ) (a : σ) :
    parseKey cb s e st ≠ .err .fuelOut a := by
  intro h
  simp only [parseKey] at h
  split at h
  next c0 ch hcur =>
    split at h
    next halpha => exact parseIdentifier_ne_fuelOut cb s _ _ h
    next halpha =>
      split at h
      next hq => exact parseString_ne_fuelOut cb s he _ _ h
      next hq => exact absurd (PRes.err.inj h).1 (by simp)
  next c0 hcur => exact absurd (PRes.err.inj h).1 (by simp)

theorem parseNumber_ne_fuelOut {σ : Type} (cb : WalkCb σ) (s : List Char)
    {e : Nat} (st : PSt σ) (a : σ) :
    parseNumber cb s e st ≠ .err .fuelOut a := by
  intro h
  simp only [parseNumber] at h
  rcases hcur : curC s e st.c with ⟨c0, och⟩
  rw [hcur] at h
  dsimp only at h
  split_ifs at h with hneg hce hdig <;>
  first
    | exact absurd (PRes.err.inj h).1 (by simp)
    | (split at h
       next code hfrac =>
         rcases numFrac_error_code hfrac with hcode | hcode <;>
           (rw [hcode] at h; exact absurd (PRes.err.inj h).1 (by simp))
       next c4 hfrac =>
         split at h
         next code hexpo =>
           rcases numExpo_error_code hexpo with hcode | hcode <;>
             (rw [hcode] at h; exact absurd (PRes.err.inj h).1 (by simp))
         next c7 hexpo => exact absurd h (by simp))

theorem expectLit_ne_fuelOut {σ : Type} (cb : WalkCb σ) (s : List Char) {e : Nat}
    (st : PSt σ) (lit : List Char) (ty : JType) (a : σ) :
    expectLit cb s e st lit ty ≠ .err .fuelOut a := by
  intro h
  simp only [expectLit] at h
  split at h
  next code hml =>
    rcases matchLit_error_code hml with hc | hc <;>
      (rw [hc] at h; exact absurd (PRes.err.inj h).1 (by simp))
  next c' hml => exact absurd h (by simp)

/-- Fuel slack needed by each mode on top of `3 * (e - cursor)`. -/
def slack : PMode → Nat
  | .value => 3
  | .obj => 2
  | .objLoop => 4
  | .pair => 3
  | .arr => 2
  | .arrLoop _ => 4

theorem runP_ne_fuelOut {σ : Type} (cb : WalkCb σ) (s : List Char) {e : Nat}
    (he : e ≤ s.length) :
    ∀ (fuel : Nat) (mode : PMode) (st : PSt σ), st.c ≤ e →
    3 * (e - st.c) + slack mode ≤ fuel →
    ∀ a, runP cb s e fuel mode st ≠ .err .fuelOut a := by
  intro fuel
  induction fuel with
  | zero =>
    intro mode st hc hf a
    have : 2 ≤ slack mode := by
      match mode with
      | .value | .obj | .objLoop | .pair | .arr | .arrLoop _ => simp [slack]
    omega
  | succ fuel ih =>
    intro mode st hc hf a h
    match mode with
    | .value =>
      simp only [runP] at h
      split at h
      next c0 ch hcur =>
        obtain ⟨hle, hlt, _, _⟩ := curC_some s hcur
        simp only [slack] at hf
        split_ifs at h with h1 h2 h3 h4 h5 h6 h7
        · exact parseString_ne_fuelOut cb s he _ _ h
        · exact ih .obj _ (by simpa using le_of_lt hlt)
            (by simp only [slack]; omega) a h
        · exact ih .arr _ (by simpa using le_of_lt hlt)
            (by simp only [slack]; omega) a h
        · exact expectLit_ne_fuelOut cb s _ _ _ _ h
        · exact expectLit_ne_fuelOut cb s _ _ _ _ h
        · exact expectLit_ne_fuelOut cb s _ _ _ _ h
        · exact parseNumber_ne_fuelOut cb s _ _ h
        · exact absurd (PRes.err.inj h).1 (by simp)
      next c0 hcur => exact absurd (PRes.err.inj h).1 (by simp)
    | .obj =>
      simp only [runP] at h
      split at h
      next code hts =>
        rcases testAndSkip_error_code hts with hcode | hcode <;>
          (rw [hcode] at h; exact absurd (PRes.err.inj h).1 (by simp))
      next c1 hts =>
        have hts' : testAndSkip s e st.c '{' = Except.ok c1 := by
          rw [callBack_c] at hts
          exact hts
        obtain ⟨ca, _, _, hlt1, hle1⟩ := testAndSkip_ok s hts'
        split at h
        next code a2 hloop =>
          obtain ⟨hcode, ha⟩ := PRes.err.inj h
          subst hcode
          rw [ha] at hloop
          exact ih .objLoop _ (by simpa using hle1)
            (by simp only [slack]; simp only [slack] at hf; omega) a hloop
        next st3 hloop =>
          split at h
          next code hts2 =>
            rcases testAndSkip_error_code hts2 with hcode | hcode <;>
              (rw [hcode] at h; exact absurd (PRes.err.inj h).1 (by simp))
          next c2 hts2 => exact absurd h (by simp)
    | .objLoop =>
      simp only [runP] at h
      split_ifs at h with hbr
      · split at h
        next code a2 hpair =>
          obtain ⟨hcode, ha⟩ := PRes.err.inj h
          subst hcode
          rw [ha] at hpair
          have hc' : ({ st with c := (curC s e st.c).1 } : PSt σ).c = skipWs s e st.c := rfl
          refine ih .pair _ ?_ ?_ a hpair
          · rw [hc']
            exact skipWs_le s hc
          · rw [hc']
            have := skipWs_ge s e st.c
            simp only [slack] at hf ⊢
            omega
        next st2 hpair =>
          have hbp : skipWs s e st.c + minC .pair ≤ st2.c ∧ st2.c ≤ e :=
            runP_ok_bounds cb s fuel .pair _ _ hpair
          simp only [minC] at hbp
          have hge := skipWs_ge s e st.c
          have hge2 := skipWs_ge s e st2.c
          have hle2 : skipWs s e st2.c ≤ e := skipWs_le s (by omega)
          have hc3e : (if (curC s e st2.c).2 = some ',' then (curC s e st2.c).1 + 1
              else (curC s e st2.c).1) ≤ e := by
            rcases hcur2 : curC s e st2.c with ⟨c2, och2⟩
            dsimp only
            split
            next hcomma =>
              subst hcomma
              obtain ⟨_, hlt2, _, _⟩ := curC_some s hcur2
              omega
            next hcomma =>
              have : c2 = skipWs s e st2.c := congrArg Prod.fst hcur2 |>.symm
              omega
          have hc3ge : skipWs s e st2.c ≤ (if (curC s e st2.c).2 = some ','
              then (curC s e st2.c).1 + 1 else (curC s e st2.c).1) := by
            have : (curC s e st2.c).1 = skipWs s e st2.c := rfl
            split <;> omega
          refine ih .objLoop _ ?_ ?_ a h
          · dsimp only
            exact hc3e
          · dsimp only
            simp only [slack] at hf ⊢
            omega
    | .pair =>
      simp only [runP] at h
      split at h
      next code a2 hkey =>
        obtain ⟨hcode, ha⟩ := PRes.err.inj h
        subst hcode
        rw [ha] at hkey
        exact parseKey_ne_fuelOut cb s he _ _ hkey
      next st1 hkey =>
        have hkb : skipWs s e st.c < st1.c ∧ st1.c ≤ e := parseKey_ok cb s hkey
        split at h
        next code hts =>
          rcases testAndSkip_error_code hts with hcode | hcode <;>
            (rw [hcode] at h; exact absurd (PRes.err.inj h).1 (by simp))
        next c2 hts =>
          have hts' : testAndSkip s e st1.c ':' = Except.ok c2 := hts
          obtain ⟨ca, _, _, hlt2, hle2⟩ := testAndSkip_ok s hts'
          split at h
          next code a2 hval =>
            obtain ⟨hcode, ha⟩ := PRes.err.inj h
            subst hcode
            rw [ha] at hval
            have hge := skipWs_ge s e st.c
            refine ih .value _ (by simpa using hle2) ?_ a hval
            simp only [slack] at hf ⊢
            omega
          next st3 hval => exact absurd h (by simp)
    | .arr =>
      simp only [runP] at h
      split at h
      next code hts =>
        rcases testAndSkip_error_code hts with hcode | hcode <;>
          (rw [hcode] at h; exact absurd (PRes.err.inj h).1 (by simp))
      next c1 hts =>
        have hts' : testAndSkip s e st.c '[' = Except.ok c1 := by
          rw [callBack_c] at hts
          exact hts
        obtain ⟨ca, _, _, hlt1, hle1⟩ := testAndSkip_ok s hts'
        split at h
        next code a2 hloop =>
          obtain ⟨hcode, ha⟩ := PRes.err.inj h
          subst hcode
          rw [ha] at hloop
          exact ih (.arrLoop 0) _ (by simpa using hle1)
            (by simp only [slack]; simp only [slack] at hf; omega) a hloop
        next st2 hloop =>
          split at h
          next code hts2 =>
            rcases testAndSkip_error_code hts2 with hcode | hcode <;>
              (rw [hcode] at h; exact absurd (PRes.err.inj h).1 (by simp))
          next c2 hts2 => exact absurd h (by simp)
    | .arrLoop i =>
      simp only [runP] at h
      split_ifs at h with hbr
      · split at h
        next code a2 hval =>
          obtain ⟨hcode, ha⟩ := PRes.err.inj h
          subst hcode
          rw [ha] at hval
          refine ih .value _ ?_ ?_ a hval
          · simpa using skipWs_le s hc
          · have hge := skipWs_ge s e st.c
            have hca : (curC s e st.c).1 = skipWs s e st.c := rfl
            dsimp only
            simp only [slack] at hf ⊢
            rw [hca]
            omega
        next st2 hval =>
          have hbv : skipWs s e st.c + minC .value ≤ st2.c ∧ st2.c ≤ e :=
            runP_ok_bounds cb s fuel .value _ _ hval
          simp only [minC] at hbv
          have hge := skipWs_ge s e st.c
          have hge2 := skipWs_ge s e st2.c
          have hle2 : skipWs s e st2.c ≤ e := skipWs_le s (by omega)
          have hc3e : (if (curC s e st2.c).2 = some ',' then (curC s e st2.c).1 + 1
              else (curC s e st2.c).1) ≤ e := by
            rcases hcur2 : curC s e st2.c with ⟨c2, och2⟩
            dsimp only
            split
            next hcomma =>
              subst hcomma
              obtain ⟨_, hlt2, _, _⟩ := curC_some s hcur2
              omega
            next hcomma =>
              have : c2 = skipWs s e st2.c := congrArg Prod.fst hcur2 |>.symm
              omega
          have hc3ge : skipWs s e st2.c ≤ (if (curC s e st2.c).2 = some ','
              then (curC s e st2.c).1 + 1 else (curC s e st2.c).1) := by
            have : (curC s e st2.c).1 = skipWs s e st2.c := rfl
            split <;> omega
          refine ih (.arrLoop (i + 1)) _ ?_ ?_ a h
          · dsimp only
            exact hc3e
          · dsimp only
            simp only [slack] at hf ⊢
            omega

/-! ### json_walk level corollaries -/

theorem jsonWalkFull_consumed_le {σ : Type} (cb : WalkCb σ) (a : σ) (s : List Char)
    {len n : Nat} {acc : σ} (h : jsonWalkFull cb a s len = .ok (acc, n)) : n ≤ len := by
  simp only [jsonWalkFull] at h
  split_ifs at h with h0
  split at h
  next st hok =>
    have hb := runP_ok_bounds cb s (3 * s.length + 4) .value _ st hok
    have h2 : st.c = n := congrArg Prod.snd (Except.ok.inj h)
    omega
  next code a2 herr => exact absurd h (by simp)

theorem jsonWalkFull_no_fuelOut {σ : Type} (cb : WalkCb σ) (a : σ) (s : List Char)
    {len : Nat} (hlen : len ≤ s.length) (a' : σ) :
    jsonWalkFull cb a s len ≠ .error (.fuelOut, a') := by
  intro h
  simp only [jsonWalkFull] at h
  split_ifs at h with h0
  · exact absurd (congrArg Prod.fst (Except.error.inj h)) (by simp)
  · split at h
    next st hok => exact absurd h (by simp)
    next code a2 herr =>
      have hcode : code = .fuelOut := congrArg Prod.fst (Except.error.inj h)
      rw [hcode] at herr
      exact runP_ne_fuelOut cb s hlen (3 * s.length + 4) .value ⟨0, [], none, a⟩
        (Nat.zero_le len) (by dsimp only [slack]; omega) a2 herr

theorem jsonWalkFull_trunc {σ : Type} (cb : WalkCb σ) (a : σ) (s : List Char)
    {len k : Nat} (hlen : len ≤ s.length) (hk0 : 0 < k) (hkl : k ≤ len)
    {acc : σ} {n : Nat} (h : jsonWalkFull cb a s len = .ok (acc, n)) :
    (∃ acc2 n2, jsonWalkFull cb a s k = .ok (acc2, n2)) ∨
    (∃ a2, jsonWalkFull cb a s k = .error (.incomplete, a2)) := by
  simp only [jsonWalkFull] at h ⊢
  split_ifs at h with h0
  rw [if_neg (by omega)]
  split at h
  next st hok =>
    rcases runP_trunc cb s hkl (3 * s.length + 4) .value _ st hok (Nat.zero_le k) with
      hr | ⟨st2, hr, hk2⟩ | ⟨a2, hr⟩ | ⟨a2, hr⟩
    · left; exact ⟨st.acc, st.c, by rw [hr]⟩
    · left; exact ⟨st2.acc, st2.c, by rw [hr]⟩
    · right; exact ⟨a2, by rw [hr]⟩
    · exact absurd hr (runP_ne_fuelOut cb s (by omega) (3 * s.length + 4) .value _
        (Nat.zero_le k) (by dsimp only [slack]; omega) a2)
  next code a2 herr => exact absurd h (by simp)

theorem jsonWalkFull_ext {σ : Type} (cb : WalkCb σ) (a : σ) (s : List Char)
    {k len : Nat} {acc : σ} {n : Nat} (h : jsonWalkFull cb a s k = .ok (acc, n))
    (hn : n < k) (hkl : k ≤ len) :
    jsonWalkFull cb a s len = .ok (acc, n) := by
  simp only [jsonWalkFull] at h ⊢
  split_ifs at h with h0
  rw [if_neg (by omega)]
  split at h
  next st hok =>
    have hstc : st.c = n := congrArg Prod.snd (Except.ok.inj h)
    have hext := runP_ext cb s hkl (3 * s.length + 4) .value _ st hok (by omega)
    rw [hext]
    exact h
  next code a2 herr => exact absurd h (by simp)

/-! ## Claim theorems -/

/-- C2: `json_walk(src, len, cb, data)` returns the number of bytes consumed
(a value at least 0 and at most `len`) on success, JSON_STRING_INVALID on
malformed syntax, and JSON_STRING_INCOMPLETE on premature end of input; in
particular walking the 6 bytes of an unterminated object gives INCOMPLETE and
walking 7 bytes with a bad value byte gives INVALID. -/
theorem json_walk_return_contract :
    (∀ (σ : Type) (cb : WalkCb σ) (a : σ) (s : List Char) (len : Nat),
      len ≤ s.length →
      (∃ n : Nat, jsonWalkInt cb a s len = (n : Int) ∧ n ≤ len) ∨
      jsonWalkInt cb a s len = -1 ∨ jsonWalkInt cb a s len = -2) ∧
    jsonWalkInt collectCb [] ['{','"','a','"',':','1'] 6 = -2 ∧
    jsonWalkInt collectCb [] ['{','"','a','"',':','@','}'] 7 = -1 := by
  refine ⟨?_, by decide, by decide⟩
  intro σ cb a s len hlen
  rcases hfull : jsonWalkFull cb a s len with ⟨code, a2⟩ | ⟨acc, n⟩
  case ok.mk =>
    left
    exact ⟨n, by simp [jsonWalkInt, hfull], jsonWalkFull_consumed_le cb a s hfull⟩
  case error.mk =>
    cases code with
    | invalid => right; left; simp [jsonWalkInt, hfull]
    | incomplete => right; right; simp [jsonWalkInt, hfull]
    | fuelOut => exact absurd hfull (jsonWalkFull_no_fuelOut cb a s hlen a2)

theorem json_walk_return_contract_witness :
    (6 : Nat) ≤ (['{','"','a','"',':','1'] : List Char).length ∧
    ((∃ n : Nat, jsonWalkInt collectCb [] ['{','"','a','"',':','1'] 6 = (n : Int) ∧ n ≤ 6) ∨
      jsonWalkInt collectCb [] ['{','"','a','"',':','1'] 6 = -1 ∨
      jsonWalkInt collectCb [] ['{','"','a','"',':','1'] 6 = -2) :=
  ⟨by decide, json_walk_return_contract.1 (List WEv) collectCb []
    ['{','"','a','"',':','1'] 6 (by decide)⟩

/-- C3 counterexample: the input consisting of the two digit bytes `1` `2` is
valid JSON on which the walker succeeds (returning 2), yet walking the
shortened input (its first byte only) returns 1 — a successful parse of the
shorter number — not INCOMPLETE.  This refutes the claim that truncation of a
valid input always yields INCOMPLETE. -/
theorem json_walk_truncate_cex :
    jsonWalkInt collectCb [] ['1','2'] 2 = 2 ∧
    jsonWalkInt collectCb [] ['1','2'] 1 ≠ -2 := by decide

/-- C3 (amended): truncating an input on which the walker succeeds can never
turn the verdict into INVALID: for every successful walk of `len` bytes and
every nonempty prefix length `k ≤ len`, the walk of `k` bytes returns either
a success or INCOMPLETE, never JSON_STRING_INVALID. -/
theorem json_walk_truncate_never_invalid {σ : Type} (cb : WalkCb σ) (a : σ)
    (s : List Char) (len k : Nat) (hlen : len ≤ s.length)
    (h : 0 ≤ jsonWalkInt cb a s len) (hk0 : 0 < k) (hkl : k ≤ len) :
    jsonWalkInt cb a s k ≠ -1 := by
  rcases hfull : jsonWalkFull cb a s len with ⟨code, a2⟩ | ⟨acc, n⟩
  case ok.mk =>
    rcases jsonWalkFull_trunc cb a s hlen hk0 hkl hfull with ⟨acc2, n2, hr⟩ | ⟨a3, hr⟩ <;>
      simp [jsonWalkInt, hr]
  case error.mk =>
    exfalso
    cases code <;> (rw [jsonWalkInt, hfull] at h; simp at h)

theorem json_walk_truncate_never_invalid_witness :
    jsonWalkInt collectCb [] ['[','1',']'] 2 ≠ -1 :=
  json_walk_truncate_never_invalid collectCb [] ['[','1',']'] 3 2
    (by decide) (by decide) (by decide) (by decide)

/-- C10 counterexample: in the input consisting of the bytes `7` `8`, the
initial segment `7` is one complete valid JSON value ending at offset 1 < 2
(the walker on the one-byte window succeeds returning 1), yet
`json_walk` on the full two-byte input does not stop at offset 1 — it reads
on and returns 2.  The walker is not bounded by the first complete value: it
keeps consuming digits, so trailing bytes after a number are parsed. -/
theorem json_walk_trailing_cex :
    jsonWalkInt collectCb [] ['7','8'] 1 = 1 ∧
    jsonWalkInt collectCb [] ['7','8'] 2 ≠ 1 := by decide

/-- C10 (amended): if the walk of a `k`-byte window succeeds consuming
`n < k` bytes (the value ends strictly before the window does, so the walker
has already seen one byte past the value), then walking any longer window
`len ≥ k` of the same buffer gives the identical outcome: the same consumed
count `n` and the same accumulated callback data.  The bytes at offsets k
and beyond are never parsed or validated. -/
theorem json_walk_trailing_garbage {σ : Type} (cb : WalkCb σ) (a : σ)
    (s : List Char) (k len : Nat) (acc : σ) (n : Nat)
    (h : jsonWalkFull cb a s k = .ok (acc, n)) (hn : n < k) (hkl : k ≤ len) :
    jsonWalkFull cb a s len = .ok (acc, n) :=
  jsonWalkFull_ext cb a s h hn hkl

theorem json_walk_trailing_garbage_witness :
    jsonWalkFull collectCb [] ['1',' ','x'] 3 =
      .ok ([⟨none, [], ⟨some 0, 1, .num⟩⟩], 1) :=
  json_walk_trailing_garbage collectCb [] ['1',' ','x'] 2 3
    [⟨none, [], ⟨some 0, 1, .num⟩⟩] 1 (by rfl) (by decide) (by decide)

/-- A byte string contains a comma immediately adjacent (on either side) to
an opening or closing brace or bracket. -/
def commaBracketAdjacent : List Char → Bool
  | [] => false
  | [_] => false
  | a :: b :: t =>
    (a == ',' && (b == '{' || b == '[' || b == '}' || b == ']')) ||
    ((a == '{' || a == '[' || a == '}' || a == ']') && b == ',') ||
    commaBracketAdjacent (b :: t)

/-- C1 counterexample: the insertion call `setf("..a..:1..", 7, sink, ".b", "2")`
(path `.b` absent from the document) does write the expected bytes, but it
returns 0, not 1: `json_vsetf` returns `data.end > data.pos`, and for an
insertion at the end of the object both `pos` and `end` are set to the same
offset `prev`, so the comparison is false even though an insertion position
was found and used. -/
theorem json_setf_insert_cex :
    jsonVsetf collectSink [] ['{','"','a','"',':','1','}'] 7 ['.','b']
      (some (['2'], [])) =
      (['{','"','a','"',':','1',',','"','b','"',':','2','}'], 0) ∧
    (jsonVsetf collectSink [] ['{','"','a','"',':','1','}'] 7 ['.','b']
      (some (['2'], []))).2 ≠ 1 := by decide

/-- C1 (amended): the insertion call writes exactly the expected bytes of the
grown object but returns 0, while a modification of an existing value — here
`setf` of path `.a` to `2` on the same document — writes the updated object
and returns 1.  The return value 1 thus signals that an existing value was
located and replaced or deleted, not that an insertion position was found. -/
theorem json_setf_insert_returns_zero :
    jsonVsetf collectSink [] ['{','"','a','"',':','1','}'] 7 ['.','b']
      (some (['2'], [])) =
      (['{','"','a','"',':','1',',','"','b','"',':','2','}'], 0) ∧
    jsonVsetf collectSink [] ['{','"','a','"',':','1','}'] 7 ['.','a']
      (some (['2'], [])) =
      (['{','"','a','"',':','2','}'], 1) := by decide

/-- C4 counterexample: the output of
`printf(sink, "..foo:%d,bar:%Q..", 42, "he\"llo")` is 26 bytes long, not the
25 bytes stated by the specification (the written bytes themselves are
exactly as stated; only the byte count in the spec is off by one). -/
theorem json_printf_example_cex :
    (jsonVprintf collectSink [] ['{','f','o','o',':','%','d',',','b','a','r',':','%','Q','}']
      [.aInt 42, .aStr (some ['h','e','"','l','l','o'])]).1.length ≠ 25 := by decide

/-- C4 (amended): `printf(sink, "..foo:%d,bar:%Q..", 42, "he\"llo")` writes
exactly the 26 bytes of the object in which the bare identifiers `foo` and
`bar` are wrapped in double quotes, `%d` emitted the integer 42, and `%Q`
emitted the argument string quoted with its interior double quote escaped;
the reported total equals the 26 bytes written. -/
theorem json_printf_example :
    jsonVprintf collectSink [] ['{','f','o','o',':','%','d',',','b','a','r',':','%','Q','}']
      [.aInt 42, .aStr (some ['h','e','"','l','l','o'])] =
      (['{','"','f','o','o','"',':','4','2',',','"','b','a','r','"',':','"','h','e','\\','"','l','l','o','"','}'], 26) ∧
    (['{','"','f','o','o','"',':','4','2',',','"','b','a','r','"',':','"','h','e','\\','"','l','l','o','"','}'] : List Char).length = 26 := by
  decide

/-- C5: walking the 22-byte input whose text is an object `a` holding the
array `[1,2,` object `b:true` `]` emits exactly nine callback events, in
order, with paths empty, `.a`, `.a[0]`, `.a[1]`, `.a[2]`, `.a[2].b`,
`.a[2]`, `.a`, empty, and token types OBJECT_START, ARRAY_START, NUMBER,
NUMBER, OBJECT_START, TRUE, OBJECT_END, ARRAY_END, OBJECT_END; the two
NUMBER tokens carry the source slices `1` and `2` respectively. -/
theorem json_walk_events_example :
    jsonWalkEvents ['{','"','a','"',':','[','1',',','2',',','{','"','b','"',':','t','r','u','e','}',']','}'] =
      [⟨none, [], ⟨none, 0, .objectStart⟩⟩,
       ⟨some ['a'], ['.','a'], ⟨none, 0, .arrayStart⟩⟩,
       ⟨some ['0'], ['.','a','[','0',']'], ⟨some 6, 1, .num⟩⟩,
       ⟨some ['1'], ['.','a','[','1',']'], ⟨some 8, 1, .num⟩⟩,
       ⟨some ['2'], ['.','a','[','2',']'], ⟨none, 0, .objectStart⟩⟩,
       ⟨some ['b'], ['.','a','[','2',']','.','b'], ⟨some 15, 4, .tru⟩⟩,
       ⟨none, ['.','a','[','2',']'], ⟨some 10, 10, .objectEnd⟩⟩,
       ⟨none, ['.','a'], ⟨some 5, 16, .arrayEnd⟩⟩,
       ⟨none, [], ⟨some 0, 22, .objectEnd⟩⟩] ∧
    ((['{','"','a','"',':','[','1',',','2',',','{','"','b','"',':','t','r','u','e','}',']','}'] : List Char).drop 6).take 1 = ['1'] ∧
    ((['{','"','a','"',':','[','1',',','2',',','{','"','b','"',':','t','r','u','e','}',']','}'] : List Char).drop 8).take 1 = ['2'] := by
  decide

/-- C6: the deletion call `setf` of path `.a` with NULL format on the
two-member object writes exactly the one-member object keeping `b`, returns
1, and the resulting document has no comma adjacent to an opening or closing
brace or bracket. -/
theorem json_setf_delete_example :
    jsonVsetf collectSink [] ['{','"','a','"',':','1',',','"','b','"',':','2','}'] 13
      ['.','a'] none = (['{','"','b','"',':','2','}'], 1) ∧
    commaBracketAdjacent ['{','"','b','"',':','2','}'] = false := by decide

/-- C9: `scanf` of the full 17-byte document binding `a:%B b:%d` returns 2
(sum of successful conversions), stores a true value through the `%B` target
for the TRUE token at path `.a`, and stores 17 through the `%d` target for
the NUMBER token at path `.b`. -/
theorem json_scanf_example :
    jsonVscanf ['{','"','a','"',':','t','r','u','e',',','"','b','"',':','1','7','}'] 17
      ['{','a',':','%','B',' ','b',':','%','d','}'] =
      (2, [some (.sBool true), some (.sNum 17)]) := by decide

/-! ### Base64 round trip (C8) -/

theorem lor_disjoint : ∀ (n q y : Nat), y < 2 ^ n → q * 2 ^ n ||| y = q * 2 ^ n + y := by
  intro n
  induction n with
  | zero =>
    intro q y hy
    have hy0 : y = 0 := by omega
    subst hy0
    simp
  | succ n ih =>
    intro q y hy
    have hbit : ∀ (b : Bool) (m : Nat), Nat.bit b m = 2 * m + (if b then 1 else 0) := by
      intro b m
      cases b <;> simp [Nat.bit]
    have hpow : (2:Nat) ^ (n + 1) = 2 ^ n * 2 := by ring
    have hy2 : y / 2 < 2 ^ n := by omega
    have hq : q * 2 ^ (n + 1) = Nat.bit false (q * 2 ^ n) := by
      rw [hbit, hpow]
      simp
      ring
    have hdecomp : y = Nat.bit (decide (y % 2 = 1)) (y / 2) := by
      rw [hbit]
      rcases Nat.mod_two_eq_zero_or_one y with h | h <;> simp [h] <;> omega
    calc q * 2 ^ (n + 1) ||| y
        = Nat.bit false (q * 2 ^ n) ||| Nat.bit (decide (y % 2 = 1)) (y / 2) := by
          rw [← hdecomp, ← hq]
      _ = Nat.bit (false || decide (y % 2 = 1)) (q * 2 ^ n ||| y / 2) :=
          Nat.lor_bit false (q * 2 ^ n) (decide (y % 2 = 1)) (y / 2)
      _ = q * 2 ^ (n + 1) + y := by
          rw [ih q (y / 2) hy2, hbit]
          have hq2 : q * 2 ^ (n + 1) = 2 * (q * 2 ^ n) := by rw [hpow]; ring
          rcases Nat.mod_two_eq_zero_or_one y with h | h <;> simp [h] <;> omega

theorem b64rev_b64idx : ∀ k, k < 64 → b64rev (b64idx k) = k := by decide

theorem b64idx_ne_pad : ∀ k, k < 64 → b64idx k ≠ '=' := by decide

theorem b64_byte0 {a b : Nat} (ha : a < 256) (hb : b < 256) :
    ((a / 4) <<< 2 ||| ((a % 4) * 16 + b / 16) >>> 4) % 256 = a := by
  rw [Nat.shiftLeft_eq, Nat.shiftRight_eq_div_pow]
  have h1 : ((a % 4) * 16 + b / 16) / 2 ^ 4 = a % 4 := by omega
  rw [h1]
  have h2 := lor_disjoint 2 (a / 4) (a % 4) (by omega)
  rw [h2]
  omega

theorem b64_byte1 {a b c : Nat} (hb : b < 256) (hc : c < 256) :
    (((a % 4) * 16 + b / 16) <<< 4 ||| ((b % 16) * 4 + c / 64) >>> 2) % 256 = b := by
  rw [Nat.shiftLeft_eq, Nat.shiftRight_eq_div_pow]
  have h1 : ((b % 16) * 4 + c / 64) / 2 ^ 2 = b % 16 := by omega
  rw [h1]
  have h2 := lor_disjoint 4 ((a % 4) * 16 + b / 16) (b % 16) (by omega)
  rw [h2]
  omega

theorem b64_byte2 {b c : Nat} (hc : c < 256) :
    (((b % 16) * 4 + c / 64) <<< 6 ||| c % 64) % 256 = c := by
  rw [Nat.shiftLeft_eq]
  have h2 := lor_disjoint 6 ((b % 16) * 4 + c / 64) (c % 64) (by omega)
  rw [h2]
  omega

theorem b64encRun_acc : ∀ (bs : List Nat) (st : List Char),
    b64encRun collectSink bs st =
      (st ++ (b64encRun collectSink bs []).1, (b64encRun collectSink bs []).2)
  | [], st => by simp [b64encRun]
  | [a], st => by simp [b64encRun, collectSink]
  | [a, b], st => by simp [b64encRun, collectSink]
  | a :: b :: c :: t, st => by
    simp only [b64encRun, collectSink]
    rw [b64encRun_acc t ([] ++ b64group a b c false false),
      b64encRun_acc t (st ++ b64group a b c false false)]
    simp

theorem b64encBytes_cons3 (a b c : Nat) (t : List Nat) :
    b64encBytes (a :: b :: c :: t) = b64group a b c false false ++ b64encBytes t := by
  simp only [b64encBytes, b64encRun, collectSink]
  rw [b64encRun_acc t ([] ++ b64group a b c false false)]
  simp

theorem b64_roundtrip : ∀ (B : List Nat), (∀ x ∈ B, x < 256) →
    b64decRun (b64encBytes B) = B
  | [], _ => rfl
  | [a], h => by
    have ha : a < 256 := h a (by simp)
    show b64decRun [b64idx (a / 4), b64idx ((a % 4) * 16 + 0 / 16), '=', '='] = [a]
    simp only [b64decRun]
    rw [b64rev_b64idx (a / 4) (by omega), b64rev_b64idx ((a % 4) * 16 + 0 / 16) (by omega)]
    simp only [ne_eq, not_true_eq_false, if_false, List.append_nil]
    rw [@b64_byte0 a 0 ha (by omega)]
  | [a, b], h => by
    have ha : a < 256 := h a (by simp)
    have hb : b < 256 := h b (by simp)
    show b64decRun [b64idx (a / 4), b64idx ((a % 4) * 16 + b / 16),
      b64idx ((b % 16) * 4 + 0 / 64), '='] = [a, b]
    simp only [b64decRun]
    rw [b64rev_b64idx (a / 4) (by omega), b64rev_b64idx ((a % 4) * 16 + b / 16) (by omega),
      b64rev_b64idx ((b % 16) * 4 + 0 / 64) (by omega)]
    rw [if_pos (b64idx_ne_pad ((b % 16) * 4 + 0 / 64) (by omega))]
    simp only [ne_eq, not_true_eq_false, if_false, List.append_nil]
    rw [@b64_byte0 a b ha hb, @b64_byte1 a b 0 hb (by omega)]
  | a :: b :: c :: t, h => by
    have ha : a < 256 := h a (by simp)
    have hb : b < 256 := h b (by simp)
    have hc : c < 256 := h c (by simp)
    have ht : ∀ x ∈ t, x < 256 := fun x hx => h x (by simp [hx])
    rw [b64encBytes_cons3]
    show b64decRun ([b64idx (a / 4), b64idx ((a % 4) * 16 + b / 16),
      b64idx ((b % 16) * 4 + c / 64), b64idx (c % 64)] ++ b64encBytes t) = a :: b :: c :: t
    simp only [List.cons_append, List.nil_append, b64decRun]
    rw [b64rev_b64idx (a / 4) (by omega), b64rev_b64idx ((a % 4) * 16 + b / 16) (by omega),
      b64rev_b64idx ((b % 16) * 4 + c / 64) (by omega), b64rev_b64idx (c % 64) (by omega)]
    rw [if_pos (b64idx_ne_pad ((b % 16) * 4 + c / 64) (by omega)),
      if_pos (b64idx_ne_pad (c % 64) (by omega))]
    rw [@b64_byte0 a b ha hb, @b64_byte1 a b c hb hc, @b64_byte2 b c hc]
    show a :: ([b, c] ++ b64decRun ([] ++ b64encBytes t)) = a :: b :: c :: t
    rw [List.nil_append, b64_roundtrip t ht]
    rfl

/-! ### Sink-independence of the reported printf total (C7) -/

/-- A sink is length-faithful when it reports exactly the number of bytes
of each write (as `json_printer_buf` and any plain writer do). -/
def LenFaithful {σ : Type} (p : SinkP σ) : Prop :=
  ∀ (st : σ) (d : List Char), (p st d).2 = d.length

theorem collectSink_faithful : LenFaithful collectSink := fun _ _ => rfl

theorem jsonPrinterBuf_faithful : LenFaithful jsonPrinterBuf := fun _ _ => rfl

theorem emitEach_count {σ τ : Type} (p : SinkP σ) (q : SinkP τ)
    (hp : LenFaithful p) (hq : LenFaithful q) :
    ∀ (l : List Char) (stp : σ) (stq : τ),
    (emitEach p l stp).2 = (emitEach q l stq).2
  | [], _, _ => rfl
  | ch :: t, stp, stq => by
    simp only [emitEach]
    rw [hp, hq, emitEach_count p q hp hq t (p stp [ch]).1 (q stq [ch]).1]

theorem jsonEscapeRun_count {σ τ : Type} (p : SinkP σ) (q : SinkP τ)
    (hp : LenFaithful p) (hq : LenFaithful q) :
    ∀ (l : List Char) (stp : σ) (stq : τ),
    (jsonEscapeRun p l stp).2 = (jsonEscapeRun q l stq).2
  | [], _, _ => rfl
  | ch :: t, stp, stq => by
    simp only [jsonEscapeRun]
    rw [hp, hq, jsonEscapeRun_count p q hp hq t (p stp (escByte ch)).1 (q stq (escByte ch)).1]

theorem b64encRun_count {σ τ : Type} (p : SinkP σ) (q : SinkP τ)
    (hp : LenFaithful p) (hq : LenFaithful q) :
    ∀ (bs : List Nat) (stp : σ) (stq : τ),
    (b64encRun p bs stp).2 = (b64encRun q bs stq).2
  | [], _, _ => rfl
  | [a], stp, stq => by
    simp only [b64encRun]
    rw [hp, hq]
  | [a, b], stp, stq => by
    simp only [b64encRun]
    rw [hp, hq]
  | a :: b :: c :: t, stp, stq => by
    simp only [b64encRun]
    rw [hp, hq, b64encRun_count p q hp hq t (p stp (b64group a b c false false)).1
      (q stq (b64group a b c false false)).1]

theorem emitEach_collect : ∀ (l : List Char) (st : List Char),
    ∃ out, emitEach collectSink l st = (st ++ out, out.length)
  | [], st => ⟨[], by simp [emitEach]⟩
  | ch :: t, st => by
    obtain ⟨out2, h2⟩ := emitEach_collect t (st ++ [ch])
    refine ⟨[ch] ++ out2, ?_⟩
    simp only [emitEach, collectSink]
    rw [h2]
    simp [List.append_assoc, Nat.add_comm]

theorem jsonEscapeRun_collect : ∀ (l : List Char) (st : List Char),
    ∃ out, jsonEscapeRun collectSink l st = (st ++ out, out.length)
  | [], st => ⟨[], by simp [jsonEscapeRun]⟩
  | ch :: t, st => by
    obtain ⟨out2, h2⟩ := jsonEscapeRun_collect t (st ++ escByte ch)
    refine ⟨escByte ch ++ out2, ?_⟩
    simp only [jsonEscapeRun, collectSink]
    rw [h2]
    simp [List.append_assoc, Nat.add_comm]

theorem b64encRun_collect : ∀ (bs : List Nat) (st : List Char),
    ∃ out, b64encRun collectSink bs st = (st ++ out, out.length)
  | [], st => ⟨[], by simp [b64encRun]⟩
  | [a], st => ⟨b64group a 0 0 true true, rfl⟩
  | [a, b], st => ⟨b64group a b 0 false true, rfl⟩
  | a :: b :: c :: t, st => by
    obtain ⟨out2, h2⟩ := b64encRun_collect t (st ++ b64group a b c false false)
    refine ⟨b64group a b c false false ++ out2, ?_⟩
    simp only [b64encRun, collectSink]
    rw [h2]
    simp [List.append_assoc, Nat.add_comm]

theorem collect_pair (rest : List Char → List Char × Nat)
    (hrest : ∀ s1, ∃ out, rest s1 = (s1 ++ out, out.length)) (st : List Char) :
    ∃ out, ((rest st).1, (rest st).2) = (st ++ out, out.length) := by
  obtain ⟨o, h⟩ := hrest st
  exact ⟨o, by rw [h]⟩

theorem collect_step (D : List Char) (rest : List Char → List Char × Nat)
    (hrest : ∀ s1, ∃ out, rest s1 = (s1 ++ out, out.length)) (st : List Char) :
    ∃ out,
      ((rest (collectSink st D).1).1,
        (collectSink st D).2 + (rest (collectSink st D).1).2) =
      (st ++ out, out.length) := by
  obtain ⟨o, h⟩ := hrest (st ++ D)
  refine ⟨D ++ o, ?_⟩
  simp only [collectSink]
  rw [h]
  simp [List.append_assoc, Nat.add_comm]

theorem collect_quoted (D1 D2 : List Char)
    (sub rest : List Char → List Char × Nat)
    (hsub : ∀ s1, ∃ out, sub s1 = (s1 ++ out, out.length))
    (hrest : ∀ s1, ∃ out, rest s1 = (s1 ++ out, out.length)) (st : List Char) :
    ∃ out,
      ((rest (collectSink (sub (collectSink st D1).1).1 D2).1).1,
        (collectSink st D1).2 + (sub (collectSink st D1).1).2 +
          (collectSink (sub (collectSink st D1).1).1 D2).2 +
          (rest (collectSink (sub (collectSink st D1).1).1 D2).1).2) =
      (st ++ out, out.length) := by
  obtain ⟨oS, hS⟩ := hsub (st ++ D1)
  obtain ⟨oR, hR⟩ := hrest (st ++ D1 ++ oS ++ D2)
  refine ⟨D1 ++ oS ++ D2 ++ oR, ?_⟩
  simp only [collectSink]
  rw [hS]
  dsimp only
  rw [hR]
  simp only [Prod.mk.injEq, List.append_assoc, List.length_append]
  exact ⟨trivial, by omega⟩

theorem runVPstep_collect (rec : List Char → List FmtArg → List Char → List Char × Nat)
    (hrec : ∀ fmt2 args2 s1, ∃ out, rec fmt2 args2 s1 = (s1 ++ out, out.length))
    (f0 : Char) (frest : List Char) (args : List FmtArg) (st : List Char) :
    ∃ out, runVPstep collectSink rec f0 frest args st = (st ++ out, out.length) := by
  delta runVPstep
  dsimp only []
  by_cases c1 : isStructuralFmt f0 = true
  · rw [if_pos c1]
    exact collect_step _ _ (fun s1 => hrec _ _ s1) st
  · rw [if_neg c1]
    by_cases c2 : f0 = '%'
    · rw [if_pos c2]
      by_cases c3 : frest.getD 0 (Char.ofNat 0) = 'M'
      · rw [if_pos c3]
        exact collect_pair _ (fun s1 => hrec _ _ s1) st
      · rw [if_neg c3]
        by_cases c4 : frest.getD 0 (Char.ofNat 0) = 'B'
        · rw [if_pos c4]
          exact collect_step _ _ (fun s1 => hrec _ _ s1) st
        · rw [if_neg c4]
          by_cases c5 : frest.getD 0 (Char.ofNat 0) = 'H'
          · rw [if_pos c5]
            exact collect_quoted _ _ _ _ (fun s1 => emitEach_collect _ s1)
              (fun s1 => hrec _ _ s1) st
          · rw [if_neg c5]
            by_cases c6 : frest.getD 0 (Char.ofNat 0) = 'V'
            · rw [if_pos c6]
              exact collect_quoted _ _ _ _ (fun s1 => b64encRun_collect _ s1)
                (fun s1 => hrec _ _ s1) st
            · rw [if_neg c6]
              by_cases c7 : frest.getD 0 (Char.ofNat 0) = 'Q' ∨
                  (frest.getD 0 (Char.ofNat 0) = '.' ∧
                   frest.getD 1 (Char.ofNat 0) = '*' ∧
                   frest.getD 2 (Char.ofNat 0) = 'Q')
              · rw [if_pos c7]
                rcases hargs : args.getD
                    (if frest.getD 0 (Char.ofNat 0) = '.' then 1 else 0)
                    (.aStr none) with n | ch | v | bs
                · exact collect_step _ _ (fun s1 => hrec _ _ s1) st
                · exact collect_step _ _ (fun s1 => hrec _ _ s1) st
                · cases v with
                  | none =>
                    exact collect_step _ _ (fun s1 => hrec _ _ s1) st
                  | some str =>
                    exact collect_quoted _ _ _ _ (fun s1 => jsonEscapeRun_collect _ s1)
                      (fun s1 => hrec _ _ s1) st
                · exact collect_step _ _ (fun s1 => hrec _ _ s1) st
              · rw [if_neg c7]
                rcases hscan : scanDefaultDirective (f0 :: frest) with ⟨n2, dyn2, lm2, spec2⟩
                exact collect_step _ _ (fun s1 => hrec _ _ s1) st
    · rw [if_neg c2]
      by_cases c8 : (f0 = '_' || is_alpha f0) = true
      · rw [if_pos c8]
        exact collect_quoted _ _ _ _ (fun s1 => emitEach_collect _ s1)
          (fun s1 => hrec _ _ s1) st
      · rw [if_neg c8]
        exact collect_step _ _ (fun s1 => hrec _ _ s1) st

theorem runVP_collect : ∀ (fuel : Nat) (fmt : List Char) (args : List FmtArg)
    (st : List Char),
    ∃ out, runVP collectSink fuel fmt args st = (st ++ out, out.length)
  | 0, fmt, args, st => ⟨[], by
      rw [show runVP collectSink 0 fmt args st = (st, 0) from rfl]
      simp⟩
  | fuel + 1, [], args, st => ⟨[], by
      rw [show runVP collectSink (fuel + 1) [] args st = (st, 0) from rfl]
      simp⟩
  | fuel + 1, f0 :: frest, args, st => by
    rw [show runVP collectSink (fuel + 1) (f0 :: frest) args st =
      runVPstep collectSink (runVP collectSink fuel) f0 frest args st from rfl]
    exact runVPstep_collect (runVP collectSink fuel)
      (fun fmt2 args2 s1 => runVP_collect fuel fmt2 args2 s1) f0 frest args st

theorem runVPstep_count {σ τ : Type} (p : SinkP σ) (q : SinkP τ)
    (hp : LenFaithful p) (hq : LenFaithful q)
    (recp : List Char → List FmtArg → σ → σ × Nat)
    (recq : List Char → List FmtArg → τ → τ × Nat)
    (hrec : ∀ fmt2 args2 sp sq, (recp fmt2 args2 sp).2 = (recq fmt2 args2 sq).2)
    (f0 : Char) (frest : List Char) (args : List FmtArg) (stp : σ) (stq : τ) :
    (runVPstep p recp f0 frest args stp).2 = (runVPstep q recq f0 frest args stq).2 := by
  delta runVPstep
  dsimp only []
  by_cases c1 : isStructuralFmt f0 = true
  · simp only [if_pos c1]
    rw [hp, hq, hrec]
  · simp only [if_neg c1]
    by_cases c2 : f0 = '%'
    · simp only [if_pos c2]
      by_cases c3 : frest.getD 0 (Char.ofNat 0) = 'M'
      · simp only [if_pos c3]
        rw [hrec]
      · simp only [if_neg c3]
        by_cases c4 : frest.getD 0 (Char.ofNat 0) = 'B'
        · simp only [if_pos c4]
          rw [hp, hq, hrec]
        · simp only [if_neg c4]
          by_cases c5 : frest.getD 0 (Char.ofNat 0) = 'H'
          · simp only [if_pos c5]
            rw [hp, hq, hp, hq, emitEach_count p q hp hq, hrec]
          · simp only [if_neg c5]
            by_cases c6 : frest.getD 0 (Char.ofNat 0) = 'V'
            · simp only [if_pos c6]
              rw [hp, hq, hp, hq, b64encRun_count p q hp hq, hrec]
            · simp only [if_neg c6]
              by_cases c7 : frest.getD 0 (Char.ofNat 0) = 'Q' ∨
                  (frest.getD 0 (Char.ofNat 0) = '.' ∧
                   frest.getD 1 (Char.ofNat 0) = '*' ∧
                   frest.getD 2 (Char.ofNat 0) = 'Q')
              · simp only [if_pos c7]
                rcases hargs : args.getD
                    (if frest.getD 0 (Char.ofNat 0) = '.' then 1 else 0)
                    (.aStr none) with n | ch | v | bs
                · dsimp only
                  rw [hp, hq, hrec]
                · dsimp only
                  rw [hp, hq, hrec]
                · cases v with
                  | none =>
                    dsimp only
                    rw [hp, hq, hrec]
                  | some str =>
                    dsimp only
                    rw [hp, hq, hp, hq, jsonEscapeRun_count p q hp hq, hrec]
                · dsimp only
                  rw [hp, hq, hrec]
              · simp only [if_neg c7]
                rcases hscan : scanDefaultDirective (f0 :: frest) with ⟨n2, dyn2, lm2, spec2⟩
                dsimp only
                rw [hp, hq, hrec]
    · simp only [if_neg c2]
      by_cases c8 : (f0 = '_' || is_alpha f0) = true
      · simp only [if_pos c8]
        rw [hp, hq, hp, hq, emitEach_count p q hp hq, hrec]
      · simp only [if_neg c8]
        rw [hp, hq, hrec]

theorem runVP_count {σ τ : Type} (p : SinkP σ) (q : SinkP τ)
    (hp : LenFaithful p) (hq : LenFaithful q) :
    ∀ (fuel : Nat) (fmt : List Char) (args : List FmtArg) (stp : σ) (stq : τ),
    (runVP p fuel fmt args stp).2 = (runVP q fuel fmt args stq).2
  | 0, _, _, _, _ => rfl
  | _ + 1, [], _, _, _ => rfl
  | fuel + 1, f0 :: frest, args, stp, stq => by
    rw [show runVP p (fuel + 1) (f0 :: frest) args stp =
      runVPstep p (runVP p fuel) f0 frest args stp from rfl]
    rw [show runVP q (fuel + 1) (f0 :: frest) args stq =
      runVPstep q (runVP q fuel) f0 frest args stq from rfl]
    exact runVPstep_count p q hp hq (runVP p fuel) (runVP q fuel)
      (fun fmt2 args2 sp sq => runVP_count p q hp hq fuel fmt2 args2 sp sq)
      f0 frest args stp stq

theorem set_getD_nul (l : List Char) (i : Nat) (h : i < l.length) :
    (l.set i (Char.ofNat 0)).getD i (Char.ofNat 0) = Char.ofNat 0 := by
  rw [List.getD_eq_getElem?_getD, List.getElem?_set_self h]
  rfl

/-- C7: the buffer sink honours its contract on every write: it reports the
full requested length, advances `len` by at most the remaining capacity,
never grows the backing array, and keeps a NUL terminator at the position
`min(len, size - 1)` whenever the capacity is positive; consequently the
total reported by `json_vprintf` through a buffer sink of any (possibly
zero) capacity equals the number of bytes a sufficiently large sink would
receive. -/
theorem json_printer_buf_contract :
    (∀ (out : JOutBuf) (data : List Char),
      (jsonPrinterBuf out data).2 = data.length) ∧
    (∀ (out : JOutBuf) (data : List Char),
      (jsonPrinterBuf out data).1.len = out.len + min data.length (out.size - out.len) ∧
      (out.len ≤ out.size → (jsonPrinterBuf out data).1.len ≤ out.size) ∧
      (out.buf.length = out.size → out.len ≤ out.size →
        (jsonPrinterBuf out data).1.buf.length = out.buf.length) ∧
      (out.buf.length = out.size → out.len ≤ out.size → 0 < out.size →
        ((jsonPrinterBuf out data).1.buf).getD
          (min (jsonPrinterBuf out data).1.len (out.size - 1)) (Char.ofNat 0) =
          Char.ofNat 0)) ∧
    (∀ (out : JOutBuf) (fmt : List Char) (args : List FmtArg),
      (jsonVprintf jsonPrinterBuf out fmt args).2 = (jsonVprintfBytes fmt args).length) := by
  refine ⟨fun out data => rfl, fun out data => ⟨rfl, ?_, ?_, ?_⟩, ?_⟩
  · intro hls
    show out.len + min data.length (out.size - out.len) ≤ out.size
    omega
  · intro hbl hls
    simp only [jsonPrinterBuf]
    split_ifs with hpos <;> (simp [List.length_set]; omega)
  · intro hbl hls hpos
    simp only [jsonPrinterBuf]
    rw [if_pos hpos]
    have hb1 : (out.buf.take out.len ++ List.take (min data.length (out.size - out.len)) data ++
        out.buf.drop (out.len + min data.length (out.size - out.len))).length = out.size := by
      simp only [List.length_append, List.length_take, List.length_drop]
      omega
    have hidx : min (out.len + min data.length (out.size - out.len)) (out.size - 1) =
        (if out.size ≤ out.len + min data.length (out.size - out.len) then out.size - 1
         else out.len + min data.length (out.size - out.len)) := by
      split_ifs with hc <;> omega
    rw [hidx]
    refine set_getD_nul _ _ ?_
    rw [hb1]
    split_ifs with hc <;> omega
  · intro out fmt args
    obtain ⟨outB, hB⟩ := runVP_collect (fmt.length + 1) fmt args []
    have hcnt := runVP_count jsonPrinterBuf collectSink jsonPrinterBuf_faithful
      collectSink_faithful (fmt.length + 1) fmt args out []
    simp only [jsonVprintf, jsonVprintfBytes]
    rw [hcnt, hB]
    simp

theorem json_printer_buf_contract_witness :
    (jsonPrinterBuf ⟨['x','x','x','x'], 4, 0⟩ ['a','b','c','d','e']).2 = 5 ∧
    ((⟨['x','x','x','x'], 4, 0⟩ : JOutBuf).buf.length =
        (⟨['x','x','x','x'], 4, 0⟩ : JOutBuf).size →
      (⟨['x','x','x','x'], 4, 0⟩ : JOutBuf).len ≤ (⟨['x','x','x','x'], 4, 0⟩ : JOutBuf).size →
      0 < (⟨['x','x','x','x'], 4, 0⟩ : JOutBuf).size →
      ((jsonPrinterBuf ⟨['x','x','x','x'], 4, 0⟩ ['a','b','c','d','e']).1.buf).getD
        (min (jsonPrinterBuf ⟨['x','x','x','x'], 4, 0⟩ ['a','b','c','d','e']).1.len
          ((⟨['x','x','x','x'], 4, 0⟩ : JOutBuf).size - 1)) (Char.ofNat 0) =
        Char.ofNat 0) ∧
    (jsonVprintf jsonPrinterBuf ⟨['x','x'], 2, 0⟩
      ['%','d'] [.aInt 12345]).2 = (jsonVprintfBytes ['%','d'] [.aInt 12345]).length :=
  ⟨json_printer_buf_contract.1 ⟨['x','x','x','x'], 4, 0⟩ ['a','b','c','d','e'],
   (json_printer_buf_contract.2.1 ⟨['x','x','x','x'], 4, 0⟩ ['a','b','c','d','e']).2.2.2,
   json_printer_buf_contract.2.2 ⟨['x','x'], 2, 0⟩ ['%','d'] [.aInt 12345]⟩

/-- C8: decoding the base64 encoding of any byte string `B` (each element a
byte value below 256) yields exactly `B`; the encoder emits
standard-alphabet groups of four characters per three input bytes with
padding `=` on a short final group, and the decoder inverts it. -/
theorem b64_enc_dec_roundtrip (B : List Nat) (hB : ∀ x ∈ B, x < 256) :
    b64decRun (b64encBytes B) = B :=
  b64_roundtrip B hB

theorem b64_enc_dec_roundtrip_witness :
    (∀ x ∈ ([] : List Nat), x < 256) ∧ b64decRun (b64encBytes []) = [] ∧
    (∀ x ∈ [255], x < 256) ∧ b64decRun (b64encBytes [255]) = [255] ∧
    (∀ x ∈ [0, 255], x < 256) ∧ b64decRun (b64encBytes [0, 255]) = [0, 255] ∧
    (∀ x ∈ [10, 20, 30], x < 256) ∧ b64decRun (b64encBytes [10, 20, 30]) = [10, 20, 30] ∧
    (∀ x ∈ [1, 2, 3, 4], x < 256) ∧ b64decRun (b64encBytes [1, 2, 3, 4]) = [1, 2, 3, 4] :=
  ⟨by decide, b64_enc_dec_roundtrip [] (by decide),
   by decide, b64_enc_dec_roundtrip [255] (by decide),
   by decide, b64_enc_dec_roundtrip [0, 255] (by decide),
   by decide, b64_enc_dec_roundtrip [10, 20, 30] (by decide),
   by decide, b64_enc_dec_roundtrip [1, 2, 3, 4] (by decide)⟩

end Frozen
